import Mathlib

/-!
# The in-memory write path of the storage engine

A shallow embedding of `util/comparator.cc`, `util/arena.{h,cc}`,
`db/memtable.cc` and the cleanup list of `include/leveldb/iterator.h`, with the
properties of the byte-wise comparator, of the arena, of the write buffer
(`MemTable`) and of the cursor proved about it.

Conventions of the embedding:

* a byte is a `Fin 256`; `char`, `uint8_t` share this type, and a cast to
  `uint8_t` followed by an integer comparison is a comparison of `.val`;
* a `Slice` and a `std::string` are the list of their bytes;
* a `const char*` into a record is the list of the bytes from the pointer to the
  end of the record;
* `uint32_t` / `uint64_t` arithmetic is arithmetic on `Nat` with an explicit
  `% 2 ^ 32` / `% 2 ^ 64` wherever the source can wrap.
-/

namespace leveldb

/-- One byte (`char` / `uint8_t`). -/
abbrev Byte := Fin 256

/-- The contents of a `Slice` (and of a `std::string`). -/
abbrev Slice := List Byte

/-- The bytes of a string literal, one byte per (ASCII) character. -/
def bytesOf (s : String) : List Byte :=
  s.toList.map (fun c => Fin.ofNat c.toNat)

/-! ## `Slice::compare` -/

/-- Modelled from the spec: `memcmp` over the first `n` bytes, which
`Slice::compare` (include/leveldb/slice.h, not among the sources) is
implemented with. The spec calls the order "lexicographic byte-wise order
(three-way compare)"; the result is normalised to `-1`, `0`, `1`, bytes being
compared as unsigned. -/
def memcmp : List Byte → List Byte → Nat → Int
  | x :: xs, y :: ys, n + 1 =>
      if x.val < y.val then -1 else if y.val < x.val then 1 else memcmp xs ys n
  | _, _, _ => 0

/-- Modelled from the spec: `Slice::compare` (include/leveldb/slice.h, not among
the sources), the three-way lexicographic byte-wise comparison: `memcmp` on the
common length, then the shorter slice first. -/
def Slice.compare (a b : Slice) : Int :=
  let min_len := if a.length < b.length then a.length else b.length
  let r := memcmp a b min_len
  if r = 0 then
    if a.length < b.length then -1
    else if a.length > b.length then 1
    else r
  else r

/-! ## `Comparator` and `BytewiseComparatorImpl` -/

/-- The `Comparator` interface of include/leveldb/comparator.h: its virtual
methods (`Name` apart). The two `Find...` methods return the new contents of the
string they update in place. -/
structure Comparator where
  Compare : Slice → Slice → Int
  FindShortestSeparator : List Byte → Slice → List Byte
  FindShortSuccessor : List Byte → List Byte

namespace BytewiseComparatorImpl

/-- Embedding of `BytewiseComparatorImpl::Compare`. -/
def Compare (a b : Slice) : Int := Slice.compare a b

/-- The loop `while ((diff_index < min_length) && ((*start)[diff_index] ==
limit[diff_index])) diff_index++;` of `FindShortestSeparator`. It runs at most
`min_length` times, which is the fuel it is started with. -/
def diffIndexLoop (start : List Byte) (limit : Slice) (min_length : Nat) :
    Nat → Nat → Nat
  | 0, diff_index => diff_index
  | fuel + 1, diff_index =>
      if diff_index < min_length ∧ start.getD diff_index 0 = limit.getD diff_index 0 then
        diffIndexLoop start limit min_length fuel (diff_index + 1)
      else diff_index

/-- Embedding of `BytewiseComparatorImpl::FindShortestSeparator`; the result is
the new `*start`. -/
def FindShortestSeparator (start : List Byte) (limit : Slice) : List Byte :=
  let min_length := min start.length limit.length
  let diff_index := diffIndexLoop start limit min_length min_length 0
  if diff_index ≥ min_length then
    -- Do not shorten if one string is a prefix of the other
    start
  else
    let diff_byte : Nat := (start.getD diff_index 0).val
    if diff_byte < 0xff ∧ diff_byte + 1 < (limit.getD diff_index 0).val then
      (start.set diff_index (start.getD diff_index 0 + 1)).take (diff_index + 1)
    else start

/-- The loop `for (size_t i = 0; i < n; i++)` of `FindShortSuccessor`, from index
`i` on: the first byte that is not `0xff` is incremented and the string cut
after it. It runs at most `n` times, which is the fuel it is started with. -/
def shortSuccessorLoop (key : List Byte) (n : Nat) : Nat → Nat → List Byte
  | 0, _ => key
  | fuel + 1, i =>
      if i < n then
        let byte := key.getD i 0
        if byte.val ≠ 0xff then (key.set i (byte + 1)).take (i + 1)
        else shortSuccessorLoop key n fuel (i + 1)
      else key  -- *key is a run of 0xffs.  Leave it alone.

/-- Embedding of `BytewiseComparatorImpl::FindShortSuccessor`; the result is the
new `*key`. -/
def FindShortSuccessor (key : List Byte) : List Byte :=
  let n := key.length
  shortSuccessorLoop key n n 0

end BytewiseComparatorImpl

/-- Embedding of `BytewiseComparator()`: the builtin comparator. -/
def BytewiseComparator : Comparator where
  Compare := BytewiseComparatorImpl.Compare
  FindShortestSeparator := BytewiseComparatorImpl.FindShortestSeparator
  FindShortSuccessor := BytewiseComparatorImpl.FindShortSuccessor

/-- The reference definition of `FindShortestSeparator` in the words of the
specification: the length of the longest common prefix of two byte strings. -/
def commonLength : List Byte → List Byte → Nat
  | x :: xs, y :: ys => if x = y then commonLength xs ys + 1 else 0
  | _, _ => 0

/-- The reference definition of `FindShortestSeparator` in the words of the
specification: with `i` the length of the longest common prefix, `start` is
unchanged when one string is a prefix of the other; otherwise, when the byte
`start[i]` is not `0xFF` and `start[i] + 1 < limit[i]`, the result is the first
`i` bytes of `start` followed by the byte `start[i] + 1`; in every remaining
case `start` is unchanged. -/
def FindShortestSeparator_reference (start limit : List Byte) : List Byte :=
  let i := commonLength start limit
  if i = min start.length limit.length then start
  else if (start.getD i 0).val ≠ 0xff ∧ (start.getD i 0).val + 1 < (limit.getD i 0).val then
    start.take i ++ [start.getD i 0 + 1]
  else start

/-- The contract of include/leveldb/comparator.h, "a Comparator object provides a
total order across slices": `Compare` is `== 0` iff the slices are equal, its
sign flips when its arguments are exchanged, and the order is transitive. -/
structure Comparator.IsTotalOrder (c : Comparator) : Prop where
  eq_zero_iff : ∀ a b : Slice, c.Compare a b = 0 ↔ a = b
  swap : ∀ a b : Slice, c.Compare a b < 0 ↔ 0 < c.Compare b a
  trans : ∀ a b d : Slice, c.Compare a b ≤ 0 → c.Compare b d ≤ 0 → c.Compare a d ≤ 0

/-! ## `Arena` (util/arena.h, util/arena.cc) -/

/-- A `char*` into the arena: the block it points into, as the index of the
block in `blocks_`, and the byte offset in that block. -/
structure ArenaPtr where
  block : Nat
  offset : Nat
deriving DecidableEq

/-- The state of an `Arena`. `blocks_` keeps, for every block obtained with
`new char[block_bytes]`, its size, in `push_back` order; `nullptr` is `none`. -/
structure Arena where
  alloc_ptr_ : Option ArenaPtr
  alloc_bytes_remaining_ : Nat
  blocks_ : List Nat
  memory_usage_ : Nat
deriving DecidableEq

namespace Arena

/-- Embedding of `static const int kBlockSize = 4096;` -/
def kBlockSize : Nat := 4096

/-- Embedding of `sizeof(char*)` on the 64-bit targets of the library. -/
def sizeofCharPtr : Nat := 8

/-- Embedding of `Arena::Arena()`. -/
def new : Arena :=
  { alloc_ptr_ := none, alloc_bytes_remaining_ := 0, blocks_ := [], memory_usage_ := 0 }

/-- Embedding of `ptr += bytes` on a `char*`; the null pointer is only ever
advanced by 0. -/
def advance (p : Option ArenaPtr) (bytes : Nat) : Option ArenaPtr :=
  p.map (fun q => { q with offset := q.offset + bytes })

/-- Embedding of `Arena::MemoryUsage`. -/
def MemoryUsage (a : Arena) : Nat := a.memory_usage_

/-- Embedding of `Arena::AllocateNewBlock`: the new block and the updated arena.
-/
def AllocateNewBlock (a : Arena) (block_bytes : Nat) : ArenaPtr × Arena :=
  let result : ArenaPtr := { block := a.blocks_.length, offset := 0 }
  (result, { a with blocks_ := a.blocks_ ++ [block_bytes],
                    memory_usage_ := a.memory_usage_ + (block_bytes + sizeofCharPtr) })

/-- Embedding of `Arena::AllocateFallback`. -/
def AllocateFallback (a : Arena) (bytes : Nat) : Option ArenaPtr × Arena :=
  if bytes > kBlockSize / 4 then
    -- Object is more than a quarter of our block size.  Allocate it separately
    let (result, a1) := a.AllocateNewBlock bytes
    (some result, a1)
  else
    -- We waste the remaining space in the current block.
    let (p, a1) := a.AllocateNewBlock kBlockSize
    let result := some p
    (result, { a1 with alloc_ptr_ := advance (some p) bytes,
                       alloc_bytes_remaining_ := kBlockSize - bytes })

/-- Embedding of `Arena::Allocate` (the `assert(bytes > 0)` is the caller's
obligation). -/
def Allocate (a : Arena) (bytes : Nat) : Option ArenaPtr × Arena :=
  if bytes ≤ a.alloc_bytes_remaining_ then
    let result := a.alloc_ptr_
    (result, { a with alloc_ptr_ := advance a.alloc_ptr_ bytes,
                      alloc_bytes_remaining_ := a.alloc_bytes_remaining_ - bytes })
  else a.AllocateFallback bytes

end Arena

/-! ## `Arena::AllocateAligned` and sequences of allocations -/

namespace Arena

/-- The number `reinterpret_cast<uintptr_t>(p)` of a pointer into the arena, for
the addresses `base b` at which `new` placed the blocks; the null pointer is 0. -/
def uintptr (base : Nat → Nat) : Option ArenaPtr → Nat
  | none => 0
  | some p => base p.block + p.offset

/-- Embedding of `Arena::AllocateAligned`, for the addresses `base` of the
blocks. `size_t` has 64 bits, as `sizeof(void*)` is 8: the sum `bytes + slop`
wraps modulo `2 ^ 64`. -/
def AllocateAligned (base : Nat → Nat) (a : Arena) (bytes : Nat) : Option ArenaPtr × Arena :=
  let align : Nat := if sizeofCharPtr > 8 then sizeofCharPtr else 8
  let current_mod := uintptr base a.alloc_ptr_ &&& (align - 1)
  let slop := if current_mod = 0 then 0 else align - current_mod
  let needed := (bytes + slop) % 2 ^ 64
  if needed ≤ a.alloc_bytes_remaining_ then
    let result := advance a.alloc_ptr_ slop
    (result, { a with alloc_ptr_ := advance a.alloc_ptr_ needed,
                      alloc_bytes_remaining_ := a.alloc_bytes_remaining_ - needed })
  else
    -- AllocateFallback always returned aligned memory
    a.AllocateFallback bytes

end Arena

/-- One call on an `Arena`: `Allocate(bytes)` or `AllocateAligned(bytes)`. -/
inductive ArenaCall where
  | Allocate (bytes : Nat)
  | AllocateAligned (bytes : Nat)
deriving DecidableEq

/-- The number of bytes that a call asks for. -/
def ArenaCall.bytes : ArenaCall → Nat
  | .Allocate n => n
  | .AllocateAligned n => n

namespace Arena

/-- One call on an arena: the returned pointer and the arena after the call. -/
def call (base : Nat → Nat) (a : Arena) : ArenaCall → Option ArenaPtr × Arena
  | .Allocate n => a.Allocate n
  | .AllocateAligned n => a.AllocateAligned base n

/-- The arena after a sequence of calls, in order. -/
def after (base : Nat → Nat) (a : Arena) (calls : List ArenaCall) : Arena :=
  calls.foldl (fun a c => (a.call base c).2) a

/-- The pointers that a sequence of calls returns, in order, each with the number
of bytes asked for. -/
def returned (base : Nat → Nat) (a : Arena) : List ArenaCall → List (Option ArenaPtr × Nat)
  | [] => []
  | c :: calls => ((a.call base c).1, c.bytes) :: returned base (a.call base c).2 calls

end Arena

/-! ## Coding of integers (util/coding.h) -/

/-- A `const char*` into a record: the bytes from the pointer to the end of the
record. -/
abbrev CharPtr := List Byte

/-- A conversion to `uint8_t`: the value modulo 256. -/
def toByte (n : Nat) : Byte := ⟨n % 256, Nat.mod_lt _ (by decide)⟩

/-- Modelled from the spec: `EncodeVarint32` of util/coding.h (not among the
sources), which writes what the spec calls `varint32(n)`: the base-128
little-endian encoding of the `uint32_t` value, seven bits per byte, the high
bit of a byte set when another byte follows; one to five bytes. -/
def EncodeVarint32 (value : Nat) : List Byte :=
  let v := value % 2 ^ 32
  if v < 2 ^ 7 then [toByte v]
  else if v < 2 ^ 14 then [toByte (v % 128 + 128), toByte (v / 2 ^ 7)]
  else if v < 2 ^ 21 then
    [toByte (v % 128 + 128), toByte (v / 2 ^ 7 % 128 + 128), toByte (v / 2 ^ 14)]
  else if v < 2 ^ 28 then
    [toByte (v % 128 + 128), toByte (v / 2 ^ 7 % 128 + 128),
      toByte (v / 2 ^ 14 % 128 + 128), toByte (v / 2 ^ 21)]
  else
    [toByte (v % 128 + 128), toByte (v / 2 ^ 7 % 128 + 128),
      toByte (v / 2 ^ 14 % 128 + 128), toByte (v / 2 ^ 21 % 128 + 128), toByte (v / 2 ^ 28)]

/-- Modelled from the spec: `PutVarint32` of util/coding.h (not among the
sources) appends `varint32(v)` to a string. -/
def PutVarint32 (dst : List Byte) (v : Nat) : List Byte := dst ++ EncodeVarint32 v

/-- Modelled from the spec: the loop of `VarintLength` of util/coding.h (not
among the sources): one more byte for every seven bits beyond the first seven.
A `uint64_t` needs at most ten bytes, which is the fuel. -/
def VarintLengthLoop : Nat → Nat → Nat → Nat
  | 0, _, len => len
  | fuel + 1, v, len => if v ≥ 128 then VarintLengthLoop fuel (v / 128) (len + 1) else len

/-- Modelled from the spec: `VarintLength` of util/coding.h (not among the
sources): the number of bytes of the base-128 encoding of a `uint64_t`. -/
def VarintLength (v : Nat) : Nat := VarintLengthLoop 10 (v % 2 ^ 64) 1

/-- Modelled from the spec: the loop of the decoder of `varint32` of
util/coding.h (not among the sources): at most `n` more bytes are read, the
seven low bits of each are placed at `shift`, and the first byte whose high bit
is clear ends the number. `none` is the null pointer the decoder returns on a
malformed number. -/
def GetVarint32Loop : Nat → Nat → Nat → CharPtr → Option (Nat × CharPtr)
  | 0, _, _, _ => none
  | _ + 1, _, _, [] => none
  | n + 1, shift, result, byte :: p =>
      if byte.val ≥ 128 then
        -- More bytes are present
        GetVarint32Loop n (shift + 7) (result + (byte.val % 128) * 2 ^ shift) p
      else some ((result + byte.val * 2 ^ shift) % 2 ^ 32, p)

/-- Modelled from the spec: `GetVarint32Ptr(p, p + 5, &value)` of util/coding.h
(not among the sources), the decoder of `varint32` reading at most five bytes:
the decoded value with the pointer past it, or `none` for the null pointer. -/
def GetVarint32Ptr (p : CharPtr) : Option (Nat × CharPtr) := GetVarint32Loop 5 0 0 p

/-- Modelled from the spec: `EncodeFixed64` of util/coding.h (not among the
sources): the eight bytes of a `uint64_t`, least significant first. -/
def EncodeFixed64 (value : Nat) : List Byte :=
  let v := value % 2 ^ 64
  [toByte v, toByte (v / 2 ^ 8), toByte (v / 2 ^ 16), toByte (v / 2 ^ 24),
    toByte (v / 2 ^ 32), toByte (v / 2 ^ 40), toByte (v / 2 ^ 48), toByte (v / 2 ^ 56)]

/-- Modelled from the spec: `DecodeFixed64` of util/coding.h (not among the
sources): the `uint64_t` whose eight bytes, least significant first, are at the
pointer. -/
def DecodeFixed64 (ptr : CharPtr) : Nat :=
  (ptr.getD 0 0).val + (ptr.getD 1 0).val * 2 ^ 8 + (ptr.getD 2 0).val * 2 ^ 16
    + (ptr.getD 3 0).val * 2 ^ 24 + (ptr.getD 4 0).val * 2 ^ 32 + (ptr.getD 5 0).val * 2 ^ 40
    + (ptr.getD 6 0).val * 2 ^ 48 + (ptr.getD 7 0).val * 2 ^ 56

/-! ## Internal keys (db/dbformat.h) -/

/-- Modelled from the spec: `enum ValueType` of db/dbformat.h (not among the
sources), the one-byte operation tag: a deletion (tombstone) is 0, a value is 1. -/
inductive ValueType where
  | kTypeDeletion
  | kTypeValue
deriving DecidableEq

/-- Modelled from the spec: the number of an enumerator of `ValueType`
(db/dbformat.h, not among the sources). -/
def ValueType.toNat : ValueType → Nat
  | .kTypeDeletion => 0
  | .kTypeValue => 1

/-- Modelled from the spec: `kValueTypeForSeek` of db/dbformat.h (not among the
sources): the type a seek target carries, the highest-numbered one, so that a
seek for a sequence number stops at the entries of that very sequence number. -/
def kValueTypeForSeek : ValueType := .kTypeValue

/-- Modelled from the spec: `ExtractUserKey` of db/dbformat.h (not among the
sources): an internal key without its trailing 8-byte tag. -/
def ExtractUserKey (internal_key : Slice) : Slice :=
  internal_key.take (internal_key.length - 8)

/-- Modelled from the spec: the 8-byte tag that ends an internal key, decoded
(`DecodeFixed64(key.data() + key.size() - 8)` in db/dbformat.cc, not among the
sources). -/
def ExtractTag (internal_key : Slice) : Nat :=
  DecodeFixed64 (internal_key.drop (internal_key.length - 8))

/-- Modelled from the spec: `InternalKeyComparator::Compare` of db/dbformat.cc
(not among the sources): "compares only the user-key portion via the user
comparator as the primary order, and on equality uses the embedded tag as a
tie-break so that multiple versions of one user key sort by recency (most recent
sequence number first)". -/
def InternalKeyComparator.Compare (user_comparator : Comparator) (akey bkey : Slice) : Int :=
  let r := user_comparator.Compare (ExtractUserKey akey) (ExtractUserKey bkey)
  if r = 0 then
    let anum := ExtractTag akey
    let bnum := ExtractTag bkey
    if anum > bnum then -1
    else if anum < bnum then 1
    else r
  else r

/-- Modelled from the spec: `LookupKey` of db/dbformat.h (not among the sources),
the "seek target for `(user_key, sequence)`". -/
structure LookupKey where
  user_key_ : Slice
  sequence_ : Nat

/-- Modelled from the spec: `LookupKey::memtable_key` of db/dbformat.h (not among
the sources), the seek target encoded as a stored key is: `varint32(len)`, the
user key, and the 8-byte tag `(sequence << 8) | type` with the type of a seek. -/
def LookupKey.memtable_key (k : LookupKey) : CharPtr :=
  EncodeVarint32 (k.user_key_.length + 8) ++ k.user_key_
    ++ EncodeFixed64 (((k.sequence_ % 2 ^ 64) <<< 8 ||| kValueTypeForSeek.toNat) % 2 ^ 64)

/-- Modelled from the spec: `LookupKey::user_key` of db/dbformat.h (not among the
sources). -/
def LookupKey.user_key (k : LookupKey) : Slice := k.user_key_

/-! ## `Status` (include/leveldb/status.h) -/

/-- Modelled from the spec: `Status` of include/leveldb/status.h (not among the
sources): ok, or an error of one of the kinds of the library with its message. -/
inductive Status where
  | OK
  | NotFound (msg : Slice)
  | Corruption (msg : Slice)
  | NotSupported (msg : Slice)
  | InvalidArgument (msg : Slice)
  | IOError (msg : Slice)
deriving DecidableEq

/-! ## The generator of the index (util/random.h) -/

/-- Modelled from the spec: `Random` of util/random.h (not among the sources),
the generator from which the index draws the level count of a node, "drawn once
from a geometric distribution". It is the generator of LevelDB, the Lehmer
generator `seed_ * 16807 mod (2^31 - 1)` on a `uint32_t seed_`. -/
structure Random where
  seed_ : Nat
deriving DecidableEq

namespace Random

/-- Modelled from the spec: `Random::Random(uint32_t s)` of util/random.h (not
among the sources): `seed_(s & 0x7fffffffu)`, the seeds 0 and `2^31 - 1`, from
which the generator does not move, being replaced by 1. -/
def new (s : Nat) : Random :=
  let seed := (s % 2 ^ 32) &&& 0x7fffffff
  if seed = 0 ∨ seed = 2147483647 then { seed_ := 1 } else { seed_ := seed }

/-- Modelled from the spec: `Random::Next` of util/random.h (not among the
sources): the number drawn and the generator after the draw. -/
def Next (r : Random) : Nat × Random :=
  let M := 2147483647  -- 2^31-1
  let A := 16807
  let product := (r.seed_ * A) % 2 ^ 64
  -- Compute (product % M) using the fact that ((x << 31) % M) == x.
  let seed := ((product >>> 31) + (product &&& M)) % 2 ^ 32
  let seed := if seed > M then seed - M else seed
  (seed, { seed_ := seed })

/-- Modelled from the spec: `Random::OneIn` of util/random.h (not among the
sources): true with probability about `1 / n`. -/
def OneIn (r : Random) (n : Nat) : Bool × Random :=
  let (x, r1) := r.Next
  (x % n == 0, r1)

end Random

/-! ## The ordered index (db/skiplist.h) -/

namespace SkipList

/-- Modelled from the spec: `SkipList::Insert` of db/skiplist.h (not among the
sources). The index "maintains a set of opaque byte-string keys in strict
ascending order under an injected comparator"; it is modelled by the list of its
keys in index order, and a key is linked in front of the first stored key that
is not smaller. -/
def Insert (compare : CharPtr → CharPtr → Int) (key : CharPtr) : List CharPtr → List CharPtr
  | [] => [key]
  | x :: xs => if compare x key < 0 then x :: Insert compare key xs else key :: x :: xs

/-- Modelled from the spec: `enum { kMaxHeight = 12 }` of db/skiplist.h (not among
the sources), the largest level count of a node. -/
def kMaxHeight : Nat := 12

/-- Modelled from the spec: `kBranching` of `SkipList::RandomHeight` in
db/skiplist.h (not among the sources): a node has one level more with
probability 1 in `kBranching`. -/
def kBranching : Nat := 4

/-- Modelled from the spec: the loop of `SkipList::RandomHeight`,
`while (height < kMaxHeight && rnd_.OneIn(kBranching)) height++`; it runs at most
`kMaxHeight` times, which is the fuel. -/
def randomHeightLoop : Nat → Nat → Random → Nat × Random
  | 0, height, rnd => (height, rnd)
  | fuel + 1, height, rnd =>
      if height < kMaxHeight then
        let (more, rnd1) := rnd.OneIn kBranching
        if more then randomHeightLoop fuel (height + 1) rnd1 else (height, rnd1)
      else (height, rnd)

/-- Modelled from the spec: `SkipList::RandomHeight` of db/skiplist.h (not among
the sources): the level count of a new node, "drawn once from a geometric
distribution", and the generator after the draw. -/
def RandomHeight (rnd : Random) : Nat × Random :=
  randomHeightLoop kMaxHeight 1 rnd

/-- Modelled from the spec: the bytes of an "Index Node" of `height` levels,
`sizeof(Node) + sizeof(std::atomic<Node*>) * (height - 1)` in db/skiplist.h (not
among the sources): the node "holds an opaque key pointer" and "a per-node array
of next links, one per level", a pointer being 8 bytes. -/
def nodeBytes (height : Nat) : Nat :=
  (Arena.sizeofCharPtr + 8) + 8 * (height - 1)

/-- Modelled from the spec: `SkipList::NewNode` of db/skiplist.h (not among the
sources), as far as the arena goes: the index "depends on Allocator for node
storage", and takes the node with `arena_->AllocateAligned`. -/
def NewNode (base : Nat → Nat) (arena : Arena) (height : Nat) : Option ArenaPtr × Arena :=
  arena.AllocateAligned base (nodeBytes height)

/-- Modelled from the spec: what `SkipList::Insert` of db/skiplist.h (not among
the sources) does to the arena and to the generator `rnd_`: it draws the height
of the new node and takes the node from the arena,
`int height = RandomHeight(); x = NewNode(key, height);`. -/
def InsertNode (base : Nat → Nat) (arena : Arena) (rnd : Random) : Arena × Random :=
  let (height, rnd1) := RandomHeight rnd
  let (_, arena1) := NewNode base arena height
  (arena1, rnd1)

/-- Modelled from the spec: `SkipList::Iterator` of db/skiplist.h (not among the
sources): the cursor of the index. `node_` holds the keys from the current node
to the end of the index, and is empty when the cursor is invalid. The backward
moves (`Prev`, `SeekToLast`) are not part of the embedding. -/
structure Iterator where
  node_ : List CharPtr

/-- Modelled from the spec: `SkipList::Iterator::Valid` of db/skiplist.h (not
among the sources). -/
def Iterator.Valid (it : Iterator) : Bool := !it.node_.isEmpty

/-- Modelled from the spec: `SkipList::Iterator::key` of db/skiplist.h (not among
the sources); it requires `Valid()`. -/
def Iterator.key (it : Iterator) : CharPtr := it.node_.headD []

/-- Modelled from the spec: `SkipList::Iterator::Next` of db/skiplist.h (not
among the sources); it requires `Valid()`. -/
def Iterator.Next (it : Iterator) : Iterator := { node_ := it.node_.tail }

/-- Modelled from the spec: `SkipList::Iterator::Seek` of db/skiplist.h (not
among the sources), which "positions a cursor at the first stored key ≥ target
or marks it invalid if none exists". -/
def Iterator.Seek (compare : CharPtr → CharPtr → Int) (list : List CharPtr)
    (target : CharPtr) : Iterator :=
  { node_ := list.dropWhile (fun x => decide (compare x target < 0)) }

/-- Modelled from the spec: `SkipList::Iterator::SeekToFirst` of db/skiplist.h
(not among the sources). -/
def Iterator.SeekToFirst (list : List CharPtr) : Iterator := { node_ := list }

end SkipList

/-! ## `MemTable` (db/memtable.cc) -/

/-- Embedding of `GetLengthPrefixedSlice`. The source assumes that the length
prefix is not corrupted; where it does not decode, the model yields the empty
slice. -/
def GetLengthPrefixedSlice (data : CharPtr) : Slice :=
  match GetVarint32Ptr data with  -- +5: we assume "p" is not corrupted
  | some (len, p) => p.take len
  | none => []

/-- Embedding of `MemTable::KeyComparator::operator()` for the
`InternalKeyComparator` over the user comparator `user_comparator`. -/
def MemTable.KeyComparator (user_comparator : Comparator) (aptr bptr : CharPtr) : Int :=
  -- Internal keys are encoded as length-prefixed strings.
  let a := GetLengthPrefixedSlice aptr
  let b := GetLengthPrefixedSlice bptr
  InternalKeyComparator.Compare user_comparator a b

/-- Embedding of `EncodeKey`: the returned pointer into the scratch string. -/
def EncodeKey (target : Slice) : CharPtr :=
  let scratch : List Byte := []
  let scratch := PutVarint32 scratch target.length
  scratch ++ target

/-- The state of a `MemTable`: the user comparator that its `comparator_` wraps,
the reference count, the arena and the index `table_`, a key of which is the
record that `Add` wrote. Of the index, which is built on `&arena_`, the state
keeps the keys in `table_` and the generator of the node heights in `rnd_`; its
nodes are allocations of `arena_`. -/
structure MemTable where
  user_comparator : Comparator
  refs_ : Int
  arena_ : Arena
  table_ : List CharPtr
  rnd_ : Random

namespace MemTable

/-- The addresses of the blocks of `arena_`, of which `AllocateAligned` reads
the remainder modulo 8 only. `new char[n]` returns storage aligned for every
fundamental type, a multiple of 8, as the assertion at the end of
`AllocateAligned` needs it; the blocks are `2^48` bytes apart here. -/
def blockAddress (block : Nat) : Nat := 2 ^ 48 * (block + 1)

/-- Embedding of `MemTable::MemTable`. The initialiser `table_(comparator_,
&arena_)` runs the constructor of `SkipList`, modelled from the spec: it takes
the head node, of `kMaxHeight` levels, from the arena
(`head_(NewNode(0, kMaxHeight))`) and seeds the generator (`rnd_(0xdeadbeef)`). -/
def new (user_comparator : Comparator) : MemTable :=
  { user_comparator := user_comparator
    refs_ := 0
    arena_ := (SkipList.NewNode blockAddress Arena.new SkipList.kMaxHeight).2
    table_ := []
    rnd_ := Random.new 0xdeadbeef }

/-- Embedding of `MemTable::ApproximateMemoryUsage`. -/
def ApproximateMemoryUsage (m : MemTable) : Nat := m.arena_.MemoryUsage

/-- The bytes that `MemTable::Add` writes from `buf` on, in the order of its
writes. -/
def encodeEntry (s : Nat) (type : ValueType) (key value : Slice) : List Byte :=
  let key_size := key.length
  let val_size := value.length
  let internal_key_size := key_size + 8
  EncodeVarint32 internal_key_size ++ key
    ++ EncodeFixed64 (((s % 2 ^ 64) <<< 8 ||| type.toNat) % 2 ^ 64)
    ++ EncodeVarint32 val_size ++ value

/-- The record at `buf` after `MemTable::Add` has filled it: the `encoded_len`
bytes of the allocation. A byte of the allocation that `Add` did not write is
indeterminate in the source and reads as 0 here. -/
def entryBuffer (s : Nat) (type : ValueType) (key value : Slice) : CharPtr :=
  let key_size := key.length
  let val_size := value.length
  let internal_key_size := key_size + 8
  let encoded_len := VarintLength internal_key_size + internal_key_size
    + VarintLength val_size + val_size
  let written := encodeEntry s type key value
  written ++ List.replicate (encoded_len - written.length) 0

/-- Embedding of `MemTable::Add`. -/
def Add (m : MemTable) (s : Nat) (type : ValueType) (key value : Slice) : MemTable :=
  let key_size := key.length
  let val_size := value.length
  let internal_key_size := key_size + 8
  let encoded_len := VarintLength internal_key_size + internal_key_size
    + VarintLength val_size + val_size
  let (_, arena) := m.arena_.Allocate encoded_len
  let buf := entryBuffer s type key value
  -- table_.Insert(buf): the node of the record comes from the same arena
  let (arena1, rnd1) := SkipList.InsertNode blockAddress arena m.rnd_
  { m with arena_ := arena1,
           table_ := SkipList.Insert (KeyComparator m.user_comparator) buf m.table_,
           rnd_ := rnd1 }

/-- Embedding of `MemTable::Get`: the returned flag, and the contents of
`*value` and of `*s` after the call. The source reads an indeterminate length
where the length prefix of an entry does not decode; the model reports a miss
there. -/
def Get (m : MemTable) (key : LookupKey) (value : List Byte) (s : Status) :
    Bool × List Byte × Status :=
  let memkey := key.memtable_key
  let iter := SkipList.Iterator.Seek (KeyComparator m.user_comparator) m.table_ memkey
  if iter.Valid then
    let entry := iter.key
    match GetVarint32Ptr entry with
    | none => (false, value, s)
    | some (key_length, key_ptr) =>
      if m.user_comparator.Compare (key_ptr.take ((key_length + 2 ^ 32 - 8) % 2 ^ 32))
          key.user_key = 0 then
        -- Correct user key
        let tag := DecodeFixed64 (key_ptr.drop (key_length - 8))
        if tag % 256 = ValueType.kTypeValue.toNat then
          let v := GetLengthPrefixedSlice (key_ptr.drop key_length)
          (true, v, s)
        else if tag % 256 = ValueType.kTypeDeletion.toNat then
          (true, value, Status.NotFound [])
        else (false, value, s)
      else (false, value, s)
  else (false, value, s)

end MemTable

/-- The state of a `MemTableIterator`: the cursor `iter_` of the index; the
table it was created for is `table`. -/
structure MemTableIterator where
  table : List CharPtr
  iter_ : SkipList.Iterator

namespace MemTableIterator

/-- Embedding of `MemTableIterator::Valid`. -/
def Valid (it : MemTableIterator) : Bool := it.iter_.Valid

/-- Embedding of `MemTableIterator::Seek`, for the `KeyComparator` of the table.
-/
def Seek (compare : CharPtr → CharPtr → Int) (it : MemTableIterator) (k : Slice) :
    MemTableIterator :=
  { it with iter_ := SkipList.Iterator.Seek compare it.table (EncodeKey k) }

/-- Embedding of `MemTableIterator::SeekToFirst`. -/
def SeekToFirst (it : MemTableIterator) : MemTableIterator :=
  { it with iter_ := SkipList.Iterator.SeekToFirst it.table }

/-- Embedding of `MemTableIterator::Next`. -/
def Next (it : MemTableIterator) : MemTableIterator :=
  { it with iter_ := it.iter_.Next }

/-- Embedding of `MemTableIterator::key`. -/
def key (it : MemTableIterator) : Slice := GetLengthPrefixedSlice it.iter_.key

/-- Embedding of `MemTableIterator::value`: the length-prefixed slice that
starts at `key_slice.data() + key_slice.size()`. -/
def value (it : MemTableIterator) : Slice :=
  match GetVarint32Ptr it.iter_.key with
  | some (len, p) => GetLengthPrefixedSlice (p.drop len)
  | none => []

/-- Embedding of `MemTableIterator::status`. -/
def status (_it : MemTableIterator) : Status := Status.OK

end MemTableIterator

/-- Embedding of `MemTable::NewIterator`. -/
def MemTable.NewIterator (m : MemTable) : MemTableIterator :=
  { table := m.table_, iter_ := { node_ := [] } }

/-- One call of `MemTable::Add`. -/
structure AddCall where
  s : Nat
  type : ValueType
  key : Slice
  value : Slice
deriving DecidableEq

/-- The write buffer after a sequence of `Add` calls, in order. -/
def MemTable.AddAll (m : MemTable) (calls : List AddCall) : MemTable :=
  calls.foldl (fun m c => m.Add c.s c.type c.key c.value) m

/-- The forward traversal of a cursor: from its position, `key()` and `value()`
of every entry reached by `Next` while the cursor is `Valid`, at most `fuel`
entries. -/
def MemTableIterator.forward : Nat → MemTableIterator → List (Slice × Slice)
  | 0, _ => []
  | fuel + 1, it =>
      if it.Valid then (it.key, it.value) :: forward fuel it.Next else []

/-- The user key of a stored (or seek-target) key: the length-prefixed internal
key without its tag. -/
def entryUserKey (entry : CharPtr) : Slice := ExtractUserKey (GetLengthPrefixedSlice entry)

/-- The tag `(sequence << 8) | type` of a stored (or seek-target) key. -/
def entryTag (entry : CharPtr) : Nat := ExtractTag (GetLengthPrefixedSlice entry)

/-- The sequence number that the tag of an internal key holds: `tag >> 8`. -/
def sequenceOf (internal_key : Slice) : Nat := ExtractTag internal_key >>> 8

/-- The reference definition of `FindShortSuccessor` in the words of the
specification: if some byte differs from `0xFF`, with `i` the index of the first
such byte, the result is the first `i` bytes of `key` followed by the byte
`key[i] + 1`; if every byte is `0xFF` the key is unchanged. -/
def FindShortSuccessor_reference (key : List Byte) : List Byte :=
  if key.any (fun b => decide (b.val ≠ 0xff)) then
    let i := key.findIdx (fun b => decide (b.val ≠ 0xff))
    key.take i ++ [key.getD i 0 + 1]
  else key

/-- The byte ranges `[p, p + n)` and `[q, q + k)` are disjoint: they are in
different blocks, or one ends before the other starts. A null pointer holds no
byte. -/
def rangesDisjoint : Option ArenaPtr × Nat → Option ArenaPtr × Nat → Prop
  | (some p, n), (some q, k) =>
      p.block ≠ q.block ∨ p.offset + n ≤ q.offset ∨ q.offset + k ≤ p.offset
  | _, _ => True

instance (x y : Option ArenaPtr × Nat) : Decidable (rangesDisjoint x y) := by
  obtain ⟨p, n⟩ := x
  obtain ⟨q, k⟩ := y
  cases p <;> cases q <;> simp only [rangesDisjoint] <;> infer_instance

/-- The byte range `[p, p + n)` lies in one block of `blocks`: the pointer is in
the block `p.block`, and the range ends at or before the end of that block. The
null pointer is the start of the empty range only. -/
def rangeInBlock (blocks : List Nat) : Option ArenaPtr × Nat → Prop
  | (some p, n) => p.block < blocks.length ∧ p.offset + n ≤ blocks.getD p.block 0
  | (none, n) => n = 0

instance (blocks : List Nat) (x : Option ArenaPtr × Nat) : Decidable (rangeInBlock blocks x) := by
  obtain ⟨p, n⟩ := x
  cases p <;> simp only [rangeInBlock] <;> infer_instance

namespace Arena

/-- The call `c` on the arena `a` runs `alloc_ptr_ = AllocateNewBlock(kBlockSize)`
in `AllocateFallback`: it acquires a block, which `Allocate` and
`AllocateAligned` do in `AllocateFallback` only, and it asks for at most
`kBlockSize / 4` bytes. -/
def acquiresStandardBlock (base : Nat → Nat) (a : Arena) (c : ArenaCall) : Bool :=
  decide (a.blocks_.length < (a.call base c).2.blocks_.length ∧ c.bytes ≤ kBlockSize / 4)

/-- The block that `alloc_ptr_ = AllocateNewBlock(kBlockSize)` acquired most
recently, as its index in `blocks_`, after a sequence of calls on the arena `a`;
`cur` is that block before the calls, `none` when there is none. -/
def currentBlock (base : Nat → Nat) (a : Arena) (cur : Option Nat) : List ArenaCall → Option Nat
  | [] => cur
  | c :: calls =>
      currentBlock base (a.call base c).2
        (if a.acquiresStandardBlock base c then some a.blocks_.length else cur) calls

end Arena

/-! ## Cleanup of a cursor (include/leveldb/iterator.h) -/

/-- Embedding of `Iterator::CleanupNode`: the function pointer (`none` for
`nullptr`, a function being named by a number) and its two arguments. The link
`next` is the position of the node in the list of the cursor. -/
structure CleanupNode where
  function : Option Nat
  arg1 : Nat
  arg2 : Nat
deriving DecidableEq

/-- Embedding of `CleanupNode::IsEmpty`. -/
def CleanupNode.IsEmpty (node : CleanupNode) : Bool := node.function.isNone

/-- Embedding of `CleanupNode::Run`: the call `(*function)(arg1, arg2)` is
recorded at the end of the log of the calls made so far. -/
def CleanupNode.Run (node : CleanupNode) (log : List (Nat × Nat × Nat)) :
    List (Nat × Nat × Nat) :=
  match node.function with
  | some f => log ++ [(f, node.arg1, node.arg2)]
  | none => log

/-- The cleanup state of an `Iterator`: the inlined head node `cleanup_head_` and
the nodes linked behind it, in the order of the `next` links. -/
structure Iterator where
  cleanup_head_ : CleanupNode
  chain : List CleanupNode

namespace Iterator

/-- Modelled from the spec: `Iterator::Iterator()` of table/iterator.cc (not
among the sources): no cleanup action is registered. -/
def new : Iterator :=
  { cleanup_head_ := { function := none, arg1 := 0, arg2 := 0 }, chain := [] }

/-- Modelled from the spec: `Iterator::RegisterCleanup` of table/iterator.cc (not
among the sources). The spec has the actions "run exactly once, in
reverse-registration order, when the cursor is destroyed": the head node takes
the new action, and an action it held before moves to a new node linked right
behind it. -/
def RegisterCleanup (it : Iterator) (function arg1 arg2 : Nat) : Iterator :=
  let node : CleanupNode := { function := some function, arg1 := arg1, arg2 := arg2 }
  if it.cleanup_head_.IsEmpty then { it with cleanup_head_ := node }
  else { cleanup_head_ := node, chain := it.cleanup_head_ :: it.chain }

/-- Modelled from the spec: `Iterator::~Iterator` of table/iterator.cc (not among
the sources): the registered actions run, the head node first and then the nodes
linked behind it in the order of the links; the result is the log of the calls. -/
def destroy (it : Iterator) : List (Nat × Nat × Nat) :=
  if it.cleanup_head_.IsEmpty then []
  else it.chain.foldl (fun log node => node.Run log) (it.cleanup_head_.Run [])

end Iterator

/-- The cursor after a sequence of `RegisterCleanup(f, a, b)` calls, in order. -/
def Iterator.RegisterAll (it : Iterator) (calls : List (Nat × Nat × Nat)) : Iterator :=
  calls.foldl (fun it c => it.RegisterCleanup c.1 c.2.1 c.2.2) it

/-! ## The byte-wise order -/

theorem Slice.compare_nil_nil : Slice.compare [] [] = 0 := by
  simp [Slice.compare, memcmp]

theorem Slice.compare_nil_cons (y : Byte) (ys : List Byte) :
    Slice.compare [] (y :: ys) = -1 := by
  simp [Slice.compare, memcmp]

theorem Slice.compare_cons_nil (x : Byte) (xs : List Byte) :
    Slice.compare (x :: xs) [] = 1 := by
  simp [Slice.compare, memcmp]

theorem Slice.compare_cons_cons (x y : Byte) (xs ys : List Byte) :
    Slice.compare (x :: xs) (y :: ys) =
      if x.val < y.val then -1 else if y.val < x.val then 1 else Slice.compare xs ys := by
  have hm : (if xs.length + 1 < ys.length + 1 then xs.length + 1 else ys.length + 1)
      = (if xs.length < ys.length then xs.length else ys.length) + 1 := by
    split_ifs <;> omega
  simp only [Slice.compare, List.length_cons, hm, memcmp]
  simp only [Nat.add_lt_add_iff_right, gt_iff_lt]
  by_cases h1 : x.val < y.val
  · simp [h1]
  · by_cases h2 : y.val < x.val
    · simp [h1, h2]
    · simp only [h1, h2, if_false]

theorem Slice.compare_neg_swap (a b : Slice) :
    Slice.compare a b = -Slice.compare b a := by
  induction a generalizing b with
  | nil =>
    cases b with
    | nil => simp [Slice.compare_nil_nil]
    | cons y ys => simp [Slice.compare_nil_cons, Slice.compare_cons_nil]
  | cons x xs ih =>
    cases b with
    | nil => simp [Slice.compare_nil_cons, Slice.compare_cons_nil]
    | cons y ys =>
      rw [Slice.compare_cons_cons, Slice.compare_cons_cons, ih ys]
      by_cases h1 : x.val < y.val
      · have h2 : ¬ y.val < x.val := by omega
        simp [h1, h2]
      · by_cases h2 : y.val < x.val
        · simp [h1, h2]
        · simp [h1, h2]

theorem Slice.compare_eq_zero_iff (a b : Slice) :
    Slice.compare a b = 0 ↔ a = b := by
  induction a generalizing b with
  | nil =>
    cases b with
    | nil => simp [Slice.compare_nil_nil]
    | cons y ys => simp [Slice.compare_nil_cons]
  | cons x xs ih =>
    cases b with
    | nil => simp [Slice.compare_cons_nil]
    | cons y ys =>
      rw [Slice.compare_cons_cons]
      by_cases h1 : x.val < y.val
      · have hne : x ≠ y := fun h => by subst h; omega
        simp [h1, hne]
      · by_cases h2 : y.val < x.val
        · have hne : x ≠ y := fun h => by subst h; omega
          simp [h1, h2, hne]
        · have hxy : x = y := Fin.ext (by omega)
          simp [h1, h2, hxy, ih ys]

theorem Slice.compare_range (a b : Slice) :
    Slice.compare a b = -1 ∨ Slice.compare a b = 0 ∨ Slice.compare a b = 1 := by
  induction a generalizing b with
  | nil =>
    cases b with
    | nil => simp [Slice.compare_nil_nil]
    | cons y ys => simp [Slice.compare_nil_cons]
  | cons x xs ih =>
    cases b with
    | nil => simp [Slice.compare_cons_nil]
    | cons y ys =>
      rw [Slice.compare_cons_cons]
      split_ifs
      · simp
      · simp
      · exact ih ys

theorem Slice.compare_le_trans (a b c : Slice)
    (hab : Slice.compare a b ≤ 0) (hbc : Slice.compare b c ≤ 0) :
    Slice.compare a c ≤ 0 := by
  induction a generalizing b c with
  | nil =>
    cases c with
    | nil => simp [Slice.compare_nil_nil]
    | cons z zs => simp [Slice.compare_nil_cons]
  | cons x xs ih =>
    cases b with
    | nil => simp [Slice.compare_cons_nil] at hab
    | cons y ys =>
      cases c with
      | nil => simp [Slice.compare_cons_nil] at hbc
      | cons z zs =>
        rw [Slice.compare_cons_cons] at hab hbc ⊢
        by_cases hxy : x.val < y.val
        · by_cases hyz : y.val < z.val
          · have : x.val < z.val := by omega
            simp [this]
          · by_cases hzy : z.val < y.val
            · simp [hyz, hzy] at hbc
            · have : x.val < z.val := by omega
              simp [this]
        · by_cases hyx : y.val < x.val
          · simp [hxy, hyx] at hab
          · simp only [hxy, hyx, if_false] at hab
            by_cases hyz : y.val < z.val
            · have : x.val < z.val := by omega
              simp [this]
            · by_cases hzy : z.val < y.val
              · simp [hyz, hzy] at hbc
              · simp only [hyz, hzy, if_false] at hbc
                have h1 : ¬ x.val < z.val := by omega
                have h2 : ¬ z.val < x.val := by omega
                simp only [h1, h2, if_false]
                exact ih ys zs hab hbc

/-! ## `FindShortestSeparator` -/

theorem commonLength_le (a b : List Byte) :
    commonLength a b ≤ min a.length b.length := by
  induction a generalizing b with
  | nil => simp [commonLength]
  | cons x xs ih =>
    cases b with
    | nil => simp [commonLength]
    | cons y ys =>
      simp only [commonLength, List.length_cons]
      have := ih ys
      split_ifs <;> omega

theorem BytewiseComparatorImpl.diffIndexLoop_eq (start limit : List Byte) (fuel d : Nat)
    (hd : d ≤ min start.length limit.length)
    (hfuel : min start.length limit.length - d ≤ fuel) :
    diffIndexLoop start limit (min start.length limit.length) fuel d
      = d + commonLength (start.drop d) (limit.drop d) := by
  induction fuel generalizing d with
  | zero =>
    have hdm : d = min start.length limit.length := by omega
    simp only [diffIndexLoop]
    have h0 : commonLength (start.drop d) (limit.drop d) = 0 := by
      have := commonLength_le (start.drop d) (limit.drop d)
      simp only [List.length_drop] at this
      omega
    omega
  | succ fuel ih =>
    simp only [diffIndexLoop]
    by_cases hlt : d < min start.length limit.length
    · have hs : d < start.length := by omega
      have hl : d < limit.length := by omega
      rw [List.drop_eq_getElem_cons hs, List.drop_eq_getElem_cons hl]
      rw [List.getD_eq_getElem _ _ hs, List.getD_eq_getElem _ _ hl]
      by_cases heq : start[d] = limit[d]
      · rw [if_pos ⟨hlt, heq⟩, ih (d + 1) (by omega) (by omega)]
        simp only [commonLength, heq, if_true]
        omega
      · rw [if_neg (fun h => heq h.2)]
        simp [commonLength, heq]
    · rw [if_neg (fun h => hlt h.1)]
      have h0 : commonLength (start.drop d) (limit.drop d) = 0 := by
        have := commonLength_le (start.drop d) (limit.drop d)
        simp only [List.length_drop] at this
        omega
      omega

theorem List.take_succ_set_eq (l : List Byte) (i : Nat) (b : Byte) (h : i < l.length) :
    (l.set i b).take (i + 1) = l.take i ++ [b] := by
  induction l generalizing i with
  | nil => simp at h
  | cons x xs ih =>
    cases i with
    | zero => simp
    | succ i =>
      simp only [List.length_cons, Nat.add_lt_add_iff_right] at h
      simp [ih i h]

theorem BytewiseComparatorImpl.FindShortestSeparator_eq_reference (start limit : List Byte) :
    FindShortestSeparator start limit = FindShortestSeparator_reference start limit := by
  have hloop := diffIndexLoop_eq start limit (min start.length limit.length) 0
    (Nat.zero_le _) (by omega)
  simp only [List.drop_zero, Nat.zero_add] at hloop
  have hle := commonLength_le start limit
  simp only [FindShortestSeparator, FindShortestSeparator_reference, hloop]
  by_cases hi : commonLength start limit = min start.length limit.length
  · rw [if_pos (by omega), if_pos hi]
  · rw [if_neg (by omega), if_neg hi]
    have hs : commonLength start limit < start.length := by omega
    by_cases hc : (start.getD (commonLength start limit) 0).val < 0xff ∧
        (start.getD (commonLength start limit) 0).val + 1
          < (limit.getD (commonLength start limit) 0).val
    · rw [if_pos hc, if_pos ⟨by omega, hc.2⟩, List.take_succ_set_eq _ _ _ hs]
    · rw [if_neg hc, if_neg]
      intro h
      exact hc ⟨by omega, h.2⟩

theorem FindShortestSeparator_reference_nil_left (limit : List Byte) :
    FindShortestSeparator_reference [] limit = [] := by
  simp [FindShortestSeparator_reference, commonLength]

theorem FindShortestSeparator_reference_cons_eq (x : Byte) (xs ys : List Byte) :
    FindShortestSeparator_reference (x :: xs) (x :: ys)
      = x :: FindShortestSeparator_reference xs ys := by
  simp only [FindShortestSeparator_reference, commonLength, if_true, List.length_cons,
    List.getD_cons_succ, List.take_succ_cons, Nat.add_min_add_right, Nat.add_right_cancel_iff]
  split_ifs <;> simp

theorem FindShortestSeparator_reference_cons_ne (x y : Byte) (xs ys : List Byte) (h : x ≠ y) :
    FindShortestSeparator_reference (x :: xs) (y :: ys)
      = if x.val ≠ 0xff ∧ x.val + 1 < y.val then [x + 1] else x :: xs := by
  have hm : (0 : Nat) ≠ min (xs.length + 1) (ys.length + 1) := by
    rw [Nat.add_min_add_right]; omega
  simp [FindShortestSeparator_reference, commonLength, h, hm]

theorem FindShortestSeparator_reference_bounds (start limit : List Byte)
    (h : Slice.compare start limit < 0) :
    Slice.compare start (FindShortestSeparator_reference start limit) ≤ 0 ∧
      Slice.compare (FindShortestSeparator_reference start limit) limit < 0 := by
  induction start generalizing limit with
  | nil =>
    rw [FindShortestSeparator_reference_nil_left]
    exact ⟨by simp [Slice.compare_nil_nil], h⟩
  | cons x xs ih =>
    cases limit with
    | nil => simp [Slice.compare_cons_nil] at h
    | cons y ys =>
      by_cases hxy : x = y
      · subst hxy
        rw [FindShortestSeparator_reference_cons_eq]
        rw [Slice.compare_cons_cons] at h
        simp only [lt_self_iff_false, if_false] at h
        have := ih ys h
        rw [Slice.compare_cons_cons, Slice.compare_cons_cons]
        simpa using this
      · rw [FindShortestSeparator_reference_cons_ne _ _ _ _ hxy]
        by_cases hc : x.val ≠ 0xff ∧ x.val + 1 < y.val
        · rw [if_pos hc]
          have hx1 : (x + 1).val = x.val + 1 := by
            rw [Fin.val_add]
            have := x.isLt
            simp only [Fin.val_one]
            omega
          rw [Slice.compare_cons_cons, Slice.compare_cons_cons, hx1]
          have h1 : x.val < x.val + 1 := by omega
          simp [h1, hc.2]
        · rw [if_neg hc]
          refine ⟨?_, h⟩
          have : Slice.compare (x :: xs) (x :: xs) = 0 :=
            (Slice.compare_eq_zero_iff _ _).2 rfl
          omega

/-! ## Claims about the byte-wise comparator -/

/-- C7: for all byte strings `a` and `b`, the default byte-wise comparator
satisfies `Compare(a, b) == -Compare(b, a)`. -/
theorem bytewise_compare_swap (a b : Slice) :
    BytewiseComparator.Compare a b = -BytewiseComparator.Compare b a :=
  Slice.compare_neg_swap a b

/-- C8: the order induced by the default byte-wise `Compare` is transitive and
antisymmetric: `Compare(a, b) <= 0` and `Compare(b, c) <= 0` imply
`Compare(a, c) <= 0`, and `Compare(a, b) == 0` holds exactly when `a` and `b`
are the same byte string. -/
theorem bytewise_compare_transitive_antisymmetric (a b c : Slice) :
    (BytewiseComparator.Compare a b ≤ 0 → BytewiseComparator.Compare b c ≤ 0 →
        BytewiseComparator.Compare a c ≤ 0) ∧
      (BytewiseComparator.Compare a b = 0 ↔ a = b) :=
  ⟨Slice.compare_le_trans a b c, Slice.compare_eq_zero_iff a b⟩

theorem bytewise_compare_transitive_antisymmetric_witness :
    BytewiseComparator.Compare (bytesOf "ab") (bytesOf "abc") ≤ 0 ∧
      BytewiseComparator.Compare (bytesOf "abc") (bytesOf "b") ≤ 0 ∧
      BytewiseComparator.Compare (bytesOf "ab") (bytesOf "b") ≤ 0 :=
  ⟨by decide, by decide,
    (bytewise_compare_transitive_antisymmetric (bytesOf "ab") (bytesOf "abc") (bytesOf "b")).1
      (by decide) (by decide)⟩

/-- C9: `FindShortestSeparator` respects its bound: for all byte strings `start`
and `limit` with `Compare(start, limit) < 0`, the string `r` left in `*start`
satisfies `Compare(start, r) <= 0` and `Compare(r, limit) < 0`; the latter is
the assertion inside the function. -/
theorem findShortestSeparator_within_bound (start limit : List Byte)
    (h : BytewiseComparatorImpl.Compare start limit < 0) :
    BytewiseComparatorImpl.Compare start
        (BytewiseComparatorImpl.FindShortestSeparator start limit) ≤ 0 ∧
      BytewiseComparatorImpl.Compare
        (BytewiseComparatorImpl.FindShortestSeparator start limit) limit < 0 := by
  rw [BytewiseComparatorImpl.FindShortestSeparator_eq_reference]
  exact FindShortestSeparator_reference_bounds start limit h

theorem findShortestSeparator_within_bound_witness :
    BytewiseComparatorImpl.Compare (bytesOf "helloworld") (bytesOf "hellozoo") < 0 ∧
      BytewiseComparatorImpl.Compare (bytesOf "helloworld")
        (BytewiseComparatorImpl.FindShortestSeparator (bytesOf "helloworld")
          (bytesOf "hellozoo")) ≤ 0 ∧
      BytewiseComparatorImpl.Compare
        (BytewiseComparatorImpl.FindShortestSeparator (bytesOf "helloworld")
          (bytesOf "hellozoo")) (bytesOf "hellozoo") < 0 :=
  ⟨by decide,
    findShortestSeparator_within_bound (bytesOf "helloworld") (bytesOf "hellozoo") (by decide)⟩

/-- C10: `FindShortestSeparator` equals the reference definition of the
specification (longest common prefix of length `i`; unchanged when one string is
a prefix of the other; first `i` bytes followed by `start[i] + 1` when
`start[i]` is not `0xFF` and `start[i] + 1 < limit[i]`; unchanged otherwise) for
all byte strings, and `FindShortestSeparator("helloworld", "hellozoo")` yields
`"hellox"`. -/
theorem findShortestSeparator_refines_reference :
    (∀ start limit : List Byte,
        BytewiseComparatorImpl.FindShortestSeparator start limit
          = FindShortestSeparator_reference start limit) ∧
      BytewiseComparatorImpl.FindShortestSeparator (bytesOf "helloworld") (bytesOf "hellozoo")
        = bytesOf "hellox" :=
  ⟨BytewiseComparatorImpl.FindShortestSeparator_eq_reference, by decide⟩

/-! ## Coding round trips -/

theorem toByte_val (n : Nat) : (toByte n).val = n % 256 := rfl

theorem VarintLength_eq (v : Nat) (hv : v < 2 ^ 32) :
    VarintLength v =
      if v < 2 ^ 7 then 1 else if v < 2 ^ 14 then 2 else if v < 2 ^ 21 then 3
      else if v < 2 ^ 28 then 4 else 5 := by
  have h64 : v % 2 ^ 64 = v := Nat.mod_eq_of_lt (lt_of_lt_of_le hv (by norm_num))
  rw [VarintLength, h64]
  simp only [Nat.reducePow] at hv ⊢
  by_cases h1 : v < 128
  · simp only [VarintLengthLoop, h1, if_true]
    rw [if_neg (by omega)]
  · by_cases h2 : v < 16384
    · simp only [VarintLengthLoop, h1, h2, if_true, if_false]
      rw [if_pos (by omega), if_neg (by omega)]
    · by_cases h3 : v < 2097152
      · simp only [VarintLengthLoop, h1, h2, h3, if_true, if_false]
        rw [if_pos (by omega), if_pos (by omega), if_neg (by omega)]
      · by_cases h4 : v < 268435456
        · simp only [VarintLengthLoop, h1, h2, h3, h4, if_true, if_false]
          rw [if_pos (by omega), if_pos (by omega), if_pos (by omega), if_neg (by omega)]
        · simp only [VarintLengthLoop, h1, h2, h3, h4, if_false]
          rw [if_pos (by omega), if_pos (by omega), if_pos (by omega), if_pos (by omega),
            if_neg (by omega)]

theorem EncodeVarint32_length (v : Nat) (hv : v < 2 ^ 32) :
    (EncodeVarint32 v).length = VarintLength v := by
  have h32 : v % 2 ^ 32 = v := Nat.mod_eq_of_lt hv
  rw [VarintLength_eq v hv]
  simp only [EncodeVarint32, h32]
  split_ifs <;> rfl

theorem GetVarint32Ptr_EncodeVarint32 (v : Nat) (hv : v < 2 ^ 32) (rest : List Byte) :
    GetVarint32Ptr (EncodeVarint32 v ++ rest) = some (v, rest) := by
  have h32 : v % 2 ^ 32 = v := Nat.mod_eq_of_lt hv
  simp only [EncodeVarint32, h32, GetVarint32Ptr]
  simp only [Nat.reducePow] at hv ⊢
  split_ifs <;>
    simp only [List.cons_append, List.nil_append, GetVarint32Loop, toByte_val, Nat.reducePow,
      Nat.reduceAdd, Nat.mul_one, Nat.zero_add] <;>
    split_ifs <;>
    first
      | omega
      | (refine congrArg some (Prod.ext ?_ rfl); show _ = v; omega)

theorem EncodeFixed64_length (v : Nat) : (EncodeFixed64 v).length = 8 := rfl

theorem DecodeFixed64_EncodeFixed64 (v : Nat) (rest : List Byte) :
    DecodeFixed64 (EncodeFixed64 v ++ rest) = v % 2 ^ 64 := by
  simp only [DecodeFixed64, EncodeFixed64, List.cons_append, List.getD_cons_zero,
    List.getD_cons_succ, toByte_val, Nat.reducePow]
  omega

theorem packTag_eq (s t : Nat) (hs : s < 2 ^ 56) (ht : t < 2 ^ 8) :
    ((s % 2 ^ 64) <<< 8 ||| t) % 2 ^ 64 = s * 256 + t := by
  have h1 : s % 2 ^ 64 = s := Nat.mod_eq_of_lt (lt_of_lt_of_le hs (by norm_num))
  rw [h1, Nat.shiftLeft_eq, Nat.mul_comm, ← Nat.mul_add_lt_is_or ht]
  simp only [Nat.reducePow] at hs ht ⊢
  omega

/-! ## Decoding the records written by `Add` -/

theorem GetLengthPrefixedSlice_EncodeVarint32 (n : Nat) (hn : n < 2 ^ 32) (rest : List Byte) :
    GetLengthPrefixedSlice (EncodeVarint32 n ++ rest) = rest.take n := by
  simp only [GetLengthPrefixedSlice, GetVarint32Ptr_EncodeVarint32 n hn rest]

theorem ExtractUserKey_append_fixed64 (K : Slice) (v : Nat) :
    ExtractUserKey (K ++ EncodeFixed64 v) = K := by
  simp [ExtractUserKey, EncodeFixed64_length]

theorem ExtractTag_append_fixed64 (K : Slice) (v : Nat) :
    ExtractTag (K ++ EncodeFixed64 v) = v % 2 ^ 64 := by
  have h : (K ++ EncodeFixed64 v).drop ((K ++ EncodeFixed64 v).length - 8)
      = EncodeFixed64 v ++ [] := by
    simp [EncodeFixed64_length]
  rw [ExtractTag, h, DecodeFixed64_EncodeFixed64]

/-- What follows the internal key in the record of an `Add`. -/
theorem MemTable.entryBuffer_eq_append (s : Nat) (type : ValueType) (key value : Slice) :
    ∃ tail : List Byte,
      MemTable.entryBuffer s type key value = EncodeVarint32 (key.length + 8) ++
        ((key ++ EncodeFixed64 (((s % 2 ^ 64) <<< 8 ||| type.toNat) % 2 ^ 64)) ++ tail) :=
  ⟨EncodeVarint32 value.length ++ value ++
      List.replicate (VarintLength (key.length + 8) + (key.length + 8)
        + VarintLength value.length + value.length
        - (MemTable.encodeEntry s type key value).length) 0,
    by simp only [MemTable.entryBuffer, MemTable.encodeEntry, List.append_assoc]⟩

theorem MemTable.entryBuffer_eq_encodeEntry (s : Nat) (type : ValueType) (key value : Slice)
    (hK : key.length + 8 < 2 ^ 32) (hV : value.length < 2 ^ 32) :
    MemTable.entryBuffer s type key value = EncodeVarint32 (key.length + 8) ++
      ((key ++ EncodeFixed64 (((s % 2 ^ 64) <<< 8 ||| type.toNat) % 2 ^ 64)) ++
        (EncodeVarint32 value.length ++ value)) := by
  have hlen : (MemTable.encodeEntry s type key value).length
      = VarintLength (key.length + 8) + (key.length + 8) + VarintLength value.length
        + value.length := by
    simp only [MemTable.encodeEntry, List.length_append, EncodeFixed64_length,
      EncodeVarint32_length _ hK, EncodeVarint32_length _ hV]
    omega
  simp only [MemTable.entryBuffer, hlen, Nat.sub_self, List.replicate_zero, List.append_nil]
  simp only [MemTable.encodeEntry, List.append_assoc]

theorem take_internal_key (K : Slice) (v : Nat) (tail : List Byte) :
    ((K ++ EncodeFixed64 v) ++ tail).take (K.length + 8) = K ++ EncodeFixed64 v := by
  have : K.length + 8 = (K ++ EncodeFixed64 v).length := by
    simp [EncodeFixed64_length]
  rw [this, List.take_left']
  rfl

theorem GetLengthPrefixedSlice_entryBuffer (s : Nat) (type : ValueType) (key value : Slice)
    (hK : key.length + 8 < 2 ^ 32) :
    GetLengthPrefixedSlice (MemTable.entryBuffer s type key value)
      = key ++ EncodeFixed64 (((s % 2 ^ 64) <<< 8 ||| type.toNat) % 2 ^ 64) := by
  obtain ⟨tail, h⟩ := MemTable.entryBuffer_eq_append s type key value
  rw [h, GetLengthPrefixedSlice_EncodeVarint32 _ hK, take_internal_key]

theorem typeToNat_lt (type : ValueType) : type.toNat < 2 ^ 8 := by
  cases type <;> simp [ValueType.toNat]

theorem entryUserKey_entryBuffer (s : Nat) (type : ValueType) (key value : Slice)
    (hK : key.length + 8 < 2 ^ 32) :
    entryUserKey (MemTable.entryBuffer s type key value) = key := by
  rw [entryUserKey, GetLengthPrefixedSlice_entryBuffer s type key value hK,
    ExtractUserKey_append_fixed64]

theorem entryTag_entryBuffer (s : Nat) (type : ValueType) (key value : Slice)
    (hK : key.length + 8 < 2 ^ 32) (hs : s < 2 ^ 56) :
    entryTag (MemTable.entryBuffer s type key value) = s * 256 + type.toNat := by
  rw [entryTag, GetLengthPrefixedSlice_entryBuffer s type key value hK,
    ExtractTag_append_fixed64, Nat.mod_mod, packTag_eq s _ hs (typeToNat_lt type)]

theorem GetLengthPrefixedSlice_memtable_key (K : Slice) (N : Nat)
    (hK : K.length + 8 < 2 ^ 32) :
    GetLengthPrefixedSlice (LookupKey.memtable_key ⟨K, N⟩)
      = K ++ EncodeFixed64 (((N % 2 ^ 64) <<< 8 ||| kValueTypeForSeek.toNat) % 2 ^ 64) := by
  have h : LookupKey.memtable_key ⟨K, N⟩ = EncodeVarint32 (K.length + 8) ++
      ((K ++ EncodeFixed64 (((N % 2 ^ 64) <<< 8 ||| kValueTypeForSeek.toNat) % 2 ^ 64))
        ++ []) := by
    simp only [LookupKey.memtable_key, List.append_assoc, List.append_nil]
  rw [h, GetLengthPrefixedSlice_EncodeVarint32 _ hK, take_internal_key]

theorem entryUserKey_memtable_key (K : Slice) (N : Nat) (hK : K.length + 8 < 2 ^ 32) :
    entryUserKey (LookupKey.memtable_key ⟨K, N⟩) = K := by
  rw [entryUserKey, GetLengthPrefixedSlice_memtable_key K N hK, ExtractUserKey_append_fixed64]

theorem entryTag_memtable_key (K : Slice) (N : Nat) (hK : K.length + 8 < 2 ^ 32)
    (hN : N < 2 ^ 56) :
    entryTag (LookupKey.memtable_key ⟨K, N⟩) = N * 256 + 1 := by
  rw [entryTag, GetLengthPrefixedSlice_memtable_key K N hK, ExtractTag_append_fixed64,
    Nat.mod_mod, packTag_eq N _ hN (typeToNat_lt _)]
  rfl

theorem MemTable.KeyComparator_eq (uc : Comparator) (a b : CharPtr) :
    MemTable.KeyComparator uc a b =
      if uc.Compare (entryUserKey a) (entryUserKey b) = 0 then
        if entryTag a > entryTag b then -1
        else if entryTag a < entryTag b then 1
        else uc.Compare (entryUserKey a) (entryUserKey b)
      else uc.Compare (entryUserKey a) (entryUserKey b) := rfl

/-! ## `Get` in terms of the entry that `Seek` reaches -/

theorem MemTable.Get_of_seek_nil (m : MemTable) (key : LookupKey) (value : List Byte)
    (st : Status)
    (h : m.table_.dropWhile
      (fun x => decide (MemTable.KeyComparator m.user_comparator x key.memtable_key < 0)) = []) :
    m.Get key value st = (false, value, st) := by
  simp [MemTable.Get, SkipList.Iterator.Seek, SkipList.Iterator.Valid, h]

/-- The fields that `Get` reads from the record of an `Add`. -/
theorem MemTable.Get_of_seek_entry (m : MemTable) (K : Slice) (N : Nat) (value : List Byte)
    (st : Status) (sq : Nat) (t : ValueType) (K' V' : Slice) (rest : List CharPtr)
    (hK' : K'.length + 8 < 2 ^ 32) (hsq : sq < 2 ^ 56)
    (h : m.table_.dropWhile
      (fun x => decide (MemTable.KeyComparator m.user_comparator x
        (LookupKey.memtable_key ⟨K, N⟩) < 0)) = MemTable.entryBuffer sq t K' V' :: rest) :
    m.Get ⟨K, N⟩ value st =
      if m.user_comparator.Compare K' K = 0 then
        if t = ValueType.kTypeValue then
          (true, GetLengthPrefixedSlice
            ((MemTable.entryBuffer sq t K' V').drop
              ((EncodeVarint32 (K'.length + 8)).length + (K'.length + 8))), st)
        else (true, value, Status.NotFound [])
      else (false, value, st) := by
  obtain ⟨tail, hbuf⟩ := MemTable.entryBuffer_eq_append sq t K' V'
  have hvar := GetVarint32Ptr_EncodeVarint32 (K'.length + 8) hK'
    ((K' ++ EncodeFixed64 (((sq % 2 ^ 64) <<< 8 ||| t.toNat) % 2 ^ 64)) ++ tail)
  have hlen : (K'.length + 8 + 2 ^ 32 - 8) % 2 ^ 32 = K'.length := by
    simp only [Nat.reducePow] at hK' ⊢
    omega
  have htake : ((K' ++ EncodeFixed64 (((sq % 2 ^ 64) <<< 8 ||| t.toNat) % 2 ^ 64)) ++ tail).take
      K'.length = K' := by
    rw [List.append_assoc, List.take_left']
    rfl
  have hdrop : ((K' ++ EncodeFixed64 (((sq % 2 ^ 64) <<< 8 ||| t.toNat) % 2 ^ 64)) ++ tail).drop
      (K'.length + 8 - 8)
      = EncodeFixed64 (((sq % 2 ^ 64) <<< 8 ||| t.toNat) % 2 ^ 64) ++ tail := by
    rw [Nat.add_sub_cancel, List.append_assoc, List.drop_left']
    rfl
  have htag : DecodeFixed64
      (EncodeFixed64 (((sq % 2 ^ 64) <<< 8 ||| t.toNat) % 2 ^ 64) ++ tail) % 256 = t.toNat := by
    rw [DecodeFixed64_EncodeFixed64, Nat.mod_mod, packTag_eq sq _ hsq (typeToNat_lt t)]
    have := typeToNat_lt t
    simp only [Nat.reducePow] at this
    omega
  have hdrop2 : (MemTable.entryBuffer sq t K' V').drop
      ((EncodeVarint32 (K'.length + 8)).length + (K'.length + 8))
      = ((K' ++ EncodeFixed64 (((sq % 2 ^ 64) <<< 8 ||| t.toNat) % 2 ^ 64)) ++ tail).drop
        (K'.length + 8) := by
    rw [hbuf, ← List.drop_drop, List.drop_left']
    rfl
  simp only [MemTable.Get, SkipList.Iterator.Seek, SkipList.Iterator.Valid,
    SkipList.Iterator.key, h, List.isEmpty_cons, Bool.not_false, if_true, List.headD_cons,
    LookupKey.user_key]
  rw [hdrop2]
  simp only [hbuf, hvar, hlen, htake, hdrop, htag]
  by_cases hc : m.user_comparator.Compare K' K = 0
  · simp only [hc, if_true]
    cases t <;> simp [ValueType.toNat]
  · simp only [hc, if_false]

theorem MemTable.value_of_entryBuffer (sq : Nat) (t : ValueType) (K' V' : Slice)
    (hK' : K'.length + 8 < 2 ^ 32) (hV' : V'.length < 2 ^ 32) :
    GetLengthPrefixedSlice
      ((MemTable.entryBuffer sq t K' V').drop
        ((EncodeVarint32 (K'.length + 8)).length + (K'.length + 8))) = V' := by
  rw [MemTable.entryBuffer_eq_encodeEntry sq t K' V' hK' hV', ← List.drop_drop,
    List.drop_left' rfl]
  have : K'.length + 8
      = (K' ++ EncodeFixed64 (((sq % 2 ^ 64) <<< 8 ||| t.toNat) % 2 ^ 64)).length := by
    simp [EncodeFixed64_length]
  rw [this, List.drop_left' rfl, GetLengthPrefixedSlice_EncodeVarint32 _ hV']
  simp

/-! ## The order of the index -/

theorem MemTable.KeyComparator_swap (uc : Comparator) (huc : uc.IsTotalOrder) (a b : CharPtr) :
    MemTable.KeyComparator uc a b < 0 ↔ 0 < MemTable.KeyComparator uc b a := by
  rw [MemTable.KeyComparator_eq, MemTable.KeyComparator_eq]
  by_cases h : uc.Compare (entryUserKey a) (entryUserKey b) = 0
  · have h' : uc.Compare (entryUserKey b) (entryUserKey a) = 0 :=
      (huc.eq_zero_iff _ _).2 ((huc.eq_zero_iff _ _).1 h).symm
    simp only [h, h', if_true]
    split_ifs <;> omega
  · have h' : uc.Compare (entryUserKey b) (entryUserKey a) ≠ 0 := fun h0 =>
      h ((huc.eq_zero_iff _ _).2 ((huc.eq_zero_iff _ _).1 h0).symm)
    simp only [h, h', if_false]
    exact huc.swap _ _

theorem MemTable.KeyComparator_le_of_not_lt (uc : Comparator) (huc : uc.IsTotalOrder)
    (a b : CharPtr) (h : ¬ MemTable.KeyComparator uc a b < 0) :
    MemTable.KeyComparator uc b a ≤ 0 := by
  have := (MemTable.KeyComparator_swap uc huc b a).1
  by_contra hc
  have h1 : 0 < MemTable.KeyComparator uc b a := by omega
  exact h ((MemTable.KeyComparator_swap uc huc a b).2 h1)

theorem Comparator.IsTotalOrder.not_both_lt {uc : Comparator} (huc : uc.IsTotalOrder)
    {a b : Slice} (h1 : uc.Compare a b < 0) (h2 : uc.Compare b a < 0) : False := by
  have := (huc.swap a b).1 h1
  omega

theorem MemTable.KeyComparator_trans (uc : Comparator) (huc : uc.IsTotalOrder)
    (a b d : CharPtr) (hab : MemTable.KeyComparator uc a b ≤ 0)
    (hbd : MemTable.KeyComparator uc b d ≤ 0) : MemTable.KeyComparator uc a d ≤ 0 := by
  rw [MemTable.KeyComparator_eq] at hab hbd ⊢
  by_cases h1 : uc.Compare (entryUserKey a) (entryUserKey b) = 0
  · have e1 : entryUserKey a = entryUserKey b := (huc.eq_zero_iff _ _).1 h1
    rw [e1] at hab ⊢
    by_cases h2 : uc.Compare (entryUserKey b) (entryUserKey d) = 0
    · simp only [h2, if_true] at hbd ⊢
      have hbb : uc.Compare (entryUserKey b) (entryUserKey b) = 0 := (huc.eq_zero_iff _ _).2 rfl
      simp only [hbb, if_true] at hab
      split_ifs at hab hbd ⊢ <;> omega
    · simp only [h2, if_false] at hbd ⊢
      exact hbd
  · simp only [h1, if_false] at hab
    by_cases h2 : uc.Compare (entryUserKey b) (entryUserKey d) = 0
    · have e2 : entryUserKey b = entryUserKey d := (huc.eq_zero_iff _ _).1 h2
      rw [← e2]
      simp only [h1, if_false]
      exact hab
    · simp only [h2, if_false] at hbd
      have had := huc.trans _ _ _ hab hbd
      by_cases h3 : uc.Compare (entryUserKey a) (entryUserKey d) = 0
      · exfalso
        have e3 : entryUserKey a = entryUserKey d := (huc.eq_zero_iff _ _).1 h3
        rw [e3] at hab h1
        exact huc.not_both_lt (by omega : uc.Compare (entryUserKey d) (entryUserKey b) < 0)
          (by omega : uc.Compare (entryUserKey b) (entryUserKey d) < 0)
      · simp only [h3, if_false]
        exact had

theorem SkipList.mem_Insert (cmp : CharPtr → CharPtr → Int) (key x : CharPtr)
    (l : List CharPtr) : x ∈ SkipList.Insert cmp key l ↔ x = key ∨ x ∈ l := by
  induction l with
  | nil => simp [SkipList.Insert]
  | cons y ys ih =>
    simp only [SkipList.Insert]
    split_ifs
    · simp only [List.mem_cons, ih]
      tauto
    · simp only [List.mem_cons]

theorem SkipList.Insert_perm (cmp : CharPtr → CharPtr → Int) (key : CharPtr)
    (l : List CharPtr) : List.Perm (SkipList.Insert cmp key l) (key :: l) := by
  induction l with
  | nil => simp [SkipList.Insert]
  | cons y ys ih =>
    simp only [SkipList.Insert]
    split_ifs
    · exact (List.Perm.cons y ih).trans (List.Perm.swap key y ys)
    · exact List.Perm.refl _

theorem SkipList.Insert_sorted (uc : Comparator) (huc : uc.IsTotalOrder) (key : CharPtr)
    (l : List CharPtr)
    (hl : l.Pairwise (fun a b => MemTable.KeyComparator uc a b ≤ 0)) :
    (SkipList.Insert (MemTable.KeyComparator uc) key l).Pairwise
      (fun a b => MemTable.KeyComparator uc a b ≤ 0) := by
  induction l with
  | nil => simp [SkipList.Insert]
  | cons y ys ih =>
    rw [List.pairwise_cons] at hl
    simp only [SkipList.Insert]
    split_ifs with hlt
    · rw [List.pairwise_cons]
      refine ⟨?_, ih hl.2⟩
      intro z hz
      rcases (SkipList.mem_Insert _ _ _ _).1 hz with rfl | hz
      · omega
      · exact hl.1 z hz
    · have hky := MemTable.KeyComparator_le_of_not_lt uc huc y key hlt
      rw [List.pairwise_cons, List.pairwise_cons]
      refine ⟨?_, hl⟩
      intro z hz
      rcases List.mem_cons.1 hz with rfl | hz
      · exact hky
      · exact MemTable.KeyComparator_trans uc huc _ _ _ hky (hl.1 z hz)

theorem MemTable.Add_user_comparator (m : MemTable) (s : Nat) (t : ValueType) (K V : Slice) :
    (m.Add s t K V).user_comparator = m.user_comparator := rfl

theorem MemTable.Add_table (m : MemTable) (s : Nat) (t : ValueType) (K V : Slice) :
    (m.Add s t K V).table_ = SkipList.Insert (MemTable.KeyComparator m.user_comparator)
      (MemTable.entryBuffer s t K V) m.table_ := rfl

theorem MemTable.AddAll_user_comparator (m : MemTable) (calls : List AddCall) :
    (m.AddAll calls).user_comparator = m.user_comparator := by
  induction calls generalizing m with
  | nil => rfl
  | cons c cs ih =>
    simp only [MemTable.AddAll, List.foldl_cons] at ih ⊢
    rw [ih, MemTable.Add_user_comparator]

theorem MemTable.AddAll_perm (m : MemTable) (calls : List AddCall) :
    List.Perm (m.AddAll calls).table_
      (calls.map (fun c => MemTable.entryBuffer c.s c.type c.key c.value) ++ m.table_) := by
  induction calls generalizing m with
  | nil => simp [MemTable.AddAll]
  | cons c cs ih =>
    simp only [MemTable.AddAll, List.foldl_cons, List.map_cons, List.cons_append] at ih ⊢
    refine (ih _).trans ?_
    rw [MemTable.Add_table]
    refine (List.Perm.append_left _ (SkipList.Insert_perm _ _ _)).trans ?_
    exact List.perm_middle

theorem MemTable.AddAll_sorted (m : MemTable) (huc : m.user_comparator.IsTotalOrder)
    (calls : List AddCall)
    (hm : m.table_.Pairwise (fun a b => MemTable.KeyComparator m.user_comparator a b ≤ 0)) :
    (m.AddAll calls).table_.Pairwise
      (fun a b => MemTable.KeyComparator m.user_comparator a b ≤ 0) := by
  induction calls generalizing m with
  | nil => exact hm
  | cons c cs ih =>
    simp only [MemTable.AddAll, List.foldl_cons] at ih ⊢
    exact ih (m.Add c.s c.type c.key c.value) huc
      (SkipList.Insert_sorted m.user_comparator huc _ _ hm)

/-! ## Which entry a lookup reaches -/

theorem List.dropWhile_head_false {α : Type} (p : α → Bool) (l : List α) (h : α)
    (rest : List α) (hd : l.dropWhile p = h :: rest) : p h = false := by
  induction l with
  | nil => simp at hd
  | cons x xs ih =>
    rw [List.dropWhile_cons] at hd
    split_ifs at hd with hp
    · exact ih hd
    · simp only [List.cons.injEq] at hd
      rw [← hd.1]
      simpa using hp

theorem List.mem_dropWhile_of_false {α : Type} (p : α → Bool) (l : List α) (x : α)
    (hx : x ∈ l) (hp : p x = false) : x ∈ l.dropWhile p := by
  have h := List.takeWhile_append_dropWhile p l
  rw [← h] at hx
  rcases List.mem_append.1 hx with h1 | h2
  · have := List.mem_takeWhile_imp h1
    simp [hp] at this
  · exact h2

theorem List.pairwise_dropWhile {α : Type} (R : α → α → Prop) (p : α → Bool) (l : List α)
    (hl : l.Pairwise R) : (l.dropWhile p).Pairwise R :=
  hl.sublist (List.dropWhile_sublist p)

/-- The records of a write buffer built from empty are the records of its `Add`
calls. -/
theorem MemTable.mem_table_new_AddAll (uc : Comparator) (calls : List AddCall) (x : CharPtr)
    : x ∈ ((MemTable.new uc).AddAll calls).table_ ↔
      ∃ c ∈ calls, x = MemTable.entryBuffer c.s c.type c.key c.value := by
  rw [(MemTable.AddAll_perm (MemTable.new uc) calls).mem_iff]
  simp only [MemTable.new, List.append_nil, List.mem_map]
  constructor
  · rintro ⟨c, hc, rfl⟩
    exact ⟨c, hc, rfl⟩
  · rintro ⟨c, hc, rfl⟩
    exact ⟨c, hc, rfl⟩

theorem MemTable.table_new_AddAll_sorted (uc : Comparator) (huc : uc.IsTotalOrder)
    (calls : List AddCall) :
    ((MemTable.new uc).AddAll calls).table_.Pairwise
      (fun a b => MemTable.KeyComparator uc a b ≤ 0) :=
  MemTable.AddAll_sorted (MemTable.new uc) huc calls List.Pairwise.nil

/-- An entry at or after the seek target for `(K, N)` with the user key `K` has a
sequence number of at most `N`. -/
theorem MemTable.not_lt_target (uc : Comparator) (K : Slice) (N : Nat) (c : AddCall)
    (hcK : c.key.length + 8 < 2 ^ 32) (hcs : c.s < 2 ^ 56)
    (hK : K.length + 8 < 2 ^ 32) (hN : N < 2 ^ 56)
    (h : ¬ MemTable.KeyComparator uc (MemTable.entryBuffer c.s c.type c.key c.value)
      (LookupKey.memtable_key ⟨K, N⟩) < 0) :
    ¬ uc.Compare c.key K < 0 ∧ (uc.Compare c.key K = 0 → c.s ≤ N) := by
  rw [MemTable.KeyComparator_eq, entryUserKey_entryBuffer _ _ _ _ hcK,
    entryTag_entryBuffer _ _ _ _ hcK hcs, entryUserKey_memtable_key K N hK,
    entryTag_memtable_key K N hK hN] at h
  have ht := typeToNat_lt c.type
  simp only [Nat.reducePow] at ht
  by_cases h0 : uc.Compare c.key K = 0
  · simp only [h0, if_true] at h
    refine ⟨by omega, fun _ => ?_⟩
    by_contra hgt
    have : c.s * 256 + c.type.toNat > N * 256 + 1 := by omega
    simp [this] at h
  · simp only [h0, if_false] at h
    exact ⟨h, fun h1 => absurd h1 h0⟩

/-- The general form of a hit: the entry for `K` that is visible at `N` and
newer than every other visible entry for `K` decides the lookup. -/
theorem MemTable.Get_newest (uc : Comparator) (huc : uc.IsTotalOrder) (calls : List AddCall)
    (K : Slice) (N : Nat) (value : List Byte) (st : Status) (c : AddCall)
    (hcalls : ∀ c' ∈ calls, c'.key.length + 8 < 2 ^ 32 ∧ c'.s < 2 ^ 56)
    (hK : K.length + 8 < 2 ^ 32) (hN : N < 2 ^ 56)
    (hc : c ∈ calls) (hcK : c.key = K) (hcN : c.s ≤ N)
    (hmax : ∀ c' ∈ calls, c'.key = K → c'.s ≤ N → c' = c ∨ c'.s < c.s) :
    ((MemTable.new uc).AddAll calls).Get ⟨K, N⟩ value st =
      if c.type = ValueType.kTypeValue then
        (true, GetLengthPrefixedSlice
          ((MemTable.entryBuffer c.s c.type c.key c.value).drop
            ((EncodeVarint32 (c.key.length + 8)).length + (c.key.length + 8))), st)
      else (true, value, Status.NotFound []) := by
  have hucm : ((MemTable.new uc).AddAll calls).user_comparator = uc :=
    MemTable.AddAll_user_comparator _ _
  have hKK : uc.Compare K K = 0 := (huc.eq_zero_iff _ _).2 rfl
  obtain ⟨hcKb, hcsb⟩ := hcalls c hc
  have htc : c.type.toNat ≤ 1 := by cases c.type <;> simp [ValueType.toNat]
  -- the record of `c` is not before the target
  have hce : ¬ MemTable.KeyComparator uc (MemTable.entryBuffer c.s c.type c.key c.value)
      (LookupKey.memtable_key ⟨K, N⟩) < 0 := by
    rw [MemTable.KeyComparator_eq, entryUserKey_entryBuffer _ _ _ _ hcKb,
      entryTag_entryBuffer _ _ _ _ hcKb hcsb, entryUserKey_memtable_key K N hK,
      entryTag_memtable_key K N hK hN, hcK]
    simp only [hKK, if_true]
    split_ifs <;> omega
  have hmem : MemTable.entryBuffer c.s c.type c.key c.value ∈
      (((MemTable.new uc).AddAll calls).table_).dropWhile
        (fun x => decide (MemTable.KeyComparator uc x (LookupKey.memtable_key ⟨K, N⟩) < 0)) :=
    List.mem_dropWhile_of_false _ _ _
      ((MemTable.mem_table_new_AddAll uc calls _).2 ⟨c, hc, rfl⟩) (by simpa using hce)
  -- the first entry at or after the target
  obtain ⟨h, rest, hdrop⟩ : ∃ h rest, (((MemTable.new uc).AddAll calls).table_).dropWhile
      (fun x => decide (MemTable.KeyComparator uc x (LookupKey.memtable_key ⟨K, N⟩) < 0))
      = h :: rest := by
    cases hd : (((MemTable.new uc).AddAll calls).table_).dropWhile
      (fun x => decide (MemTable.KeyComparator uc x (LookupKey.memtable_key ⟨K, N⟩) < 0)) with
    | nil => rw [hd] at hmem; simp at hmem
    | cons h rest => exact ⟨h, rest, rfl⟩
  have hh : h = MemTable.entryBuffer c.s c.type c.key c.value := by
    rw [hdrop] at hmem
    rcases List.mem_cons.1 hmem with heq | hrest
    · exact heq.symm
    · -- `h` is before the record of `c` in the index, and at or after the target
      have hsorted := List.pairwise_dropWhile _
        (fun x => decide (MemTable.KeyComparator uc x (LookupKey.memtable_key ⟨K, N⟩) < 0)) _
        (MemTable.table_new_AddAll_sorted uc huc calls)
      rw [hdrop, List.pairwise_cons] at hsorted
      have hle := hsorted.1 _ hrest
      have hhmem : h ∈ ((MemTable.new uc).AddAll calls).table_ :=
        (List.dropWhile_sublist _).subset (by rw [hdrop]; exact List.mem_cons_self _ _)
      obtain ⟨ch, hch, rfl⟩ := (MemTable.mem_table_new_AddAll uc calls h).1 hhmem
      obtain ⟨hchK, hchs⟩ := hcalls ch hch
      have hnot := List.dropWhile_head_false _ _ _ _ hdrop
      simp only [decide_eq_false_iff_not] at hnot
      obtain ⟨hn1, hn2⟩ := MemTable.not_lt_target uc K N ch hchK hchs hK hN hnot
      rw [MemTable.KeyComparator_eq, entryUserKey_entryBuffer _ _ _ _ hchK,
        entryTag_entryBuffer _ _ _ _ hchK hchs, entryUserKey_entryBuffer _ _ _ _ hcKb,
        entryTag_entryBuffer _ _ _ _ hcKb hcsb, hcK] at hle
      have h0 : uc.Compare ch.key K = 0 := by
        by_contra hne
        simp only [hne, if_false] at hle
        omega
      have hchKeq : ch.key = K := (huc.eq_zero_iff _ _).1 h0
      rcases hmax ch hch hchKeq (hn2 h0) with heq | hlt
      · rw [heq]
      · exfalso
        simp only [h0, if_true] at hle
        have htch := typeToNat_lt ch.type
        simp only [Nat.reducePow] at htch
        have h1 : ¬ ch.s * 256 + ch.type.toNat > c.s * 256 + c.type.toNat := by omega
        have h2 : ch.s * 256 + ch.type.toNat < c.s * 256 + c.type.toNat := by omega
        simp [h1, h2] at hle
  rw [hh] at hdrop
  have hget := MemTable.Get_of_seek_entry ((MemTable.new uc).AddAll calls) K N value st
    c.s c.type c.key c.value rest hcKb hcsb (by rw [hucm]; exact hdrop)
  rw [hget, hucm, hcK, if_pos hKK]

/-- The general form of a miss: without an entry for `K` visible at `N`, the
lookup reports no hit. -/
theorem MemTable.Get_none (uc : Comparator) (huc : uc.IsTotalOrder) (calls : List AddCall)
    (K : Slice) (N : Nat) (value : List Byte) (st : Status)
    (hcalls : ∀ c' ∈ calls, c'.key.length + 8 < 2 ^ 32 ∧ c'.s < 2 ^ 56)
    (hK : K.length + 8 < 2 ^ 32) (hN : N < 2 ^ 56)
    (hnone : ∀ c' ∈ calls, c'.key = K → ¬ c'.s ≤ N) :
    ((MemTable.new uc).AddAll calls).Get ⟨K, N⟩ value st = (false, value, st) := by
  have hucm : ((MemTable.new uc).AddAll calls).user_comparator = uc :=
    MemTable.AddAll_user_comparator _ _
  cases hd : (((MemTable.new uc).AddAll calls).table_).dropWhile
      (fun x => decide (MemTable.KeyComparator uc x (LookupKey.memtable_key ⟨K, N⟩) < 0)) with
  | nil => exact MemTable.Get_of_seek_nil _ _ _ _ (by rw [hucm]; exact hd)
  | cons h rest =>
    have hhmem : h ∈ ((MemTable.new uc).AddAll calls).table_ :=
      (List.dropWhile_sublist _).subset (by rw [hd]; exact List.mem_cons_self _ _)
    obtain ⟨ch, hch, rfl⟩ := (MemTable.mem_table_new_AddAll uc calls h).1 hhmem
    obtain ⟨hchK, hchs⟩ := hcalls ch hch
    have hnot := List.dropWhile_head_false _ _ _ _ hd
    simp only [decide_eq_false_iff_not] at hnot
    obtain ⟨_, hn2⟩ := MemTable.not_lt_target uc K N ch hchK hchs hK hN hnot
    have hne : uc.Compare ch.key K ≠ 0 := fun h0 =>
      hnone ch hch ((huc.eq_zero_iff _ _).1 h0) (hn2 h0)
    have hget := MemTable.Get_of_seek_entry ((MemTable.new uc).AddAll calls) K N value st
      ch.s ch.type ch.key ch.value rest hchK hchs (by rw [hucm]; exact hd)
    rw [hget, hucm, if_neg hne]

/-! ## The forward traversal -/

theorem BytewiseComparator_isTotalOrder : BytewiseComparator.IsTotalOrder where
  eq_zero_iff := Slice.compare_eq_zero_iff
  swap := fun a b => by
    have h := Slice.compare_neg_swap a b
    show Slice.compare a b < 0 ↔ 0 < Slice.compare b a
    omega
  trans := Slice.compare_le_trans

theorem MemTable.AddAll_append (m : MemTable) (calls : List AddCall) (c : AddCall) :
    m.AddAll (calls ++ [c]) = (m.AddAll calls).Add c.s c.type c.key c.value := by
  simp [MemTable.AddAll, List.foldl_append]

/-- The view of a record that the cursor gives: `key()` and `value()`. -/
theorem MemTableIterator.forward_eq (table : List CharPtr) (fuel : Nat) (l : List CharPtr) :
    MemTableIterator.forward fuel { table := table, iter_ := { node_ := l } }
      = (l.take fuel).map (fun r =>
          ((MemTableIterator.mk table ⟨[r]⟩).key, (MemTableIterator.mk table ⟨[r]⟩).value)) := by
  induction fuel generalizing l with
  | zero => simp [MemTableIterator.forward]
  | succ fuel ih =>
    cases l with
    | nil => simp [MemTableIterator.forward, MemTableIterator.Valid, SkipList.Iterator.Valid]
    | cons r rs =>
      simp only [MemTableIterator.forward, MemTableIterator.Valid, SkipList.Iterator.Valid,
        List.isEmpty_cons, Bool.not_false, if_true, MemTableIterator.Next,
        SkipList.Iterator.Next, List.tail_cons, ih, List.take_succ_cons, List.map_cons]
      rfl

theorem sequenceOf_eq (s t : Nat) (ht : t < 2 ^ 8) : (s * 256 + t) >>> 8 = s := by
  rw [Nat.shiftRight_eq_div_pow]
  simp only [Nat.reducePow] at ht ⊢
  omega

/-- Any two records of a write buffer, the first before the second in the index,
are in the order of the traversal. -/
theorem MemTable.table_pairwise_ordered (uc : Comparator) (huc : uc.IsTotalOrder)
    (calls : List AddCall)
    (hdistinct : (calls.map (fun c => (c.key, c.s))).Nodup)
    (hcalls : ∀ c ∈ calls, c.s < 2 ^ 56 ∧ c.key.length + 8 < 2 ^ 32) :
    ((MemTable.new uc).AddAll calls).table_.Pairwise (fun a b =>
      uc.Compare (entryUserKey a) (entryUserKey b) ≤ 0 ∧
        (uc.Compare (entryUserKey a) (entryUserKey b) = 0 →
          entryTag b >>> 8 < entryTag a >>> 8)) := by
  have hsorted := MemTable.table_new_AddAll_sorted uc huc calls
  -- distinct records have distinct (user key, sequence) pairs
  have hd1 : calls.Pairwise (fun c c' => (c.key, c.s) ≠ (c'.key, c'.s)) := by
    rw [List.Nodup, List.pairwise_map] at hdistinct
    exact hdistinct
  have hd2 : (calls.map (fun c => MemTable.entryBuffer c.s c.type c.key c.value)).Pairwise
      (fun a b => ¬ (entryUserKey a = entryUserKey b ∧ entryTag a >>> 8 = entryTag b >>> 8)) := by
    rw [List.pairwise_map]
    refine List.Pairwise.imp_of_mem ?_ hd1
    intro c c' hc hc' hne
    obtain ⟨hs, hk⟩ := hcalls c hc
    obtain ⟨hs', hk'⟩ := hcalls c' hc'
    rw [entryUserKey_entryBuffer _ _ _ _ hk, entryUserKey_entryBuffer _ _ _ _ hk',
      entryTag_entryBuffer _ _ _ _ hk hs, entryTag_entryBuffer _ _ _ _ hk' hs',
      sequenceOf_eq _ _ (typeToNat_lt _), sequenceOf_eq _ _ (typeToNat_lt _)]
    rintro ⟨h1, h2⟩
    exact hne (by rw [h1, h2])
  have hperm := MemTable.AddAll_perm (MemTable.new uc) calls
  simp only [MemTable.new, List.append_nil] at hperm
  have hd3 : ((MemTable.new uc).AddAll calls).table_.Pairwise
      (fun a b => ¬ (entryUserKey a = entryUserKey b ∧ entryTag a >>> 8 = entryTag b >>> 8)) := by
    refine (List.Perm.pairwise_iff ?_ hperm).2 hd2
    intro a b hab hba
    exact hab ⟨hba.1.symm, hba.2.symm⟩
  refine List.Pairwise.imp_of_mem ?_ (hsorted.and hd3)
  intro a b ha hb hab
  obtain ⟨hle, hne⟩ := hab
  obtain ⟨ca, hca, rfl⟩ := (MemTable.mem_table_new_AddAll uc calls a).1 ha
  obtain ⟨cb, hcb, rfl⟩ := (MemTable.mem_table_new_AddAll uc calls b).1 hb
  obtain ⟨hsa, hka⟩ := hcalls ca hca
  obtain ⟨hsb, hkb⟩ := hcalls cb hcb
  rw [MemTable.KeyComparator_eq] at hle
  rw [entryUserKey_entryBuffer _ _ _ _ hka, entryUserKey_entryBuffer _ _ _ _ hkb,
    entryTag_entryBuffer _ _ _ _ hka hsa, entryTag_entryBuffer _ _ _ _ hkb hsb] at hle hne ⊢
  rw [sequenceOf_eq _ _ (typeToNat_lt _), sequenceOf_eq _ _ (typeToNat_lt _)] at hne ⊢
  have hta := typeToNat_lt ca.type
  have htb := typeToNat_lt cb.type
  simp only [Nat.reducePow] at hta htb
  by_cases h0 : uc.Compare ca.key cb.key = 0
  · simp only [h0, if_true] at hle
    refine ⟨by omega, fun _ => ?_⟩
    have hkeq : ca.key = cb.key := (huc.eq_zero_iff _ _).1 h0
    have hsne : ca.s ≠ cb.s := fun hs => hne ⟨hkeq, hs⟩
    by_contra hlt
    have h2 : ca.s * 256 + ca.type.toNat < cb.s * 256 + cb.type.toNat := by omega
    have h1 : ¬ ca.s * 256 + ca.type.toNat > cb.s * 256 + cb.type.toNat := by omega
    simp [h1, h2] at hle
  · simp only [h0, if_false] at hle
    exact ⟨hle, fun h => absurd h h0⟩

theorem List.exists_newest (calls : List AddCall) (P : AddCall → Prop)
    (h : ∃ c ∈ calls, P c) :
    ∃ c ∈ calls, P c ∧ ∀ c' ∈ calls, P c' → c'.s ≤ c.s := by
  induction calls with
  | nil => simp at h
  | cons x xs ih =>
    by_cases hxs : ∃ c ∈ xs, P c
    · obtain ⟨c, hc, hPc, hmax⟩ := ih hxs
      by_cases hx : P x ∧ c.s < x.s
      · refine ⟨x, List.mem_cons_self _ _, hx.1, ?_⟩
        intro c' hc' hP'
        rcases List.mem_cons.1 hc' with rfl | hc'
        · exact le_refl _
        · have := hmax c' hc' hP'
          omega
      · refine ⟨c, List.mem_cons_of_mem _ hc, hPc, ?_⟩
        intro c' hc' hP'
        rcases List.mem_cons.1 hc' with rfl | hc'
        · by_contra hlt
          exact hx ⟨hP', by omega⟩
        · exact hmax c' hc' hP'
    · obtain ⟨c, hc, hPc⟩ := h
      rcases List.mem_cons.1 hc with rfl | hc
      · refine ⟨c, List.mem_cons_self _ _, hPc, ?_⟩
        intro c' hc' hP'
        rcases List.mem_cons.1 hc' with rfl | hc'
        · exact le_refl _
        · exact absurd ⟨c', hc', hP'⟩ hxs
      · exact absurd ⟨c, hc, hPc⟩ hxs

/-- With pairwise distinct (user key, sequence) pairs, the visible entry for `K`
of the greatest sequence number decides the lookup. -/
theorem MemTable.Get_of_distinct (uc : Comparator) (huc : uc.IsTotalOrder)
    (calls : List AddCall) (K : Slice) (N : Nat) (value : List Byte) (st : Status)
    (hdistinct : (calls.map (fun c => (c.key, c.s))).Nodup)
    (hcalls : ∀ c ∈ calls, c.s < 2 ^ 56 ∧ c.key.length + 8 < 2 ^ 32 ∧ c.value.length < 2 ^ 32)
    (hK : K.length + 8 < 2 ^ 32) (hN : N < 2 ^ 56)
    (c : AddCall) (hc : c ∈ calls) (hcK : c.key = K) (hcN : c.s ≤ N)
    (hmax : ∀ c' ∈ calls, c'.key = K → c'.s ≤ N → c'.s ≤ c.s) :
    ((MemTable.new uc).AddAll calls).Get ⟨K, N⟩ value st =
      match c.type with
      | .kTypeValue => (true, c.value, st)
      | .kTypeDeletion => (true, value, Status.NotFound []) := by
  have hinj : ∀ c' ∈ calls, (c'.key, c'.s) = (c.key, c.s) → c' = c := by
    intro c' hc' heq
    exact List.inj_on_of_nodup_map hdistinct hc' hc heq
  have h := MemTable.Get_newest uc huc calls K N value st c
    (fun c' hc' => ⟨(hcalls c' hc').2.1, (hcalls c' hc').1⟩) hK hN hc hcK hcN
    (by
      intro c' hc' hk' hn'
      by_cases hs : c'.s = c.s
      · exact Or.inl (hinj c' hc' (by rw [hk', hcK, hs]))
      · have := hmax c' hc' hk' hn'
        exact Or.inr (by omega))
  rw [h, MemTable.value_of_entryBuffer _ _ _ _ (hcalls c hc).2.1 (hcalls c hc).2.2]
  cases c.type <;> simp

/-! ## Claims about the write buffer -/

/-- C1 (as amended): round trip. For a user comparator that is a total order,
every write buffer built from empty by `Add` calls whose sequence numbers are
all smaller than `S` and whose internal keys have a 32-bit length, every user
key `K` and value `V` whose lengths fit the 32-bit length prefixes, and every
snapshot sequence `N` with `S <= N < 2^56`: after `Add(S, Value, K, V)` the call
`Get(K, N)` reports a hit and yields exactly the bytes of `V`. -/
theorem get_after_add_value (uc : Comparator) (huc : uc.IsTotalOrder) (calls : List AddCall)
    (S N : Nat) (K V value : List Byte) (st : Status)
    (hcalls : ∀ c ∈ calls, c.s < S ∧ c.key.length + 8 < 2 ^ 32)
    (hK : K.length + 8 < 2 ^ 32) (hV : V.length < 2 ^ 32)
    (hSN : S ≤ N) (hN : N < 2 ^ 56) :
    (((MemTable.new uc).AddAll calls).Add S .kTypeValue K V).Get ⟨K, N⟩ value st
      = (true, V, st) := by
  have hadd := MemTable.AddAll_append (MemTable.new uc) calls ⟨S, .kTypeValue, K, V⟩
  simp only at hadd
  rw [← hadd]
  have h := MemTable.Get_newest uc huc (calls ++ [⟨S, .kTypeValue, K, V⟩]) K N value st
    ⟨S, .kTypeValue, K, V⟩
    (by
      intro c' hc'
      rcases List.mem_append.1 hc' with h1 | h1
      · exact ⟨(hcalls c' h1).2, by have := (hcalls c' h1).1; omega⟩
      · rw [List.mem_singleton.1 h1]
        exact ⟨hK, by show S < 2 ^ 56; omega⟩)
    hK hN (by simp) rfl hSN
    (by
      intro c' hc' _ _
      rcases List.mem_append.1 hc' with h1 | h1
      · exact Or.inr (hcalls c' h1).1
      · exact Or.inl (List.mem_singleton.1 h1))
  rw [h, if_pos rfl, MemTable.value_of_entryBuffer _ _ _ _ hK hV]

theorem get_after_add_value_witness :
    (((MemTable.new BytewiseComparator).AddAll
        [⟨1, .kTypeValue, bytesOf "k", bytesOf "old"⟩]).Add 2 .kTypeValue
          (bytesOf "k") (bytesOf "new")).Get ⟨bytesOf "k", 7⟩ [] Status.OK
      = (true, bytesOf "new", Status.OK) :=
  get_after_add_value BytewiseComparator BytewiseComparator_isTotalOrder
    [⟨1, .kTypeValue, bytesOf "k", bytesOf "old"⟩] 2 7 (bytesOf "k") (bytesOf "new") []
    Status.OK (by decide) (by decide) (by decide) (by decide) (by decide)

/-- C1 fails as stated once a sequence number needs more than 56 bits: after
`Add(1, Value, "k", "old")` and `Add(2^56, Value, "k", "new")`, whose tag
`(s << 8) | type` wraps to 1, `Get("k", 2^56 + 1)` yields `"old"`, not `"new"`. -/
theorem get_after_add_value_counterexample :
    (∀ c ∈ [(⟨1, .kTypeValue, bytesOf "k", bytesOf "old"⟩ : AddCall)], c.s < 2 ^ 56) ∧
      2 ^ 56 ≤ 2 ^ 56 + 1 ∧
      (((MemTable.new BytewiseComparator).AddAll
          [⟨1, .kTypeValue, bytesOf "k", bytesOf "old"⟩]).Add (2 ^ 56) .kTypeValue
            (bytesOf "k") (bytesOf "new")).Get ⟨bytesOf "k", 2 ^ 56 + 1⟩ [] Status.OK
        = (true, bytesOf "old", Status.OK) ∧
      (((MemTable.new BytewiseComparator).AddAll
          [⟨1, .kTypeValue, bytesOf "k", bytesOf "old"⟩]).Add (2 ^ 56) .kTypeValue
            (bytesOf "k") (bytesOf "new")).Get ⟨bytesOf "k", 2 ^ 56 + 1⟩ [] Status.OK
        ≠ (true, bytesOf "new", Status.OK) := by
  decide

/-- C2 (as amended): tombstone precedence. For a user comparator that is a total
order, every write buffer built from empty by `Add` calls whose sequence numbers
are all smaller than `S - 1` and whose internal keys have a 32-bit length, every
user key `K` of such a length, value `V0` and snapshot sequence `N` with
`S <= N < 2^56`: after `Add(S-1, Value, K, V0)` followed by
`Add(S, Deletion, K, empty)` the call `Get(K, N)` answers with the status
`NotFound` and leaves the caller's value untouched, so `V0` is not yielded. -/
theorem get_after_add_deletion (uc : Comparator) (huc : uc.IsTotalOrder)
    (calls : List AddCall) (S N : Nat) (K V0 value : List Byte) (st : Status)
    (hS : 0 < S)
    (hcalls : ∀ c ∈ calls, c.s < S - 1 ∧ c.key.length + 8 < 2 ^ 32)
    (hK : K.length + 8 < 2 ^ 32) (hSN : S ≤ N) (hN : N < 2 ^ 56) :
    ((((MemTable.new uc).AddAll calls).Add (S - 1) .kTypeValue K V0).Add S
        .kTypeDeletion K []).Get ⟨K, N⟩ value st
      = (true, value, Status.NotFound []) := by
  have hadd1 := MemTable.AddAll_append (MemTable.new uc) calls ⟨S - 1, .kTypeValue, K, V0⟩
  have hadd2 := MemTable.AddAll_append (MemTable.new uc)
    (calls ++ [⟨S - 1, .kTypeValue, K, V0⟩]) ⟨S, .kTypeDeletion, K, []⟩
  simp only at hadd1 hadd2
  rw [← hadd1, ← hadd2]
  have h := MemTable.Get_newest uc huc
    ((calls ++ [⟨S - 1, .kTypeValue, K, V0⟩]) ++ [⟨S, .kTypeDeletion, K, []⟩]) K N value st
    ⟨S, .kTypeDeletion, K, []⟩
    (by
      intro c' hc'
      rcases List.mem_append.1 hc' with h1 | h1
      · rcases List.mem_append.1 h1 with h2 | h2
        · exact ⟨(hcalls c' h2).2, by have := (hcalls c' h2).1; omega⟩
        · rw [List.mem_singleton.1 h2]
          exact ⟨hK, by show S - 1 < 2 ^ 56; omega⟩
      · rw [List.mem_singleton.1 h1]
        exact ⟨hK, by show S < 2 ^ 56; omega⟩)
    hK hN (by simp) rfl hSN
    (by
      intro c' hc' _ _
      rcases List.mem_append.1 hc' with h1 | h1
      · rcases List.mem_append.1 h1 with h2 | h2
        · exact Or.inr (by have := (hcalls c' h2).1; show c'.s < S; omega)
        · rw [List.mem_singleton.1 h2]
          exact Or.inr (by show S - 1 < S; omega)
      · exact Or.inl (List.mem_singleton.1 h1))
  rw [h, if_neg (by simp)]

theorem get_after_add_deletion_witness :
    ((((MemTable.new BytewiseComparator).AddAll
        [⟨1, .kTypeValue, bytesOf "a", bytesOf "x"⟩]).Add (3 - 1) .kTypeValue
          (bytesOf "k") (bytesOf "v0")).Add 3 .kTypeDeletion (bytesOf "k") []).Get
        ⟨bytesOf "k", 9⟩ (bytesOf "out") Status.OK
      = (true, bytesOf "out", Status.NotFound []) :=
  get_after_add_deletion BytewiseComparator BytewiseComparator_isTotalOrder
    [⟨1, .kTypeValue, bytesOf "a", bytesOf "x"⟩] 3 9 (bytesOf "k") (bytesOf "v0")
    (bytesOf "out") Status.OK (by decide) (by decide) (by decide) (by decide) (by decide)

/-- C2 fails as stated once a sequence number needs more than 56 bits: with
`S = 2^56 + 1`, after `Add(S-1, Value, "k", "v0")` (tag wrapping to 1) and
`Add(S, Deletion, "k", "")`, `Get("k", 2^57)` reports a hit and yields `"v0"`. -/
theorem get_after_add_deletion_counterexample :
    (∀ c ∈ ([] : List AddCall), c.s < 2 ^ 56 + 1 - 1) ∧ 2 ^ 56 + 1 ≤ 2 ^ 57 ∧
      ((((MemTable.new BytewiseComparator).AddAll []).Add (2 ^ 56 + 1 - 1) .kTypeValue
          (bytesOf "k") (bytesOf "v0")).Add (2 ^ 56 + 1) .kTypeDeletion (bytesOf "k") []).Get
          ⟨bytesOf "k", 2 ^ 57⟩ [] Status.OK
        = (true, bytesOf "v0", Status.OK) ∧
      ((((MemTable.new BytewiseComparator).AddAll []).Add (2 ^ 56 + 1 - 1) .kTypeValue
          (bytesOf "k") (bytesOf "v0")).Add (2 ^ 56 + 1) .kTypeDeletion (bytesOf "k") []).Get
          ⟨bytesOf "k", 2 ^ 57⟩ [] Status.OK
        ≠ (true, [], Status.NotFound []) := by
  decide

/-- C3 (as amended): snapshot visibility of `Get`. For a user comparator that is
a total order and every write buffer built from empty by `Add` calls with
pairwise distinct (user key, sequence) pairs, sequence numbers below `2^56` and
key and value lengths that fit the 32-bit length prefixes, and every user key
`K` of such a length and snapshot sequence `N < 2^56`: `Get(K, N)` is decided by
the stored entry with user key `K` of the greatest sequence number `<= N` (its
value if it is a value entry, `NotFound` if it is a deletion entry); without
such an entry `Get` reports no hit; and the result is the one of the buffer
built without the entries of a sequence number `> N`. -/
theorem get_snapshot_visibility (uc : Comparator) (huc : uc.IsTotalOrder)
    (calls : List AddCall) (K : Slice) (N : Nat) (value : List Byte) (st : Status)
    (hdistinct : (calls.map (fun c => (c.key, c.s))).Nodup)
    (hcalls : ∀ c ∈ calls, c.s < 2 ^ 56 ∧ c.key.length + 8 < 2 ^ 32 ∧ c.value.length < 2 ^ 32)
    (hK : K.length + 8 < 2 ^ 32) (hN : N < 2 ^ 56) :
    (∀ c ∈ calls, c.key = K → c.s ≤ N →
        (∀ c' ∈ calls, c'.key = K → c'.s ≤ N → c'.s ≤ c.s) →
        ((MemTable.new uc).AddAll calls).Get ⟨K, N⟩ value st =
          match c.type with
          | .kTypeValue => (true, c.value, st)
          | .kTypeDeletion => (true, value, Status.NotFound [])) ∧
      ((∀ c ∈ calls, c.key = K → N < c.s) →
        ((MemTable.new uc).AddAll calls).Get ⟨K, N⟩ value st = (false, value, st)) ∧
      ((MemTable.new uc).AddAll calls).Get ⟨K, N⟩ value st =
        ((MemTable.new uc).AddAll (calls.filter (fun c => decide (c.s ≤ N)))).Get
          ⟨K, N⟩ value st := by
  have hkeys : ∀ c' ∈ calls, c'.key.length + 8 < 2 ^ 32 ∧ c'.s < 2 ^ 56 :=
    fun c' hc' => ⟨(hcalls c' hc').2.1, (hcalls c' hc').1⟩
  have hsub : (calls.filter (fun c => decide (c.s ≤ N))).Sublist calls := List.filter_sublist _
  have hdistinct' : ((calls.filter (fun c => decide (c.s ≤ N))).map
      (fun c => (c.key, c.s))).Nodup := hdistinct.sublist (hsub.map _)
  refine ⟨fun c hc hcK hcN hmax =>
      MemTable.Get_of_distinct uc huc calls K N value st hdistinct hcalls hK hN c hc hcK hcN hmax,
    fun hnone => MemTable.Get_none uc huc calls K N value st hkeys hK hN
      (fun c' hc' hk' => by have := hnone c' hc' hk'; omega), ?_⟩
  by_cases hex : ∃ c ∈ calls, c.key = K ∧ c.s ≤ N
  · obtain ⟨c, hc, ⟨hcK, hcN⟩, hmax⟩ :=
      List.exists_newest calls (fun c => c.key = K ∧ c.s ≤ N) hex
    rw [MemTable.Get_of_distinct uc huc calls K N value st hdistinct hcalls hK hN c hc hcK hcN
        (fun c' hc' hk' hn' => hmax c' hc' ⟨hk', hn'⟩),
      MemTable.Get_of_distinct uc huc _ K N value st hdistinct'
        (fun c' hc' => hcalls c' (hsub.subset hc')) hK hN c
        (List.mem_filter.2 ⟨hc, by simpa using hcN⟩) hcK hcN
        (fun c' hc' hk' hn' => hmax c' (hsub.subset hc') ⟨hk', hn'⟩)]
  · have hnone : ∀ c' ∈ calls, c'.key = K → ¬ c'.s ≤ N :=
      fun c' hc' hk' hn' => hex ⟨c', hc', hk', hn'⟩
    rw [MemTable.Get_none uc huc calls K N value st hkeys hK hN hnone,
      MemTable.Get_none uc huc _ K N value st
        (fun c' hc' => hkeys c' (hsub.subset hc')) hK hN
        (fun c' hc' => hnone c' (hsub.subset hc'))]

theorem get_snapshot_visibility_witness :
    ((MemTable.new BytewiseComparator).AddAll
        [⟨5, .kTypeValue, bytesOf "k", bytesOf "new"⟩, ⟨3, .kTypeDeletion, bytesOf "k", []⟩,
          ⟨1, .kTypeValue, bytesOf "k", bytesOf "old"⟩]).Get ⟨bytesOf "k", 4⟩ [] Status.OK
      = (true, [], Status.NotFound []) :=
  (get_snapshot_visibility BytewiseComparator BytewiseComparator_isTotalOrder
    [⟨5, .kTypeValue, bytesOf "k", bytesOf "new"⟩, ⟨3, .kTypeDeletion, bytesOf "k", []⟩,
      ⟨1, .kTypeValue, bytesOf "k", bytesOf "old"⟩] (bytesOf "k") 4 [] Status.OK
    (by decide) (by decide) (by decide) (by decide)).1
    ⟨3, .kTypeDeletion, bytesOf "k", []⟩ (by decide) rfl (by decide) (by decide)

/-- C3 fails as stated once a sequence number needs more than 56 bits: the only
entry for `"k"` has the sequence number `2^56 + 3`, greater than the snapshot
`N = 5`, yet its tag wraps to that of sequence 3 and `Get("k", 5)` reports a hit
with its value. -/
theorem get_snapshot_visibility_counterexample :
    ([(⟨2 ^ 56 + 3, .kTypeValue, bytesOf "k", bytesOf "new"⟩ : AddCall)].map
        (fun c => (c.key, c.s))).Nodup ∧
      (∀ c ∈ [(⟨2 ^ 56 + 3, .kTypeValue, bytesOf "k", bytesOf "new"⟩ : AddCall)],
        c.key = bytesOf "k" → 5 < c.s) ∧
      ((MemTable.new BytewiseComparator).AddAll
          [⟨2 ^ 56 + 3, .kTypeValue, bytesOf "k", bytesOf "new"⟩]).Get ⟨bytesOf "k", 5⟩ []
          Status.OK
        = (true, bytesOf "new", Status.OK) := by
  decide

/-- C4 (as amended): for a user comparator that is a total order, every write
buffer built from empty by `Add` calls with pairwise distinct (user key,
sequence) pairs, sequence numbers below `2^56` and lengths that fit the 32-bit
length prefixes, and every lookup `(K, N)` with `N < 2^56`: when the newest
visible entry for `K` is a tombstone, `Get` returns true, leaves the value
output unchanged and sets the status output to `NotFound`; when the buffer holds
no entry for `K` at all, `Get` returns false and leaves both outputs unchanged.
The two agree on the value output and differ in the returned flag. -/
theorem get_tombstone_and_absent (uc : Comparator) (huc : uc.IsTotalOrder)
    (calls : List AddCall) (K : Slice) (N : Nat) (value : List Byte) (st : Status)
    (hdistinct : (calls.map (fun c => (c.key, c.s))).Nodup)
    (hcalls : ∀ c ∈ calls, c.s < 2 ^ 56 ∧ c.key.length + 8 < 2 ^ 32 ∧ c.value.length < 2 ^ 32)
    (hK : K.length + 8 < 2 ^ 32) (hN : N < 2 ^ 56) :
    (∀ c ∈ calls, c.key = K → c.s ≤ N → c.type = .kTypeDeletion →
        (∀ c' ∈ calls, c'.key = K → c'.s ≤ N → c'.s ≤ c.s) →
        ((MemTable.new uc).AddAll calls).Get ⟨K, N⟩ value st
          = (true, value, Status.NotFound [])) ∧
      ((∀ c ∈ calls, c.key ≠ K) →
        ((MemTable.new uc).AddAll calls).Get ⟨K, N⟩ value st = (false, value, st)) := by
  constructor
  · intro c hc hcK hcN hdel hmax
    rw [MemTable.Get_of_distinct uc huc calls K N value st hdistinct hcalls hK hN c hc hcK hcN
      hmax, hdel]
  · intro habsent
    exact MemTable.Get_none uc huc calls K N value st
      (fun c' hc' => ⟨(hcalls c' hc').2.1, (hcalls c' hc').1⟩) hK hN
      (fun c' hc' hk' => absurd hk' (habsent c' hc'))

theorem get_tombstone_and_absent_witness :
    ((MemTable.new BytewiseComparator).AddAll
        [⟨1, .kTypeValue, bytesOf "k", bytesOf "v"⟩, ⟨2, .kTypeDeletion, bytesOf "k", []⟩]).Get
        ⟨bytesOf "k", 2⟩ (bytesOf "out") Status.OK
      = (true, bytesOf "out", Status.NotFound []) :=
  (get_tombstone_and_absent BytewiseComparator BytewiseComparator_isTotalOrder
    [⟨1, .kTypeValue, bytesOf "k", bytesOf "v"⟩, ⟨2, .kTypeDeletion, bytesOf "k", []⟩]
    (bytesOf "k") 2 (bytesOf "out") Status.OK
    (by decide) (by decide) (by decide) (by decide)).1
    ⟨2, .kTypeDeletion, bytesOf "k", []⟩ (by decide) rfl (by decide) rfl (by decide)

/-- C4 fails as stated: for the lookup `("k", 1)` with the status output
initially ok, the buffer whose newest visible entry for `"k"` is a tombstone
makes `Get` return true with the status `NotFound`, and the buffer without an
entry for `"k"` makes `Get` return false with the status still ok. -/
theorem get_tombstone_and_absent_counterexample :
    ((MemTable.new BytewiseComparator).AddAll [⟨1, .kTypeDeletion, bytesOf "k", []⟩]).Get
        ⟨bytesOf "k", 1⟩ [] Status.OK = (true, [], Status.NotFound []) ∧
      ((MemTable.new BytewiseComparator).AddAll []).Get ⟨bytesOf "k", 1⟩ [] Status.OK
        = (false, [], Status.OK) ∧
      ((MemTable.new BytewiseComparator).AddAll [⟨1, .kTypeDeletion, bytesOf "k", []⟩]).Get
          ⟨bytesOf "k", 1⟩ [] Status.OK
        ≠ ((MemTable.new BytewiseComparator).AddAll []).Get ⟨bytesOf "k", 1⟩ [] Status.OK := by
  decide

/-- C5 (as amended): global ordering. For a user comparator that is a total
order and every finite set of records with pairwise distinct (user key,
sequence) pairs, sequence numbers below `2^56` and internal keys of a 32-bit
length, inserted by `Add` in any order: the forward traversal of `NewIterator()`
from `SeekToFirst` via `Next` ends, visits as many entries as were added, and the
user keys of consecutive entries are non-decreasing under the user comparator,
the sequence numbers strictly decreasing where the user keys are equal. -/
theorem forward_traversal_ordered (uc : Comparator) (huc : uc.IsTotalOrder)
    (calls : List AddCall)
    (hdistinct : (calls.map (fun c => (c.key, c.s))).Nodup)
    (hcalls : ∀ c ∈ calls, c.s < 2 ^ 56 ∧ c.key.length + 8 < 2 ^ 32) :
    (∀ fuel, calls.length ≤ fuel →
        MemTableIterator.forward fuel ((MemTable.new uc).AddAll calls).NewIterator.SeekToFirst
          = MemTableIterator.forward calls.length
              ((MemTable.new uc).AddAll calls).NewIterator.SeekToFirst) ∧
      (MemTableIterator.forward calls.length
        ((MemTable.new uc).AddAll calls).NewIterator.SeekToFirst).length = calls.length ∧
      List.Chain' (fun a b =>
          uc.Compare (ExtractUserKey a.1) (ExtractUserKey b.1) ≤ 0 ∧
            (uc.Compare (ExtractUserKey a.1) (ExtractUserKey b.1) = 0 →
              sequenceOf b.1 < sequenceOf a.1))
        (MemTableIterator.forward calls.length
          ((MemTable.new uc).AddAll calls).NewIterator.SeekToFirst) := by
  have hlen : ((MemTable.new uc).AddAll calls).table_.length = calls.length := by
    have := (MemTable.AddAll_perm (MemTable.new uc) calls).length_eq
    simpa [MemTable.new] using this
  have hfw : ∀ fuel, calls.length ≤ fuel →
      MemTableIterator.forward fuel ((MemTable.new uc).AddAll calls).NewIterator.SeekToFirst
        = ((MemTable.new uc).AddAll calls).table_.map (fun r =>
            ((MemTableIterator.mk ((MemTable.new uc).AddAll calls).table_ ⟨[r]⟩).key,
              (MemTableIterator.mk ((MemTable.new uc).AddAll calls).table_ ⟨[r]⟩).value)) := by
    intro fuel hfuel
    have h := MemTableIterator.forward_eq ((MemTable.new uc).AddAll calls).table_ fuel
      ((MemTable.new uc).AddAll calls).table_
    rw [List.take_of_length_le (by omega)] at h
    exact h
  refine ⟨fun fuel hfuel => by rw [hfw fuel hfuel, hfw calls.length (le_refl _)], ?_, ?_⟩
  · rw [hfw calls.length (le_refl _), List.length_map, hlen]
  · rw [hfw calls.length (le_refl _)]
    apply List.Pairwise.chain'
    rw [List.pairwise_map]
    exact MemTable.table_pairwise_ordered uc huc calls hdistinct hcalls

theorem forward_traversal_ordered_witness :
    List.Chain' (fun a b =>
        BytewiseComparator.Compare (ExtractUserKey a.1) (ExtractUserKey b.1) ≤ 0 ∧
          (BytewiseComparator.Compare (ExtractUserKey a.1) (ExtractUserKey b.1) = 0 →
            sequenceOf b.1 < sequenceOf a.1))
      (MemTableIterator.forward 3
        ((MemTable.new BytewiseComparator).AddAll
          [⟨2, .kTypeValue, bytesOf "b", bytesOf "x"⟩, ⟨1, .kTypeValue, bytesOf "a", bytesOf "y"⟩,
            ⟨3, .kTypeDeletion, bytesOf "a", []⟩]).NewIterator.SeekToFirst) :=
  (forward_traversal_ordered BytewiseComparator BytewiseComparator_isTotalOrder
    [⟨2, .kTypeValue, bytesOf "b", bytesOf "x"⟩, ⟨1, .kTypeValue, bytesOf "a", bytesOf "y"⟩,
      ⟨3, .kTypeDeletion, bytesOf "a", []⟩] (by decide) (by decide)).2.2

/-- C5 fails as stated once a sequence number needs more than 56 bits: the
records `("k", 2^56 + 1)` and `("k", 1)` have distinct (user key, sequence)
pairs, and the traversal visits two consecutive entries with the user key `"k"`
that both hold the sequence number 1. -/
theorem forward_traversal_ordered_counterexample :
    ([(⟨2 ^ 56 + 1, .kTypeValue, bytesOf "k", bytesOf "b"⟩ : AddCall),
        ⟨1, .kTypeValue, bytesOf "k", bytesOf "a"⟩].map (fun c => (c.key, c.s))).Nodup ∧
      (MemTableIterator.forward 2
        ((MemTable.new BytewiseComparator).AddAll
          [⟨2 ^ 56 + 1, .kTypeValue, bytesOf "k", bytesOf "b"⟩,
            ⟨1, .kTypeValue, bytesOf "k", bytesOf "a"⟩]).NewIterator.SeekToFirst).map
        (fun e => (ExtractUserKey e.1, sequenceOf e.1, e.2))
        = [(bytesOf "k", 1, bytesOf "a"), (bytesOf "k", 1, bytesOf "b")] := by
  decide

/-- C6: `Get` miss. For every write buffer and lookup `(K, N)`, if the index
holds no entry at or after the seek target for `(K, N)`, or the first such entry
has a user key (the `key_length - 8` bytes that `Get` reads at `key_ptr`) that
the user comparator does not report equal to `K`, then `Get` returns false and
leaves both the caller's value output and status output unchanged. -/
theorem get_miss (m : MemTable) (key : LookupKey) (value : List Byte) (st : Status)
    (h : (∀ x ∈ m.table_, MemTable.KeyComparator m.user_comparator x key.memtable_key < 0) ∨
      (∃ pre e post, m.table_ = pre ++ e :: post ∧
        (∀ x ∈ pre, MemTable.KeyComparator m.user_comparator x key.memtable_key < 0) ∧
        ¬ MemTable.KeyComparator m.user_comparator e key.memtable_key < 0 ∧
        ∀ key_length key_ptr, GetVarint32Ptr e = some (key_length, key_ptr) →
          m.user_comparator.Compare (key_ptr.take ((key_length + 2 ^ 32 - 8) % 2 ^ 32))
            key.user_key ≠ 0)) :
    m.Get key value st = (false, value, st) := by
  rcases h with hall | ⟨pre, e, post, htable, hpre, he, hkey⟩
  · apply MemTable.Get_of_seek_nil
    rw [List.dropWhile_eq_nil_iff]
    intro x hx
    simpa using hall x hx
  · have hdrop : m.table_.dropWhile
        (fun x => decide (MemTable.KeyComparator m.user_comparator x key.memtable_key < 0))
        = e :: post := by
      rw [htable, List.dropWhile_append_of_pos (fun x hx => by simpa using hpre x hx),
        List.dropWhile_cons_of_neg (by simpa using he)]
    simp only [MemTable.Get, SkipList.Iterator.Seek, SkipList.Iterator.Valid,
      SkipList.Iterator.key, hdrop, List.isEmpty_cons, Bool.not_false, if_true,
      List.headD_cons]
    cases hv : GetVarint32Ptr e with
    | none => rfl
    | some p =>
      obtain ⟨key_length, key_ptr⟩ := p
      simp only [if_neg (hkey key_length key_ptr hv)]

theorem get_miss_witness :
    ((MemTable.new BytewiseComparator).AddAll
        [⟨1, .kTypeValue, bytesOf "a", bytesOf "x"⟩, ⟨2, .kTypeValue, bytesOf "c", bytesOf "y"⟩]).Get
        ⟨bytesOf "b", 5⟩ (bytesOf "out") Status.OK
      = (false, bytesOf "out", Status.OK) :=
  get_miss _ ⟨bytesOf "b", 5⟩ (bytesOf "out") Status.OK
    (Or.inr ⟨[MemTable.entryBuffer 1 .kTypeValue (bytesOf "a") (bytesOf "x")],
      MemTable.entryBuffer 2 .kTypeValue (bytesOf "c") (bytesOf "y"), [],
      by decide, by decide, by decide,
      fun key_length key_ptr hv => by
        have h : GetVarint32Ptr (MemTable.entryBuffer 2 .kTypeValue (bytesOf "c") (bytesOf "y"))
            = some (9, [99, 1, 2, 0, 0, 0, 0, 0, 0, 1, 121]) := by decide
        rw [h] at hv
        cases hv
        decide⟩)

/-! ## `FindShortSuccessor` -/

/-- The successor of a run of bytes, by recursion on the bytes: `none` when every
byte is `0xff`. -/
theorem BytewiseComparatorImpl.shortSuccessorLoop_eq (key : List Byte) (fuel i : Nat)
    (hi : i ≤ key.length) (hfuel : key.length - i ≤ fuel) :
    shortSuccessorLoop key key.length fuel i =
      if (key.drop i).any (fun b => decide (b.val ≠ 0xff)) then
        key.take (i + (key.drop i).findIdx (fun b => decide (b.val ≠ 0xff)))
          ++ [key.getD (i + (key.drop i).findIdx (fun b => decide (b.val ≠ 0xff))) 0 + 1]
      else key := by
  induction fuel generalizing i with
  | zero =>
    have hil : i = key.length := by omega
    simp [shortSuccessorLoop, hil]
  | succ fuel ih =>
    simp only [shortSuccessorLoop]
    by_cases hlt : i < key.length
    · rw [if_pos hlt, List.drop_eq_getElem_cons hlt, List.getD_eq_getElem _ _ hlt]
      by_cases hb : (key[i]).val ≠ 0xff
      · rw [if_pos hb]
        have hp : decide ((key[i]).val ≠ 0xff) = true := by simpa using hb
        simp only [List.any_cons, hp, Bool.true_or, if_true, List.findIdx_cons, cond_true,
          Nat.add_zero]
        rw [List.take_succ_set_eq _ _ _ hlt, List.getD_eq_getElem _ _ hlt]
      · rw [if_neg hb, ih (i + 1) (by omega) (by omega)]
        have hp : decide ((key[i]).val ≠ 0xff) = false := by simpa using hb
        simp only [List.any_cons, hp, Bool.false_or, List.findIdx_cons, cond_false]
        have : i + 1 + List.findIdx (fun b => decide (b.val ≠ 0xff)) (List.drop (i + 1) key)
            = i + (List.findIdx (fun b => decide (b.val ≠ 0xff)) (List.drop (i + 1) key) + 1) := by
          omega
        rw [this]
    · have hil : i = key.length := by omega
      rw [if_neg hlt]
      simp [hil]

theorem BytewiseComparatorImpl.FindShortSuccessor_eq_reference (key : List Byte) :
    FindShortSuccessor key = FindShortSuccessor_reference key := by
  have h := shortSuccessorLoop_eq key key.length 0 (Nat.zero_le _) (by omega)
  simp only [List.drop_zero, Nat.zero_add] at h
  simp only [FindShortSuccessor, FindShortSuccessor_reference, h]

theorem FindShortSuccessor_reference_nil : FindShortSuccessor_reference [] = [] := by
  simp [FindShortSuccessor_reference]

theorem FindShortSuccessor_reference_cons (b : Byte) (rest : List Byte) :
    FindShortSuccessor_reference (b :: rest) =
      if b.val ≠ 0xff then [b + 1] else b :: FindShortSuccessor_reference rest := by
  by_cases hb : b.val ≠ 0xff
  · have hp : decide (b.val ≠ 0xff) = true := by simpa using hb
    simp [FindShortSuccessor_reference, hp, hb, List.findIdx_cons]
  · have hp : decide (b.val ≠ 0xff) = false := by simpa using hb
    rw [if_neg hb]
    simp only [FindShortSuccessor_reference, List.any_cons, hp, Bool.false_or,
      List.findIdx_cons, cond_false, List.take_succ_cons, List.getD_cons_succ]
    split_ifs <;> simp

theorem FindShortSuccessor_reference_bound (key : List Byte) :
    Slice.compare key (FindShortSuccessor_reference key) ≤ 0 ∧
      (FindShortSuccessor_reference key).length ≤ key.length := by
  induction key with
  | nil => simp [FindShortSuccessor_reference_nil, Slice.compare_nil_nil]
  | cons b rest ih =>
    rw [FindShortSuccessor_reference_cons]
    by_cases hb : b.val ≠ 0xff
    · rw [if_pos hb]
      have hb1 : (b + 1).val = b.val + 1 := by
        rw [Fin.val_add]
        have := b.isLt
        simp only [Fin.val_one]
        omega
      rw [Slice.compare_cons_cons, hb1]
      have h1 : b.val < b.val + 1 := by omega
      simp [h1]
    · rw [if_neg hb, Slice.compare_cons_cons]
      simp only [lt_self_iff_false, if_false, List.length_cons]
      exact ⟨ih.1, by omega⟩

/-- C11: `FindShortSuccessor` never goes below its input: for every byte string
`key`, the string `r` left in `*key` satisfies `Compare(key, r) <= 0` under the
byte-wise comparator, and `r` is no longer than `key`. -/
theorem findShortSuccessor_not_below (key : List Byte) :
    BytewiseComparatorImpl.Compare key (BytewiseComparatorImpl.FindShortSuccessor key) ≤ 0 ∧
      (BytewiseComparatorImpl.FindShortSuccessor key).length ≤ key.length := by
  rw [BytewiseComparatorImpl.FindShortSuccessor_eq_reference]
  exact FindShortSuccessor_reference_bound key

/-- C12: `FindShortSuccessor` equals the reference definition for every byte
string `key` (the first `i` bytes followed by `key[i] + 1` for the first index
`i` of a byte that is not `0xFF`; unchanged if every byte is `0xFF`); and
`FindShortSuccessor("abc")` yields `"b"`, `FindShortSuccessor("\xFF\xFF")`
yields `"\xFF\xFF"`. -/
theorem findShortSuccessor_refines_reference :
    (∀ key : List Byte,
        BytewiseComparatorImpl.FindShortSuccessor key = FindShortSuccessor_reference key) ∧
      (∀ key : List Byte, ∀ i, i < key.length → (key.getD i 0).val ≠ 0xff →
        (∀ j, j < i → (key.getD j 0).val = 0xff) →
        BytewiseComparatorImpl.FindShortSuccessor key = key.take i ++ [key.getD i 0 + 1] ∧
          (BytewiseComparatorImpl.FindShortSuccessor key).length = i + 1) ∧
      (∀ key : List Byte, (∀ b ∈ key, b.val = 0xff) →
        BytewiseComparatorImpl.FindShortSuccessor key = key) ∧
      BytewiseComparatorImpl.FindShortSuccessor (bytesOf "abc") = bytesOf "b" ∧
      BytewiseComparatorImpl.FindShortSuccessor [0xff, 0xff] = [0xff, 0xff] ∧
      BytewiseComparatorImpl.FindShortSuccessor [] = [] := by
  refine ⟨BytewiseComparatorImpl.FindShortSuccessor_eq_reference, ?_, ?_, by decide, by decide,
    by decide⟩
  · intro key i hi hne hall
    rw [BytewiseComparatorImpl.FindShortSuccessor_eq_reference]
    have hidx : key.findIdx (fun b => decide (b.val ≠ 0xff)) = i := by
      rw [List.findIdx_eq hi]
      refine ⟨?_, ?_⟩
      · rw [← List.getD_eq_getElem _ 0 hi]
        simpa using hne
      · intro j hj
        have := hall j hj
        rw [List.getD_eq_getElem _ 0 (by omega)] at this
        simpa using this
    have hany : key.any (fun b => decide (b.val ≠ 0xff)) = true := by
      rw [List.any_eq_true]
      exact ⟨key.getD i 0, by rw [List.getD_eq_getElem _ 0 hi]; exact List.getElem_mem _,
        by simpa using hne⟩
    simp only [FindShortSuccessor_reference, hany, if_true, hidx]
    refine ⟨trivial, ?_⟩
    simp [List.length_take]
    omega
  · intro key hall
    rw [BytewiseComparatorImpl.FindShortSuccessor_eq_reference]
    have hany : key.any (fun b => decide (b.val ≠ 0xff)) = false := by
      rw [List.any_eq_false]
      intro b hb
      simpa using hall b hb
    unfold FindShortSuccessor_reference
    rw [hany]
    rfl

theorem findShortSuccessor_refines_reference_witness :
    BytewiseComparatorImpl.FindShortSuccessor [0xff, 3, 9] = [0xff, 4] ∧
      (BytewiseComparatorImpl.FindShortSuccessor [0xff, 3, 9]).length = 1 + 1 :=
  findShortSuccessor_refines_reference.2.1 [0xff, 3, 9] 1 (by decide) (by decide) (by decide)

/-! ## The arena -/

theorem Arena.AllocateNewBlock_snd (a : Arena) (n : Nat) :
    (a.AllocateNewBlock n).2 =
      { a with
        blocks_ := a.blocks_ ++ [n]
        memory_usage_ := a.memory_usage_ + (n + sizeofCharPtr) } := rfl

theorem Arena.AllocateFallback_eq (a : Arena) (n : Nat) :
    a.AllocateFallback n =
      if n > kBlockSize / 4 then
        (some ⟨a.blocks_.length, 0⟩,
          { a with
            blocks_ := a.blocks_ ++ [n]
            memory_usage_ := a.memory_usage_ + (n + sizeofCharPtr) })
      else
        (some ⟨a.blocks_.length, 0⟩,
          { alloc_ptr_ := some ⟨a.blocks_.length, n⟩
            alloc_bytes_remaining_ := kBlockSize - n
            blocks_ := a.blocks_ ++ [kBlockSize]
            memory_usage_ := a.memory_usage_ + (kBlockSize + sizeofCharPtr) }) := by
  unfold AllocateFallback
  split_ifs <;> simp [AllocateNewBlock, advance]

theorem Arena.AllocateFallback_usage (a : Arena) (n : Nat) :
    a.MemoryUsage ≤ (a.AllocateFallback n).2.MemoryUsage := by
  rw [Arena.AllocateFallback_eq]
  split_ifs <;> simp [MemoryUsage]

theorem Arena.Allocate_usage (a : Arena) (n : Nat) :
    a.MemoryUsage ≤ (a.Allocate n).2.MemoryUsage := by
  unfold Allocate
  split_ifs
  · exact le_refl _
  · exact Arena.AllocateFallback_usage a n

theorem Arena.and_seven (x : Nat) : x &&& 7 = x % 8 :=
  Nat.and_pow_two_sub_one_eq_mod x 3

theorem Arena.align_eq : (if sizeofCharPtr > 8 then sizeofCharPtr else 8) = 8 := by
  decide

theorem Arena.AllocateAligned_eq (base : Nat → Nat) (a : Arena) (n : Nat) :
    ∃ slop, (uintptr base a.alloc_ptr_ + slop) % 8 = 0 ∧ slop ≤ 7 ∧
      a.AllocateAligned base n =
        if (n + slop) % 2 ^ 64 ≤ a.alloc_bytes_remaining_ then
          (advance a.alloc_ptr_ slop,
            { a with
              alloc_ptr_ := advance a.alloc_ptr_ ((n + slop) % 2 ^ 64)
              alloc_bytes_remaining_ := a.alloc_bytes_remaining_ - (n + slop) % 2 ^ 64 })
        else a.AllocateFallback n := by
  refine ⟨if uintptr base a.alloc_ptr_ % 8 = 0 then 0 else 8 - uintptr base a.alloc_ptr_ % 8,
    ?_, ?_, ?_⟩
  · split_ifs <;> omega
  · split_ifs <;> omega
  · unfold AllocateAligned
    simp only [Arena.align_eq, Nat.add_one_sub_one, Arena.and_seven]

theorem Arena.AllocateAligned_usage (base : Nat → Nat) (a : Arena) (n : Nat) :
    a.MemoryUsage ≤ (a.AllocateAligned base n).2.MemoryUsage := by
  obtain ⟨slop, _, _, h⟩ := Arena.AllocateAligned_eq base a n
  rw [h]
  split_ifs
  · exact le_refl _
  · exact Arena.AllocateFallback_usage a n

theorem Arena.call_usage (base : Nat → Nat) (a : Arena) (c : ArenaCall) :
    a.MemoryUsage ≤ (a.call base c).2.MemoryUsage := by
  cases c with
  | Allocate n => exact Arena.Allocate_usage a n
  | AllocateAligned n => exact Arena.AllocateAligned_usage base a n

theorem Arena.after_usage (base : Nat → Nat) (a : Arena) (calls : List ArenaCall) :
    a.MemoryUsage ≤ (a.after base calls).MemoryUsage := by
  induction calls generalizing a with
  | nil => exact le_refl _
  | cons c cs ih =>
    simp only [Arena.after, List.foldl_cons] at ih ⊢
    exact le_trans (Arena.call_usage base a c) (ih _)

/-- The arena of a `MemTable` after `Add`: the record is one `Allocate` call, and
`table_.Insert(buf)` takes the node of the record with one `AllocateAligned`
call. -/
theorem MemTable.Add_arena (m : MemTable) (s : Nat) (t : ValueType) (K V : Slice) :
    (m.Add s t K V).arena_
      = m.arena_.after MemTable.blockAddress
          [.Allocate
              (VarintLength (K.length + 8) + (K.length + 8) + VarintLength V.length
                + V.length),
            .AllocateAligned (SkipList.nodeBytes (SkipList.RandomHeight m.rnd_).1)] := rfl

theorem MemTable.Add_usage (m : MemTable) (s : Nat) (t : ValueType) (K V : Slice) :
    m.ApproximateMemoryUsage ≤ (m.Add s t K V).ApproximateMemoryUsage := by
  unfold MemTable.ApproximateMemoryUsage
  rw [MemTable.Add_arena]
  exact Arena.after_usage _ _ _

theorem MemTable.AddAll_usage (m : MemTable) (calls : List AddCall) :
    m.ApproximateMemoryUsage ≤ (m.AddAll calls).ApproximateMemoryUsage := by
  induction calls generalizing m with
  | nil => exact le_refl _
  | cons c cs ih =>
    simp only [MemTable.AddAll, List.foldl_cons] at ih ⊢
    exact le_trans (MemTable.Add_usage m c.s c.type c.key c.value) (ih _)

/-- C14: monotonic accounting. For every `Arena` state and every `Allocate` or
`AllocateAligned` call, `MemoryUsage()` after the call is `>=` `MemoryUsage()`
before it, in exact integer arithmetic, and so it is after every sequence of
such calls; hence `ApproximateMemoryUsage()` never decreases over any sequence
of `MemTable::Add` calls, nor over any of its steps, an `Add` being the
`Allocate` call for the record followed by the `AllocateAligned` call with which
`table_.Insert(buf)` takes the node of the record from the same arena. -/
theorem memory_usage_monotonic :
    (∀ (a : Arena) (n : Nat), a.MemoryUsage ≤ (a.Allocate n).2.MemoryUsage) ∧
      (∀ (base : Nat → Nat) (a : Arena) (n : Nat),
        a.MemoryUsage ≤ (a.AllocateAligned base n).2.MemoryUsage) ∧
      (∀ (base : Nat → Nat) (a : Arena) (calls : List ArenaCall),
        a.MemoryUsage ≤ (a.after base calls).MemoryUsage) ∧
      (∀ (m : MemTable) (s : Nat) (t : ValueType) (K V : Slice),
        (m.Add s t K V).arena_
            = m.arena_.after MemTable.blockAddress
                [.Allocate
                    (VarintLength (K.length + 8) + (K.length + 8) + VarintLength V.length
                      + V.length),
                  .AllocateAligned (SkipList.nodeBytes (SkipList.RandomHeight m.rnd_).1)] ∧
          m.ApproximateMemoryUsage ≤ (m.Add s t K V).ApproximateMemoryUsage) ∧
      (∀ (m : MemTable) (calls : List AddCall),
        m.ApproximateMemoryUsage ≤ (m.AddAll calls).ApproximateMemoryUsage) ∧
      (∀ (m : MemTable) (calls : List AddCall) (c : AddCall),
        (m.AddAll calls).ApproximateMemoryUsage
          ≤ (m.AddAll (calls ++ [c])).ApproximateMemoryUsage) := by
  refine ⟨Arena.Allocate_usage, Arena.AllocateAligned_usage, Arena.after_usage,
    fun m s t K V => ⟨MemTable.Add_arena m s t K V, MemTable.Add_usage m s t K V⟩,
    MemTable.AddAll_usage, ?_⟩
  intro m calls c
  rw [MemTable.AddAll_append]
  exact MemTable.Add_usage _ _ _ _ _

theorem memory_usage_monotonic_witness :
    (MemTable.new BytewiseComparator).ApproximateMemoryUsage = 4104 ∧
      ((MemTable.new BytewiseComparator).Add 1 .kTypeValue (bytesOf "k")
        (List.replicate 4000 0)).ApproximateMemoryUsage = 8124 ∧
      (MemTable.new BytewiseComparator).ApproximateMemoryUsage
        ≤ ((MemTable.new BytewiseComparator).Add 1 .kTypeValue (bytesOf "k")
          (List.replicate 4000 0)).ApproximateMemoryUsage :=
  ⟨by decide,
    by
      unfold MemTable.ApproximateMemoryUsage
      rw [MemTable.Add_arena]
      simp only [List.length_replicate]
      decide,
    (memory_usage_monotonic.2.2.2.1 (MemTable.new BytewiseComparator) 1 .kTypeValue
      (bytesOf "k") (List.replicate 4000 0)).2⟩

/-- C15: alignment. Assuming that every freshly obtained block starts at an
address that is a multiple of 8, for every `Arena` state (reachable from the
empty `Arena` or not) and every `n`, `AllocateAligned(n)` returns an address
that is a multiple of 8: the assertion `(uintptr(result) & (align - 1)) == 0` at
the end of `AllocateAligned` never fails. -/
theorem allocateAligned_aligned (base : Nat → Nat) (hbase : ∀ b, base b % 8 = 0)
    (a : Arena) (n : Nat) :
    Arena.uintptr base (a.AllocateAligned base n).1 &&& (8 - 1) = 0 ∧
      Arena.uintptr base (a.AllocateAligned base n).1 % 8 = 0 := by
  have key : Arena.uintptr base (a.AllocateAligned base n).1 % 8 = 0 := by
    obtain ⟨slop, hslop, _, h⟩ := Arena.AllocateAligned_eq base a n
    rw [h]
    split_ifs
    · rcases hp : a.alloc_ptr_ with _ | p
      · simp [Arena.advance, Arena.uintptr]
      · rw [hp] at hslop
        simp only [Arena.advance, Option.map_some', Arena.uintptr] at hslop ⊢
        omega
    · rw [Arena.AllocateFallback_eq]
      split_ifs <;> simp [Arena.uintptr, hbase]
  exact ⟨by rw [show (8 - 1 : Nat) = 7 from rfl, Arena.and_seven]; exact key, key⟩

theorem allocateAligned_aligned_witness :
    Arena.uintptr (fun b => 65536 * (b + 1))
        ((Arena.after (fun b => 65536 * (b + 1)) Arena.new [.Allocate 3]).AllocateAligned
          (fun b => 65536 * (b + 1)) 10).1 &&& (8 - 1) = 0 ∧
      Arena.uintptr (fun b => 65536 * (b + 1))
        ((Arena.after (fun b => 65536 * (b + 1)) Arena.new [.Allocate 3]).AllocateAligned
          (fun b => 65536 * (b + 1)) 10).1 % 8 = 0 :=
  allocateAligned_aligned (fun b => 65536 * (b + 1)) (fun b => by simp only; omega) _ 10

/-- C17: allocation policy. For every `Arena` state and every `n`, `Allocate(n)`
behaves as follows. If `n <= ` remaining capacity, it returns the current bump
pointer, advances it by `n`, decreases the remaining capacity by `n` and
acquires no block. Otherwise, if `n > 1024`, it acquires one new block of
exactly `n` bytes, returns its start, and leaves the bump pointer and remaining
capacity of the current block unchanged. Otherwise it acquires one new block of
exactly 4096 bytes, returns its start, and the new current block has its bump
pointer at offset `n` and the remaining capacity `4096 - n`. -/
theorem allocate_policy (a : Arena) (n : Nat) :
    (n ≤ a.alloc_bytes_remaining_ →
        (a.Allocate n).1 = a.alloc_ptr_ ∧
        (a.Allocate n).2.alloc_ptr_ = Arena.advance a.alloc_ptr_ n ∧
        (∀ p, a.alloc_ptr_ = some p →
          (a.Allocate n).2.alloc_ptr_ = some ⟨p.block, p.offset + n⟩) ∧
        (a.Allocate n).2.alloc_bytes_remaining_ = a.alloc_bytes_remaining_ - n ∧
        (a.Allocate n).2.blocks_ = a.blocks_) ∧
      (¬ n ≤ a.alloc_bytes_remaining_ → n > 1024 →
        (a.Allocate n).1 = some ⟨a.blocks_.length, 0⟩ ∧
        (a.Allocate n).2.blocks_ = a.blocks_ ++ [n] ∧
        (a.Allocate n).2.alloc_ptr_ = a.alloc_ptr_ ∧
        (a.Allocate n).2.alloc_bytes_remaining_ = a.alloc_bytes_remaining_) ∧
      (¬ n ≤ a.alloc_bytes_remaining_ → ¬ n > 1024 →
        (a.Allocate n).1 = some ⟨a.blocks_.length, 0⟩ ∧
        (a.Allocate n).2.blocks_ = a.blocks_ ++ [4096] ∧
        (a.Allocate n).2.alloc_ptr_ = some ⟨a.blocks_.length, n⟩ ∧
        (a.Allocate n).2.alloc_bytes_remaining_ = 4096 - n) := by
  refine ⟨fun h => ?_, fun h hbig => ?_, fun h hsmall => ?_⟩
  · simp only [Arena.Allocate, if_pos h, true_and, and_true]
    intro p hp
    simp [hp, Arena.advance]
  · have hq : n > Arena.kBlockSize / 4 := hbig
    simp only [Arena.Allocate, if_neg h, Arena.AllocateFallback_eq, if_pos hq, and_self]
  · have hq : ¬ n > Arena.kBlockSize / 4 := hsmall
    simp only [Arena.Allocate, if_neg h, Arena.AllocateFallback_eq, if_neg hq, true_and]
    exact ⟨rfl, rfl⟩

theorem allocate_policy_witness :
    (Arena.new.Allocate 100).1 = some ⟨0, 0⟩ ∧
      (Arena.new.Allocate 100).2.blocks_ = [] ++ [4096] ∧
      (Arena.new.Allocate 100).2.alloc_ptr_ = some ⟨0, 100⟩ ∧
      (Arena.new.Allocate 100).2.alloc_bytes_remaining_ = 4096 - 100 :=
  (allocate_policy Arena.new 100).2.2 (by decide) (by decide)

theorem Arena.call_formula (base : Nat → Nat) (a : Arena) (c : ArenaCall)
    (h : a.memory_usage_ = a.blocks_.sum + sizeofCharPtr * a.blocks_.length) :
    (a.call base c).2.memory_usage_ = (a.call base c).2.blocks_.sum
      + sizeofCharPtr * (a.call base c).2.blocks_.length := by
  have hf : ∀ n, (a.AllocateFallback n).2.memory_usage_ = (a.AllocateFallback n).2.blocks_.sum
      + sizeofCharPtr * (a.AllocateFallback n).2.blocks_.length := by
    intro n
    rw [Arena.AllocateFallback_eq]
    split_ifs <;> simp [h, Nat.mul_add] <;> omega
  cases c with
  | Allocate n =>
    simp only [Arena.call, Arena.Allocate]
    split_ifs
    · exact h
    · exact hf n
  | AllocateAligned n =>
    simp only [Arena.call]
    obtain ⟨slop, _, _, he⟩ := Arena.AllocateAligned_eq base a n
    rw [he]
    split_ifs
    · exact h
    · exact hf n

theorem Arena.after_formula (base : Nat → Nat) (a : Arena) (calls : List ArenaCall)
    (h : a.memory_usage_ = a.blocks_.sum + sizeofCharPtr * a.blocks_.length) :
    (a.after base calls).memory_usage_ = (a.after base calls).blocks_.sum
      + sizeofCharPtr * (a.after base calls).blocks_.length := by
  induction calls generalizing a with
  | nil => exact h
  | cons c cs ih =>
    simp only [Arena.after, List.foldl_cons] at ih ⊢
    exact ih _ (Arena.call_formula base a c h)

/-- C20: accounting formula. In every `Arena` state reachable from the empty
`Arena` by `Allocate` and `AllocateAligned` calls, `MemoryUsage()` equals the
sum of the sizes of all owned blocks plus `sizeof(char*)` times the number of
owned blocks; it is 0 for a fresh `Arena`, and a call that is served from the
current block, acquiring no block, leaves it unchanged. -/
theorem memory_usage_formula :
    (∀ (base : Nat → Nat) (calls : List ArenaCall),
        (Arena.new.after base calls).MemoryUsage
          = (Arena.new.after base calls).blocks_.sum
            + Arena.sizeofCharPtr * (Arena.new.after base calls).blocks_.length) ∧
      Arena.new.MemoryUsage = 0 ∧
      (∀ (a : Arena) (n : Nat), n ≤ a.alloc_bytes_remaining_ →
        (a.Allocate n).2.MemoryUsage = a.MemoryUsage ∧ (a.Allocate n).2.blocks_ = a.blocks_) ∧
      (∀ (base : Nat → Nat) (a : Arena) (c : ArenaCall),
        (a.call base c).2.blocks_ = a.blocks_ →
        (a.call base c).2.MemoryUsage = a.MemoryUsage) := by
  refine ⟨fun base calls => Arena.after_formula base Arena.new calls rfl, rfl, ?_, ?_⟩
  · intro a n h
    simp [Arena.Allocate, if_pos h, Arena.MemoryUsage]
  · intro base a c hb
    have hf : ∀ n, (a.AllocateFallback n).2.blocks_ ≠ a.blocks_ := by
      intro n heq
      have := congrArg List.length heq
      rw [Arena.AllocateFallback_eq] at this
      split_ifs at this <;> simp at this
    cases c with
    | Allocate n =>
      simp only [Arena.call, Arena.Allocate] at hb ⊢
      split_ifs at hb ⊢
      · rfl
      · exact absurd hb (hf n)
    | AllocateAligned n =>
      simp only [Arena.call] at hb ⊢
      obtain ⟨slop, _, _, he⟩ := Arena.AllocateAligned_eq base a n
      rw [he] at hb ⊢
      split_ifs at hb ⊢
      · rfl
      · exact absurd hb (hf n)

theorem memory_usage_formula_witness :
    ((Arena.new.after (fun b => 65536 * (b + 1)) [.Allocate 3]).Allocate 10).2.MemoryUsage
        = (Arena.new.after (fun b => 65536 * (b + 1)) [.Allocate 3]).MemoryUsage ∧
      ((Arena.new.after (fun b => 65536 * (b + 1)) [.Allocate 3]).Allocate 10).2.blocks_
        = (Arena.new.after (fun b => 65536 * (b + 1)) [.Allocate 3]).blocks_ :=
  memory_usage_formula.2.2.1 _ 10 (by decide)

/-! ## Ranges handed out by the arena -/

/-- What a sequence of calls has established: the bump pointer is in an owned
block, and null only with no capacity left; every range handed out is in an
owned block, ends at or before the bump pointer when it is in the current block,
and is disjoint from the others. -/
theorem Arena.call_disjoint (base : Nat → Nat) (a : Arena) (c : ArenaCall)
    (R : List (Option ArenaPtr × Nat))
    (hc : 0 < c.bytes ∧ ∀ n, c = .AllocateAligned n → n + 7 < 2 ^ 64)
    (h1 : ∀ p, a.alloc_ptr_ = some p → p.block < a.blocks_.length)
    (h0 : a.alloc_ptr_ = none → a.alloc_bytes_remaining_ = 0)
    (h2 : ∀ q k, (some q, k) ∈ R → q.block < a.blocks_.length)
    (h3 : ∀ q k p, (some q, k) ∈ R → a.alloc_ptr_ = some p → q.block = p.block →
      q.offset + k ≤ p.offset)
    (h4 : R.Pairwise rangesDisjoint) :
    (∃ r, (a.call base c).1 = some r) ∧
      (∀ p, (a.call base c).2.alloc_ptr_ = some p → p.block < (a.call base c).2.blocks_.length) ∧
      ((a.call base c).2.alloc_ptr_ = none → (a.call base c).2.alloc_bytes_remaining_ = 0) ∧
      (∀ q k, (some q, k) ∈ R ++ [((a.call base c).1, c.bytes)] →
        q.block < (a.call base c).2.blocks_.length) ∧
      (∀ q k p, (some q, k) ∈ R ++ [((a.call base c).1, c.bytes)] →
        (a.call base c).2.alloc_ptr_ = some p → q.block = p.block → q.offset + k ≤ p.offset) ∧
      (R ++ [((a.call base c).1, c.bytes)]).Pairwise rangesDisjoint := by
  -- the two ways a call is served
  have hserved : ∀ slop, slop ≤ 7 → c.bytes + slop ≤ a.alloc_bytes_remaining_ →
      ∀ res : Option ArenaPtr × Arena,
      res = (advance a.alloc_ptr_ slop,
        { a with
          alloc_ptr_ := advance a.alloc_ptr_ (c.bytes + slop)
          alloc_bytes_remaining_ := a.alloc_bytes_remaining_ - (c.bytes + slop) }) →
      (∃ r, res.1 = some r) ∧
      (∀ p, res.2.alloc_ptr_ = some p → p.block < res.2.blocks_.length) ∧
      (res.2.alloc_ptr_ = none → res.2.alloc_bytes_remaining_ = 0) ∧
      (∀ q k, (some q, k) ∈ R ++ [(res.1, c.bytes)] → q.block < res.2.blocks_.length) ∧
      (∀ q k p, (some q, k) ∈ R ++ [(res.1, c.bytes)] →
        res.2.alloc_ptr_ = some p → q.block = p.block → q.offset + k ≤ p.offset) ∧
      (R ++ [(res.1, c.bytes)]).Pairwise rangesDisjoint := by
    intro slop hslop hfit res hres
    rcases hp : a.alloc_ptr_ with _ | p0
    · have := h0 hp
      omega
    · have hb := h1 p0 hp
      subst hres
      simp only [hp, advance, Option.map_some']
      refine ⟨⟨_, rfl⟩, ?_, ?_, ?_, ?_, ?_⟩
      · intro p hpe
        simp only [Option.some.injEq] at hpe
        subst hpe
        exact hb
      · intro hne
        simp at hne
      · intro q k hq
        rcases List.mem_append.1 hq with hq | hq
        · exact h2 q k hq
        · simp only [List.mem_singleton, Prod.mk.injEq, Option.some.injEq] at hq
          rw [hq.1]
          exact hb
      · intro q k p hq hpe hblock
        simp only [Option.some.injEq] at hpe
        subst hpe
        rcases List.mem_append.1 hq with hq | hq
        · have := h3 q k p0 hq hp hblock
          simp only
          omega
        · simp only [List.mem_singleton, Prod.mk.injEq, Option.some.injEq] at hq
          rw [hq.1, hq.2]
          simp only
          omega
      · rw [List.pairwise_append]
        refine ⟨h4, List.pairwise_singleton _ _, ?_⟩
        intro x hx y hy
        rw [List.mem_singleton] at hy
        subst hy
        obtain ⟨q, k⟩ := x
        cases q with
        | none => simp [rangesDisjoint]
        | some q =>
          simp only [rangesDisjoint]
          by_cases hblock : q.block = p0.block
          · have := h3 q k p0 hx hp hblock
            right; left
            omega
          · left
            exact hblock
  have hfallback : ∀ res : Option ArenaPtr × Arena, res = a.AllocateFallback c.bytes →
      (∃ r, res.1 = some r) ∧
      (∀ p, res.2.alloc_ptr_ = some p → p.block < res.2.blocks_.length) ∧
      (res.2.alloc_ptr_ = none → res.2.alloc_bytes_remaining_ = 0) ∧
      (∀ q k, (some q, k) ∈ R ++ [(res.1, c.bytes)] → q.block < res.2.blocks_.length) ∧
      (∀ q k p, (some q, k) ∈ R ++ [(res.1, c.bytes)] →
        res.2.alloc_ptr_ = some p → q.block = p.block → q.offset + k ≤ p.offset) ∧
      (R ++ [(res.1, c.bytes)]).Pairwise rangesDisjoint := by
    intro res hres
    have hpw : (R ++ [((some ⟨a.blocks_.length, 0⟩ : Option ArenaPtr), c.bytes)]).Pairwise
        rangesDisjoint := by
      rw [List.pairwise_append]
      refine ⟨h4, List.pairwise_singleton _ _, ?_⟩
      intro x hx y hy
      rw [List.mem_singleton] at hy
      subst hy
      obtain ⟨q, k⟩ := x
      cases q with
      | none => simp [rangesDisjoint]
      | some q =>
        simp only [rangesDisjoint]
        left
        have := h2 q k hx
        omega
    rw [Arena.AllocateFallback_eq] at hres
    split_ifs at hres with hbig
    · subst hres
      simp only [List.length_append, List.length_singleton]
      refine ⟨⟨_, rfl⟩, ?_, ?_, ?_, ?_, hpw⟩
      · intro p hpe
        have := h1 p hpe
        omega
      · exact h0
      · intro q k hq
        rcases List.mem_append.1 hq with hq | hq
        · have := h2 q k hq
          omega
        · simp only [List.mem_singleton, Prod.mk.injEq, Option.some.injEq] at hq
          rw [hq.1]
          simp
      · intro q k p hq hpe hblock
        rcases List.mem_append.1 hq with hq | hq
        · exact h3 q k p hq hpe hblock
        · simp only [List.mem_singleton, Prod.mk.injEq, Option.some.injEq] at hq
          have := h1 p hpe
          rw [hq.1] at hblock
          simp only at hblock
          omega
    · subst hres
      simp only [List.length_append, List.length_singleton]
      refine ⟨⟨_, rfl⟩, ?_, ?_, ?_, ?_, hpw⟩
      · intro p hpe
        simp only [Option.some.injEq] at hpe
        subst hpe
        simp
      · intro hne
        simp at hne
      · intro q k hq
        rcases List.mem_append.1 hq with hq | hq
        · have := h2 q k hq
          omega
        · simp only [List.mem_singleton, Prod.mk.injEq, Option.some.injEq] at hq
          rw [hq.1]
          simp
      · intro q k p hq hpe hblock
        simp only [Option.some.injEq] at hpe
        subst hpe
        rcases List.mem_append.1 hq with hq | hq
        · have := h2 q k hq
          simp only at hblock
          omega
        · simp only [List.mem_singleton, Prod.mk.injEq, Option.some.injEq] at hq
          rw [hq.1, hq.2]
          simp
  cases c with
  | Allocate n =>
    simp only [ArenaCall.bytes] at hc hserved hfallback ⊢
    simp only [Arena.call, Arena.Allocate]
    split_ifs with hfit
    · exact hserved 0 (by omega) (by omega) _ (by simp [advance])
    · exact hfallback _ rfl
  | AllocateAligned n =>
    simp only [ArenaCall.bytes] at hc hserved hfallback ⊢
    simp only [Arena.call]
    obtain ⟨slop, _, hslop, he⟩ := Arena.AllocateAligned_eq base a n
    have hn := hc.2 n rfl
    have hmod : (n + slop) % 2 ^ 64 = n + slop := Nat.mod_eq_of_lt (by omega)
    rw [he, hmod]
    split_ifs with hfit
    · exact hserved slop hslop hfit _ rfl
    · exact hfallback _ rfl

theorem Arena.returned_disjoint_aux (base : Nat → Nat) (calls : List ArenaCall) (a : Arena)
    (R : List (Option ArenaPtr × Nat))
    (hcalls : ∀ c ∈ calls, 0 < c.bytes ∧ ∀ n, c = .AllocateAligned n → n + 7 < 2 ^ 64)
    (h1 : ∀ p, a.alloc_ptr_ = some p → p.block < a.blocks_.length)
    (h0 : a.alloc_ptr_ = none → a.alloc_bytes_remaining_ = 0)
    (h2 : ∀ q k, (some q, k) ∈ R → q.block < a.blocks_.length)
    (h3 : ∀ q k p, (some q, k) ∈ R → a.alloc_ptr_ = some p → q.block = p.block →
      q.offset + k ≤ p.offset)
    (h4 : R.Pairwise rangesDisjoint) :
    (R ++ a.returned base calls).Pairwise rangesDisjoint ∧
      ∀ x ∈ a.returned base calls, ∃ r, x.1 = some r := by
  induction calls generalizing a R with
  | nil => simpa [Arena.returned] using h4
  | cons c cs ih =>
    obtain ⟨hr, g1, g0, g2, g3, g4⟩ := Arena.call_disjoint base a c R
      (hcalls c (List.mem_cons_self _ _)) h1 h0 h2 h3 h4
    have := ih (a.call base c).2 (R ++ [((a.call base c).1, c.bytes)])
      (fun c' hc' => hcalls c' (List.mem_cons_of_mem _ hc')) g1 g0 g2 g3 g4
    simp only [Arena.returned]
    rw [List.append_assoc] at this
    refine ⟨this.1, ?_⟩
    intro x hx
    rcases List.mem_cons.1 hx with rfl | hx
    · exact hr
    · exact this.2 x hx

/-- Requests that do not wrap the sum `bytes + slop` are served with non-null,
pairwise disjoint ranges. -/
theorem Arena.returned_disjoint (base : Nat → Nat) (calls : List ArenaCall)
    (hcalls : ∀ c ∈ calls, 0 < c.bytes ∧ ∀ n, c = .AllocateAligned n → n + 7 < 2 ^ 64) :
    (Arena.new.returned base calls).Pairwise rangesDisjoint ∧
      ∀ x ∈ Arena.new.returned base calls, ∃ r, x.1 = some r := by
  have := Arena.returned_disjoint_aux base calls Arena.new [] hcalls
    (by intro p hp; simp [Arena.new] at hp) (fun _ => rfl) (by simp) (by simp)
    List.Pairwise.nil
  simpa using this

/-- A later call does not change what an earlier call returned. -/
theorem Arena.returned_append (base : Nat → Nat) (a : Arena) (calls more : List ArenaCall) :
    a.returned base (calls ++ more)
      = a.returned base calls ++ (a.after base calls).returned base more := by
  induction calls generalizing a with
  | nil => rfl
  | cons c cs ih =>
    have h := ih (a.call base c).2
    simp only [List.cons_append, Arena.returned, Arena.after, List.foldl_cons] at h ⊢
    exact congrArg (List.cons _) h

/-- No reuse of handed-out bytes where the sum `bytes + slop` does not wrap. For
every sequence of `Allocate(n > 0)` calls and of `AllocateAligned(n > 0)` calls
with `n + 7 < 2^64` on one `Arena`, blocks being distinct regions and an address
a block with an offset: every call returns a non-null pointer, the byte ranges
`[p, p + n)` returned by any two different calls are disjoint, and no later call
changes the address returned by an earlier call. -/
theorem arena_ranges_disjoint (base : Nat → Nat) (calls : List ArenaCall)
    (hcalls : ∀ c ∈ calls, 0 < c.bytes ∧ ∀ n, c = .AllocateAligned n → n + 7 < 2 ^ 64) :
    (Arena.new.returned base calls).Pairwise rangesDisjoint ∧
      (∀ x ∈ Arena.new.returned base calls, ∃ r, x.1 = some r) ∧
      ∀ more : List ArenaCall,
        Arena.new.returned base (calls ++ more)
          = Arena.new.returned base calls
            ++ (Arena.new.after base calls).returned base more :=
  ⟨(Arena.returned_disjoint base calls hcalls).1, (Arena.returned_disjoint base calls hcalls).2,
    fun more => Arena.returned_append base Arena.new calls more⟩

theorem arena_ranges_disjoint_witness :
    (Arena.new.returned (fun b => 65536 * (b + 1))
        [.Allocate 1, .AllocateAligned 5, .Allocate 2000, .AllocateAligned 3000,
          .Allocate 100]).Pairwise rangesDisjoint :=
  (arena_ranges_disjoint (fun b => 65536 * (b + 1))
    [.Allocate 1, .AllocateAligned 5, .Allocate 2000, .AllocateAligned 3000, .Allocate 100]
    (by
      intro c hc
      simp only [List.mem_cons, List.mem_singleton, List.not_mem_nil, or_false] at hc
      rcases hc with rfl | rfl | rfl | rfl | rfl <;>
        refine ⟨by decide, fun n hn => ?_⟩ <;> cases hn <;> decide)).1

/-- C13, no reuse of handed-out bytes, at the input where the code breaks it:
from the empty arena, with blocks at multiples of 8, `Allocate(1)`,
`AllocateAligned(2^64 - 7)` and `AllocateAligned(8)` return the offsets 0, 8 and
8 of the same block. The second call computes `needed = bytes + slop` as
`(2^64 - 7 + 7) mod 2^64 = 0`, serves the request from the current block and
advances the bump pointer by 0 bytes, so that the ranges of the second and of
the third call overlap. In the same state `Allocate(2^64 - 7)` goes to
`AllocateFallback`, and so does `AllocateAligned(2^64 - 7)` in a state without
slop, the one after `Allocate(8)`. -/
theorem allocateAligned_wrap_overlap :
    Arena.new.returned (fun b => 65536 * (b + 1))
        [.Allocate 1, .AllocateAligned (2 ^ 64 - 7), .AllocateAligned 8]
      = [(some ⟨0, 0⟩, 1), (some ⟨0, 8⟩, 2 ^ 64 - 7), (some ⟨0, 8⟩, 8)] ∧
      ¬ rangesDisjoint (some ⟨0, 8⟩, 2 ^ 64 - 7) (some ⟨0, 8⟩, 8) ∧
      ¬ (Arena.new.returned (fun b => 65536 * (b + 1))
        [.Allocate 1, .AllocateAligned (2 ^ 64 - 7), .AllocateAligned 8]).Pairwise
          rangesDisjoint ∧
      (Arena.new.after (fun b => 65536 * (b + 1)) [.Allocate 1]).Allocate (2 ^ 64 - 7)
        = (Arena.new.after (fun b => 65536 * (b + 1)) [.Allocate 1]).AllocateFallback
            (2 ^ 64 - 7) ∧
      (Arena.new.after (fun b => 65536 * (b + 1)) [.Allocate 8]).AllocateAligned
          (fun b => 65536 * (b + 1)) (2 ^ 64 - 7)
        = (Arena.new.after (fun b => 65536 * (b + 1)) [.Allocate 8]).AllocateFallback
            (2 ^ 64 - 7) ∧
      (Arena.new.after (fun b => 65536 * (b + 1)) [.Allocate 1]).AllocateAligned
          (fun b => 65536 * (b + 1)) (2 ^ 64 - 7)
        ≠ (Arena.new.after (fun b => 65536 * (b + 1)) [.Allocate 1]).AllocateFallback
            (2 ^ 64 - 7) := by
  decide

/-! ## Cleanup of a cursor -/

theorem CleanupNode.Run_cons (node : CleanupNode) (x : Nat × Nat × Nat)
    (log : List (Nat × Nat × Nat)) : node.Run (x :: log) = x :: node.Run log := by
  unfold CleanupNode.Run
  cases node.function <;> rfl

theorem CleanupNode.foldl_Run_cons (chain : List CleanupNode) (x : Nat × Nat × Nat)
    (log : List (Nat × Nat × Nat)) :
    chain.foldl (fun log node => node.Run log) (x :: log)
      = x :: chain.foldl (fun log node => node.Run log) log := by
  induction chain generalizing log with
  | nil => rfl
  | cons node rest ih =>
    simp only [List.foldl_cons]
    rw [CleanupNode.Run_cons, ih]

theorem Iterator.destroy_RegisterCleanup (it : Iterator) (f a b : Nat)
    (hwf : it.cleanup_head_.IsEmpty = true → it.chain = []) :
    (it.RegisterCleanup f a b).destroy = (f, a, b) :: it.destroy ∧
      ((it.RegisterCleanup f a b).cleanup_head_.IsEmpty = true →
        (it.RegisterCleanup f a b).chain = []) := by
  have hnew : (CleanupNode.mk (some f) a b).IsEmpty = false := rfl
  have hrun : (CleanupNode.mk (some f) a b).Run [] = [(f, a, b)] := rfl
  by_cases he : it.cleanup_head_.IsEmpty = true
  · have hchain := hwf he
    have hreg : it.RegisterCleanup f a b = { it with cleanup_head_ := ⟨some f, a, b⟩ } := by
      simp only [Iterator.RegisterCleanup, he, if_true]
    rw [hreg]
    refine ⟨?_, fun _ => hchain⟩
    simp only [Iterator.destroy, hnew, he, hchain, hrun, if_true, List.foldl_nil]
    rfl
  · have hreg : it.RegisterCleanup f a b
        = { cleanup_head_ := ⟨some f, a, b⟩, chain := it.cleanup_head_ :: it.chain } := by
      have he' : it.cleanup_head_.IsEmpty = false := by simpa using he
      simp only [Iterator.RegisterCleanup, he', Bool.false_eq_true, if_false]
    have he' : it.cleanup_head_.IsEmpty = false := by simpa using he
    rw [hreg]
    refine ⟨?_, fun h => by rw [hnew] at h; cases h⟩
    simp only [Iterator.destroy, hnew, he', hrun, Bool.false_eq_true, if_false,
      List.foldl_cons]
    rw [CleanupNode.Run_cons, CleanupNode.foldl_Run_cons]

theorem Iterator.destroy_RegisterAll (calls : List (Nat × Nat × Nat)) (it : Iterator)
    (hwf : it.cleanup_head_.IsEmpty = true → it.chain = []) :
    (it.RegisterAll calls).destroy = calls.reverse ++ it.destroy := by
  induction calls generalizing it with
  | nil => rfl
  | cons c cs ih =>
    obtain ⟨h1, h2⟩ := Iterator.destroy_RegisterCleanup it c.1 c.2.1 c.2.2 hwf
    simp only [Iterator.RegisterAll, List.foldl_cons] at ih ⊢
    rw [ih _ h2, h1]
    simp

/-- C16: cursor cleanup order. For every sequence of `k >= 0`
`RegisterCleanup(f_i, a_i, b_i)` calls on a cursor, destroying the cursor invokes
each registered action exactly once, and the actions run in reverse registration
order: the calls made are the registered triples, last registered first. -/
theorem cleanup_reverse_order (calls : List (Nat × Nat × Nat)) :
    (Iterator.new.RegisterAll calls).destroy = calls.reverse ∧
      List.Perm (Iterator.new.RegisterAll calls).destroy calls := by
  have h := Iterator.destroy_RegisterAll calls Iterator.new (fun _ => rfl)
  have h0 : Iterator.new.destroy = [] := rfl
  rw [h0, List.append_nil] at h
  exact ⟨h, by rw [h]; exact List.reverse_perm calls⟩

/-! ## The record of an `Add` -/

/-- C18: record layout written by `Add`. For every sequence `s`, type `t`, user
key `K` and value `V` with `|K| + 8 < 2^32` and `|V| < 2^32`, `Add` allocates
exactly `VarintLength(|K| + 8) + |K| + 8 + VarintLength(|V|) + |V|` bytes from
the arena for the record, in one `Allocate` call (the only other call on the
arena is the `AllocateAligned` call with which `table_.Insert(buf)` takes the
node of the record), and fills them, with no byte left over or overrun, with
`varint32(|K| + 8)`, then the bytes of `K`, then the 8-byte little-endian
encoding of `(s << 8) | t`, then `varint32(|V|)`, then the bytes of `V`; and it
inserts exactly this one record into the index. -/
theorem add_record_layout (m : MemTable) (s : Nat) (t : ValueType) (K V : Slice)
    (hK : K.length + 8 < 2 ^ 32) (hV : V.length < 2 ^ 32) :
    (m.Add s t K V).arena_
        = m.arena_.after MemTable.blockAddress
            [.Allocate
                (VarintLength (K.length + 8) + (K.length + 8) + VarintLength V.length
                  + V.length),
              .AllocateAligned (SkipList.nodeBytes (SkipList.RandomHeight m.rnd_).1)] ∧
      MemTable.entryBuffer s t K V
        = EncodeVarint32 (K.length + 8) ++ K
            ++ EncodeFixed64 (((s % 2 ^ 64) <<< 8 ||| t.toNat) % 2 ^ 64)
            ++ EncodeVarint32 V.length ++ V ∧
      (MemTable.entryBuffer s t K V).length
        = VarintLength (K.length + 8) + (K.length + 8) + VarintLength V.length + V.length ∧
      (∀ i, i < 8 →
        ((EncodeFixed64 (((s % 2 ^ 64) <<< 8 ||| t.toNat) % 2 ^ 64)).getD i 0).val
          = ((s % 2 ^ 64) <<< 8 ||| t.toNat) % 2 ^ 64 / 2 ^ (8 * i) % 256) ∧
      (m.Add s t K V).table_
        = SkipList.Insert (MemTable.KeyComparator m.user_comparator)
            (MemTable.entryBuffer s t K V) m.table_ ∧
      List.Perm (m.Add s t K V).table_ (MemTable.entryBuffer s t K V :: m.table_) := by
  have hbuf := MemTable.entryBuffer_eq_encodeEntry s t K V hK hV
  refine ⟨rfl, ?_, ?_, ?_, rfl, SkipList.Insert_perm _ _ _⟩
  · rw [hbuf]
    simp only [List.append_assoc]
  · rw [hbuf]
    simp only [List.length_append, EncodeFixed64_length, EncodeVarint32_length _ hK,
      EncodeVarint32_length _ hV]
    omega
  · intro i hi
    have h64 : ((s % 2 ^ 64) <<< 8 ||| t.toNat) % 2 ^ 64 % 2 ^ 64
        = ((s % 2 ^ 64) <<< 8 ||| t.toNat) % 2 ^ 64 := Nat.mod_mod _ _
    generalize ((s % 2 ^ 64) <<< 8 ||| t.toNat) % 2 ^ 64 = g at h64
    simp only [EncodeFixed64, h64]
    have hcases : i = 0 ∨ i = 1 ∨ i = 2 ∨ i = 3 ∨ i = 4 ∨ i = 5 ∨ i = 6 ∨ i = 7 := by omega
    rcases hcases with rfl | rfl | rfl | rfl | rfl | rfl | rfl | rfl <;>
      simp [toByte_val]

theorem add_record_layout_witness :
    MemTable.entryBuffer 7 .kTypeValue (bytesOf "key") (bytesOf "val")
      = EncodeVarint32 ((bytesOf "key").length + 8) ++ bytesOf "key"
          ++ EncodeFixed64 (((7 % 2 ^ 64) <<< 8 ||| ValueType.kTypeValue.toNat) % 2 ^ 64)
          ++ EncodeVarint32 (bytesOf "val").length ++ bytesOf "val" :=
  (add_record_layout (MemTable.new BytewiseComparator) 7 .kTypeValue (bytesOf "key")
    (bytesOf "val") (by decide) (by decide)).2.1

/-- C19: decode undoes encode. For every record written by `Add(s, t, K, V)`
with `s < 2^56`, `|K| + 8 < 2^32` and `|V| < 2^32`, a cursor positioned on that
record returns `key()` equal to the bytes of `K` followed by 8 bytes whose
little-endian value `g` satisfies `g >> 8 == s` and `g & 0xff == t`, and
returns `value()` equal to the bytes of `V`. -/
theorem cursor_decodes_record (s : Nat) (t : ValueType) (K V : Slice)
    (table rest : List CharPtr)
    (hs : s < 2 ^ 56) (hK : K.length + 8 < 2 ^ 32) (hV : V.length < 2 ^ 32) :
    (MemTableIterator.mk table ⟨MemTable.entryBuffer s t K V :: rest⟩).Valid = true ∧
      (MemTableIterator.mk table ⟨MemTable.entryBuffer s t K V :: rest⟩).key.take K.length
        = K ∧
      ((MemTableIterator.mk table ⟨MemTable.entryBuffer s t K V :: rest⟩).key.drop
        K.length).length = 8 ∧
      DecodeFixed64 ((MemTableIterator.mk table ⟨MemTable.entryBuffer s t K V :: rest⟩).key.drop
        K.length) >>> 8 = s ∧
      DecodeFixed64 ((MemTableIterator.mk table ⟨MemTable.entryBuffer s t K V :: rest⟩).key.drop
        K.length) &&& 0xff = t.toNat ∧
      (MemTableIterator.mk table ⟨MemTable.entryBuffer s t K V :: rest⟩).value = V := by
  have hkey : (MemTableIterator.mk table ⟨MemTable.entryBuffer s t K V :: rest⟩).key
      = K ++ EncodeFixed64 (((s % 2 ^ 64) <<< 8 ||| t.toNat) % 2 ^ 64) :=
    GetLengthPrefixedSlice_entryBuffer s t K V hK
  have hdec : DecodeFixed64 (EncodeFixed64 (((s % 2 ^ 64) <<< 8 ||| t.toNat) % 2 ^ 64))
      = s * 256 + t.toNat := by
    have := DecodeFixed64_EncodeFixed64 (((s % 2 ^ 64) <<< 8 ||| t.toNat) % 2 ^ 64) []
    rw [List.append_nil, Nat.mod_mod] at this
    rw [this, packTag_eq s _ hs (typeToNat_lt t)]
  have ht := typeToNat_lt t
  simp only [Nat.reducePow] at ht
  refine ⟨rfl, ?_, ?_, ?_, ?_, ?_⟩
  · rw [hkey, List.take_left' rfl]
  · rw [hkey, List.drop_left' rfl, EncodeFixed64_length]
  · rw [hkey, List.drop_left' rfl, hdec]
    exact sequenceOf_eq s _ (typeToNat_lt t)
  · rw [hkey, List.drop_left' rfl, hdec, show (0xff : Nat) = 2 ^ 8 - 1 from rfl,
      Nat.and_pow_two_sub_one_eq_mod]
    simp only [Nat.reducePow]
    omega
  · obtain ⟨tail, hb⟩ := MemTable.entryBuffer_eq_append s t K V
    have hv := MemTable.value_of_entryBuffer s t K V hK hV
    simp only [MemTableIterator.value, SkipList.Iterator.key, List.headD_cons]
    rw [hb, GetVarint32Ptr_EncodeVarint32 _ hK]
    simp only
    rw [hb, ← List.drop_drop, List.drop_left' rfl] at hv
    exact hv

theorem cursor_decodes_record_witness :
    (MemTableIterator.mk [] ⟨MemTable.entryBuffer 7 .kTypeValue (bytesOf "key")
      (bytesOf "val") :: []⟩).value = bytesOf "val" :=
  (cursor_decodes_record 7 .kTypeValue (bytesOf "key") (bytesOf "val") [] []
    (by decide) (by decide) (by decide)).2.2.2.2.2


/-! ## `FindShortestSeparator` outside its precondition -/

theorem FindShortestSeparator_reference_nil_right (start : List Byte) :
    FindShortestSeparator_reference start [] = start := by
  simp [FindShortestSeparator_reference, commonLength_le]

theorem FindShortestSeparator_reference_of_ge (start limit : List Byte)
    (h : 0 ≤ Slice.compare start limit) :
    FindShortestSeparator_reference start limit = start := by
  induction start generalizing limit with
  | nil => exact FindShortestSeparator_reference_nil_left limit
  | cons x xs ih =>
    cases limit with
    | nil => exact FindShortestSeparator_reference_nil_right (x :: xs)
    | cons y ys =>
      rw [Slice.compare_cons_cons] at h
      by_cases hxy : x = y
      · subst hxy
        simp only [lt_self_iff_false, if_false] at h
        rw [FindShortestSeparator_reference_cons_eq, ih ys h]
      · rw [FindShortestSeparator_reference_cons_ne x y xs ys hxy]
        by_cases hlt : x.val < y.val
        · rw [if_pos hlt] at h
          exact absurd h (by decide)
        · rw [if_neg]
          intro hc
          omega

/-- C22: outside its precondition `FindShortestSeparator` is the identity. For
all byte strings `start` and `limit` with `Compare(start, limit) >= 0` under the
byte-wise comparator, `FindShortestSeparator(&start, limit)` leaves `start`
unchanged. -/
theorem findShortestSeparator_identity_outside (start limit : List Byte)
    (h : 0 ≤ BytewiseComparatorImpl.Compare start limit) :
    BytewiseComparatorImpl.FindShortestSeparator start limit = start := by
  rw [BytewiseComparatorImpl.FindShortestSeparator_eq_reference]
  exact FindShortestSeparator_reference_of_ge start limit h

theorem findShortestSeparator_identity_outside_witness :
    0 ≤ BytewiseComparatorImpl.Compare (bytesOf "hellozoo") (bytesOf "helloworld") ∧
      BytewiseComparatorImpl.FindShortestSeparator (bytesOf "hellozoo") (bytesOf "helloworld")
        = bytesOf "hellozoo" :=
  ⟨by decide, findShortestSeparator_identity_outside (bytesOf "hellozoo") (bytesOf "helloworld")
    (by decide)⟩

/-! ## Ranges stay inside owned blocks -/

theorem Arena.advance_zero (p : Option ArenaPtr) : advance p 0 = p := by
  cases p <;> rfl

/-- The two ways a call is served: from the current block, the bump pointer
advancing by `k` bytes, which are the bytes asked for and the `slop` unless their
sum wraps; or by `AllocateFallback`. -/
theorem Arena.call_cases (base : Nat → Nat) (a : Arena) (c : ArenaCall) :
    (∃ slop k, k ≤ a.alloc_bytes_remaining_ ∧
        ((∀ n, c = .AllocateAligned n → n + 7 < 2 ^ 64) → k = c.bytes + slop) ∧
        a.call base c = (advance a.alloc_ptr_ slop,
          { a with
            alloc_ptr_ := advance a.alloc_ptr_ k
            alloc_bytes_remaining_ := a.alloc_bytes_remaining_ - k })) ∨
      a.call base c = a.AllocateFallback c.bytes := by
  cases c with
  | Allocate n =>
    by_cases h : n ≤ a.alloc_bytes_remaining_
    · refine Or.inl ⟨0, n, h, fun _ => rfl, ?_⟩
      simp only [call, Allocate, if_pos h, Arena.advance_zero]
    · exact Or.inr (by simp only [call, Allocate, if_neg h, ArenaCall.bytes])
  | AllocateAligned n =>
    obtain ⟨slop, _, hslop, he⟩ := Arena.AllocateAligned_eq base a n
    by_cases h : (n + slop) % 2 ^ 64 ≤ a.alloc_bytes_remaining_
    · refine Or.inl ⟨slop, (n + slop) % 2 ^ 64, h, fun hn => ?_, ?_⟩
      · have := hn n rfl
        exact Nat.mod_eq_of_lt (by omega)
      · simp only [call, he, if_pos h]
    · exact Or.inr (by simp only [call, he, if_neg h, ArenaCall.bytes])

theorem rangeInBlock_append (blocks extra : List Nat) (x : Option ArenaPtr × Nat)
    (h : rangeInBlock blocks x) : rangeInBlock (blocks ++ extra) x := by
  obtain ⟨p, n⟩ := x
  cases p with
  | none => exact h
  | some p =>
    obtain ⟨hb, hn⟩ := h
    refine ⟨by rw [List.length_append]; omega, ?_⟩
    rw [List.getD_append _ _ _ _ hb]
    exact hn

/-- What one call keeps: the capacity left is at most `kBlockSize`; the bump
pointer is null with no capacity left and no block acquired for it, or it is in
the block acquired for it most recently, a block of `kBlockSize` bytes that ends
where the capacity left ends; `blocks_` only grows; and the range handed out is
inside one block, when the sum `bytes + slop` does not wrap. -/
theorem Arena.call_current (base : Nat → Nat) (a : Arena) (c : ArenaCall) (cur : Option Nat)
    (h1 : a.alloc_bytes_remaining_ ≤ kBlockSize)
    (h0 : a.alloc_ptr_ = none → a.alloc_bytes_remaining_ = 0 ∧ cur = none)
    (h2 : ∀ p, a.alloc_ptr_ = some p → cur = some p.block ∧ p.block < a.blocks_.length ∧
      a.blocks_.getD p.block 0 = kBlockSize ∧ p.offset + a.alloc_bytes_remaining_ = kBlockSize) :
    (a.call base c).2.alloc_bytes_remaining_ ≤ kBlockSize ∧
      ((a.call base c).2.alloc_ptr_ = none →
        (a.call base c).2.alloc_bytes_remaining_ = 0 ∧
          (if a.acquiresStandardBlock base c then some a.blocks_.length else cur) = none) ∧
      (∀ p, (a.call base c).2.alloc_ptr_ = some p →
        (if a.acquiresStandardBlock base c then some a.blocks_.length else cur) = some p.block ∧
          p.block < (a.call base c).2.blocks_.length ∧
          (a.call base c).2.blocks_.getD p.block 0 = kBlockSize ∧
          p.offset + (a.call base c).2.alloc_bytes_remaining_ = kBlockSize) ∧
      (∃ extra, (a.call base c).2.blocks_ = a.blocks_ ++ extra) ∧
      ((∀ n, c = .AllocateAligned n → n + 7 < 2 ^ 64) →
        rangeInBlock (a.call base c).2.blocks_ ((a.call base c).1, c.bytes)) := by
  have hK : kBlockSize = 4096 := rfl
  rcases Arena.call_cases base a c with ⟨slop, k, hk, hkeq, he⟩ | he
  · -- served from the current block
    have hacq : a.acquiresStandardBlock base c = false := by
      simp [acquiresStandardBlock, he]
    rw [hacq, he]
    simp only [Bool.false_eq_true, if_false]
    refine ⟨by omega, ?_, ?_, ⟨[], by simp⟩, ?_⟩
    · intro hp
      rcases hq : a.alloc_ptr_ with _ | q
      · have := h0 hq
        exact ⟨by omega, this.2⟩
      · rw [hq] at hp
        simp [advance] at hp
    · intro p hp
      rcases hq : a.alloc_ptr_ with _ | q
      · rw [hq] at hp
        simp [advance] at hp
      · rw [hq] at hp
        simp only [advance, Option.map_some', Option.some.injEq] at hp
        obtain ⟨g1, g2, g3, g4⟩ := h2 q hq
        subst hp
        exact ⟨g1, g2, g3, by simp only; omega⟩
    · intro hc
      have hkk := hkeq hc
      rcases hq : a.alloc_ptr_ with _ | q
      · have := (h0 hq).1
        simp only [advance, Option.map_none', rangeInBlock]
        omega
      · obtain ⟨_, g2, g3, g4⟩ := h2 q hq
        simp only [advance, Option.map_some', rangeInBlock]
        exact ⟨g2, by omega⟩
  · -- served by `AllocateFallback`
    rw [Arena.AllocateFallback_eq] at he
    by_cases hbig : c.bytes > kBlockSize / 4
    · rw [if_pos hbig] at he
      have hacq : a.acquiresStandardBlock base c = false := by
        simp only [acquiresStandardBlock, he, decide_eq_false_iff_not, not_and, not_le]
        intro _
        exact hbig
      rw [hacq, he]
      simp only [Bool.false_eq_true, if_false]
      refine ⟨h1, h0, ?_, ⟨[c.bytes], rfl⟩, ?_⟩
      · intro p hp
        obtain ⟨g1, g2, g3, g4⟩ := h2 p hp
        refine ⟨g1, by rw [List.length_append]; omega, ?_, g4⟩
        rw [List.getD_append _ _ _ _ g2]
        exact g3
      · intro _
        simp [rangeInBlock]
    · rw [if_neg hbig] at he
      have hsmall : c.bytes ≤ 1024 := by
        have : kBlockSize / 4 = 1024 := rfl
        omega
      have hacq : a.acquiresStandardBlock base c = true := by
        simp only [acquiresStandardBlock, he, decide_eq_true_eq, List.length_append,
          List.length_singleton]
        exact ⟨by omega, by omega⟩
      rw [hacq, he]
      simp only [if_true]
      refine ⟨by omega, ?_, ?_, ⟨[kBlockSize], rfl⟩, ?_⟩
      · intro hp
        simp at hp
      · intro p hp
        simp only [Option.some.injEq] at hp
        subst hp
        simp only [List.length_append, List.length_singleton]
        refine ⟨trivial, by omega, ?_, by omega⟩
        simp [List.getD_append_right]
      · intro _
        simp only [rangeInBlock, List.length_append, List.length_singleton]
        refine ⟨by omega, ?_⟩
        simp [List.getD_append_right]
        omega

theorem Arena.after_current (base : Nat → Nat) (calls : List ArenaCall) (a : Arena)
    (cur : Option Nat)
    (h1 : a.alloc_bytes_remaining_ ≤ kBlockSize)
    (h0 : a.alloc_ptr_ = none → a.alloc_bytes_remaining_ = 0 ∧ cur = none)
    (h2 : ∀ p, a.alloc_ptr_ = some p → cur = some p.block ∧ p.block < a.blocks_.length ∧
      a.blocks_.getD p.block 0 = kBlockSize ∧ p.offset + a.alloc_bytes_remaining_ = kBlockSize) :
    (a.after base calls).alloc_bytes_remaining_ ≤ kBlockSize ∧
      ((a.after base calls).alloc_ptr_ = none →
        (a.after base calls).alloc_bytes_remaining_ = 0 ∧ a.currentBlock base cur calls = none) ∧
      (∀ p, (a.after base calls).alloc_ptr_ = some p →
        a.currentBlock base cur calls = some p.block ∧
          p.block < (a.after base calls).blocks_.length ∧
          (a.after base calls).blocks_.getD p.block 0 = kBlockSize ∧
          p.offset + (a.after base calls).alloc_bytes_remaining_ = kBlockSize) ∧
      ∃ extra, (a.after base calls).blocks_ = a.blocks_ ++ extra := by
  induction calls generalizing a cur with
  | nil => exact ⟨h1, h0, h2, [], by simp [Arena.after]⟩
  | cons c cs ih =>
    obtain ⟨g1, g0, g2, ⟨e1, he1⟩, _⟩ := Arena.call_current base a c cur h1 h0 h2
    obtain ⟨k1, k0, k2, ⟨e2, he2⟩⟩ := ih (a.call base c).2 _ g1 g0 g2
    simp only [Arena.after, List.foldl_cons, Arena.currentBlock] at k1 k0 k2 he2 ⊢
    exact ⟨k1, k0, k2, e1 ++ e2, by rw [he2, he1, List.append_assoc]⟩

theorem Arena.returned_inBlock (base : Nat → Nat) (calls : List ArenaCall) (a : Arena)
    (cur : Option Nat)
    (hcalls : ∀ c ∈ calls, ∀ n, c = .AllocateAligned n → n + 7 < 2 ^ 64)
    (h1 : a.alloc_bytes_remaining_ ≤ kBlockSize)
    (h0 : a.alloc_ptr_ = none → a.alloc_bytes_remaining_ = 0 ∧ cur = none)
    (h2 : ∀ p, a.alloc_ptr_ = some p → cur = some p.block ∧ p.block < a.blocks_.length ∧
      a.blocks_.getD p.block 0 = kBlockSize ∧ p.offset + a.alloc_bytes_remaining_ = kBlockSize) :
    ∀ x ∈ a.returned base calls, rangeInBlock (a.after base calls).blocks_ x := by
  induction calls generalizing a cur with
  | nil => intro x hx; simp [Arena.returned] at hx
  | cons c cs ih =>
    obtain ⟨g1, g0, g2, _, gr⟩ := Arena.call_current base a c cur h1 h0 h2
    obtain ⟨_, _, _, ⟨e, he⟩⟩ := Arena.after_current base cs (a.call base c).2 _ g1 g0 g2
    have hih := ih (a.call base c).2 _ (fun c' hc' => hcalls c' (List.mem_cons_of_mem _ hc'))
      g1 g0 g2
    intro x hx
    simp only [Arena.after, List.foldl_cons] at he hih ⊢
    rcases List.mem_cons.1 hx with rfl | hx
    · rw [he]
      exact rangeInBlock_append _ _ _ (gr (hcalls c (List.mem_cons_self _ _)))
    · exact hih x hx

/-- C21 (as amended): allocations stay inside owned blocks. In every `Arena`
state reachable from the empty `Arena` by `Allocate` and `AllocateAligned` calls,
the remaining capacity is at most 4096 and the bump pointer plus the remaining
capacity is exactly the end of the block most recently acquired for the bump
pointer by `alloc_ptr_ = AllocateNewBlock(kBlockSize)`, a block of 4096 bytes
(both are zero and null exactly if no block was acquired that way); and when
every `AllocateAligned(n)` call has `n + 7 < 2^64`, every returned range
`[p, p + n)` lies entirely within a single owned block, the null pointer being
returned for an empty range only. -/
theorem arena_ranges_in_blocks (base : Nat → Nat) (calls : List ArenaCall) :
    (Arena.new.after base calls).alloc_bytes_remaining_ ≤ 4096 ∧
      ((Arena.new.after base calls).alloc_ptr_ = none →
        (Arena.new.after base calls).alloc_bytes_remaining_ = 0 ∧
          Arena.new.currentBlock base none calls = none) ∧
      (∀ p, (Arena.new.after base calls).alloc_ptr_ = some p →
        Arena.new.currentBlock base none calls = some p.block ∧
          p.block < (Arena.new.after base calls).blocks_.length ∧
          (Arena.new.after base calls).blocks_.getD p.block 0 = 4096 ∧
          p.offset + (Arena.new.after base calls).alloc_bytes_remaining_ = 4096) ∧
      ((∀ c ∈ calls, ∀ n, c = .AllocateAligned n → n + 7 < 2 ^ 64) →
        ∀ x ∈ Arena.new.returned base calls,
          rangeInBlock (Arena.new.after base calls).blocks_ x) := by
  have h1 : Arena.new.alloc_bytes_remaining_ ≤ Arena.kBlockSize := by decide
  have h0 : Arena.new.alloc_ptr_ = none →
      Arena.new.alloc_bytes_remaining_ = 0 ∧ (none : Option Nat) = none := fun _ => ⟨rfl, rfl⟩
  have h2 : ∀ p, Arena.new.alloc_ptr_ = some p →
      (none : Option Nat) = some p.block ∧ p.block < Arena.new.blocks_.length ∧
        Arena.new.blocks_.getD p.block 0 = Arena.kBlockSize ∧
        p.offset + Arena.new.alloc_bytes_remaining_ = Arena.kBlockSize := by
    intro p hp
    simp [Arena.new] at hp
  obtain ⟨g1, g0, g2, _⟩ := Arena.after_current base calls Arena.new none h1 h0 h2
  exact ⟨g1, g0, g2, fun hcalls =>
    Arena.returned_inBlock base calls Arena.new none hcalls h1 h0 h2⟩

theorem arena_ranges_in_blocks_witness :
    (∀ c ∈ [ArenaCall.Allocate 1, .AllocateAligned 5, .Allocate 4096, .AllocateAligned 0,
        .Allocate 2000, .AllocateAligned 3000, .Allocate 100],
        ∀ n, c = .AllocateAligned n → n + 7 < 2 ^ 64) ∧
      ∀ x ∈ Arena.new.returned (fun b => 65536 * (b + 1))
          [.Allocate 1, .AllocateAligned 5, .Allocate 4096, .AllocateAligned 0,
            .Allocate 2000, .AllocateAligned 3000, .Allocate 100],
        rangeInBlock (Arena.new.after (fun b => 65536 * (b + 1))
          [.Allocate 1, .AllocateAligned 5, .Allocate 4096, .AllocateAligned 0,
            .Allocate 2000, .AllocateAligned 3000, .Allocate 100]).blocks_ x :=
  have hcalls : ∀ c ∈ [ArenaCall.Allocate 1, .AllocateAligned 5, .Allocate 4096,
      .AllocateAligned 0, .Allocate 2000, .AllocateAligned 3000, .Allocate 100],
      ∀ n, c = .AllocateAligned n → n + 7 < 2 ^ 64 := by
    intro c hc
    simp only [List.mem_cons, List.mem_singleton, List.not_mem_nil, or_false] at hc
    rcases hc with rfl | rfl | rfl | rfl | rfl | rfl | rfl <;>
      intro n hn <;> cases hn <;> decide
  ⟨hcalls, (arena_ranges_in_blocks (fun b => 65536 * (b + 1)) _).2.2.2 hcalls⟩

/-- C21 fails in two ways. A request that wraps `bytes + slop`: from the empty
arena, with blocks at multiples of 8, `Allocate(1)` and
`AllocateAligned(2^64 - 7)` acquire one block of 4096 bytes, and the second call
returns the offset 8 of it for `2^64 - 7` bytes, its `needed` being
`(2^64 - 7 + 7) mod 2^64 = 0`. A block of 4096 bytes that is not the current
block: after `Allocate(1)` and `Allocate(4096)` the block acquired last has 4096
bytes, handed out whole by the second call, and the bump pointer and the 4095
bytes left are in the block before it; after `Allocate(4096)` alone a block of
4096 bytes is owned and the bump pointer is null. -/
theorem arena_ranges_in_blocks_counterexample :
    (Arena.new.returned (fun b => 65536 * (b + 1)) [.Allocate 1, .AllocateAligned (2 ^ 64 - 7)]
        = [(some ⟨0, 0⟩, 1), (some ⟨0, 8⟩, 2 ^ 64 - 7)] ∧
      (Arena.new.after (fun b => 65536 * (b + 1))
        [.Allocate 1, .AllocateAligned (2 ^ 64 - 7)]).blocks_ = [4096] ∧
      ¬ rangeInBlock [4096] (some ⟨0, 8⟩, 2 ^ 64 - 7)) ∧
      (Arena.new.returned (fun b => 65536 * (b + 1)) [.Allocate 1, .Allocate 4096]
          = [(some ⟨0, 0⟩, 1), (some ⟨1, 0⟩, 4096)] ∧
        (Arena.new.after (fun b => 65536 * (b + 1)) [.Allocate 1, .Allocate 4096]).blocks_
          = [4096, 4096] ∧
        (Arena.new.after (fun b => 65536 * (b + 1)) [.Allocate 1, .Allocate 4096]).alloc_ptr_
          = some ⟨0, 1⟩ ∧
        (Arena.new.after (fun b => 65536 * (b + 1))
          [.Allocate 1, .Allocate 4096]).alloc_bytes_remaining_ = 4095) ∧
      ((Arena.new.after (fun b => 65536 * (b + 1)) [.Allocate 4096]).blocks_ = [4096] ∧
        (Arena.new.after (fun b => 65536 * (b + 1)) [.Allocate 4096]).alloc_ptr_ = none ∧
        (Arena.new.after (fun b => 65536 * (b + 1)) [.Allocate 4096]).alloc_bytes_remaining_
          = 0) := by
  decide
end leveldb
